import Mathlib

/-!
# The C/C++ unifier of ccache (`unify.c`)

A shallow embedding of `unify.c`: the operator catalog `s_tokens`, the byte
class table filled by `build_table`, the accumulator `pushchar` in front of the
hash sink, and the dispatch loop of `unify`.

Conventions of the embedding.

* A byte is a natural number (0..255).  The memory the pointer `p` points into
  is a total function `Nat → Nat`: `p i` is the byte stored at `p[i]`.  The
  buffer handed to `unify` is the part of it below `size`; what is stored at
  and above `size` is memory that does not belong to the buffer.  Every
  evaluation of `p[i]` is recorded in the field `reads` of the scanner state.
* `hash_buffer` is external.  Its calls are recorded as a list of `SinkCall`s.
* The static variables of `pushchar` (`buf`, `len`) are the explicit state
  `Accum`.
* Loops are structural recursions on a counter that starts at `size - ofs`; each
  pass moves the cursor forward, so the counter never runs out before the loop
  condition fails (theorems `scanWhile_unfold`, `mainLoop_unfold` below state the
  loop equations).
-/

namespace Unify

/-! ## Bytes and the `<ctype.h>` predicates -/

/-- Bytes of a C string literal, without the terminating NUL. -/
def str (s : String) : List Nat := s.toList.map Char.toNat

/-- Modelled from the spec: `isdigit` of `<ctype.h>` in the C locale (decimal digit). -/
def isdigit (c : Nat) : Bool := decide (48 ≤ c ∧ c ≤ 57)

/-- Modelled from the spec: `isalpha` of `<ctype.h>` in the C locale (ASCII letter). -/
def isalpha (c : Nat) : Bool := decide ((65 ≤ c ∧ c ≤ 90) ∨ (97 ≤ c ∧ c ≤ 122))

/-- Modelled from the spec: `isspace` of `<ctype.h>` in the C locale
(space, tab, newline, vertical tab, form feed, carriage return). -/
def isspace (c : Nat) : Bool := decide (c = 32 ∨ (9 ≤ c ∧ c ≤ 13))

/-- Modelled from the spec: `isxdigit` of `<ctype.h>` in the C locale (hex digit). -/
def isxdigit (c : Nat) : Bool :=
  decide ((48 ≤ c ∧ c ≤ 57) ∨ (65 ≤ c ∧ c ≤ 70) ∨ (97 ≤ c ∧ c ≤ 102))

/-! ## The operator catalog and the class table -/

/-- The array `s_tokens`, in source order, without the terminating `0`. -/
def s_tokens : List (List Nat) :=
  [ str "...", str ">>=", str "<<=", str "+=", str "-=", str "*=", str "/=", str "%=", str "&=", str "^=",
    str "|=", str ">>", str "<<", str "++", str "--", str "->", str "&&", str "||", str "<=", str ">=",
    str "==", str "!=", str ";", str "\x7b", str "<%", str "\x7d", str "%>", str ",", str ":", str "=",
    str "(", str ")", str "[", str "<:", str "]", str ":>", str ".", str "&", str "!", str "~",
    str "-", str "+", str "*", str "/", str "%", str "<", str ">", str "^", str "|", str "?" ]

def C_ALPHA : Nat := 1
def C_SPACE : Nat := 2
def C_TOKEN : Nat := 4
def C_QUOTE : Nat := 8
def C_DIGIT : Nat := 16
def C_HEX : Nat := 32
def C_FLOAT : Nat := 64
def C_SIGN : Nat := 128

/-- One element of the array `tokens[256]`.  A slot of `toks` is `none` when it
holds the null pointer left by `memset`. -/
structure Entry where
  type : Nat
  num_toks : Nat
  toks : List (Option (List Nat))
deriving DecidableEq, Repr

/-- An element of `tokens` after `memset(tokens, 0, sizeof(tokens))`. -/
def Entry.zero : Entry := ⟨0, 0, List.replicate 7 none⟩

/-- The statement `tokens[c].type |= bit`. -/
def orType (t : List Entry) (c bit : Nat) : List Entry :=
  t.modify (fun e => { e with type := e.type ||| bit }) c

/-- Body of the first loop of `build_table`, for one value of `c`. -/
def classify (t : List Entry) (c : Nat) : List Entry :=
  let t := if isalpha c || c == 95 then orType t c C_ALPHA else t
  let t := if isdigit c then orType t c C_DIGIT else t
  let t := if isspace c then orType t c C_SPACE else t
  if isxdigit c then orType t c C_HEX else t

/-- Body of the second loop of `build_table`, for the catalog entry `s`:
`c = s[0]; tokens[c].type |= C_TOKEN; tokens[c].toks[tokens[c].num_toks] = s;
tokens[c].num_toks++`.  A store at an index outside the 7 slots of `toks` is not
represented (`List.set` leaves the list as it is). -/
def addToken (t : List Entry) (s : List Nat) : List Entry :=
  let c := s.headD 0
  let t := orType t c C_TOKEN
  let t := t.modify (fun e => { e with toks := e.toks.set e.num_toks (some s) }) c
  t.modify (fun e => { e with num_toks := e.num_toks + 1 }) c

/-- The first part of `build_table`: the contents of `tokens` after the `memset`, the
loop `for (c=0;c<128;c++)` and the ten assignments that follow it. -/
def classTable : List Entry :=
  let t := List.replicate 256 Entry.zero
  let t := (List.range 128).foldl classify t
  let t := orType t 39 C_QUOTE
  let t := orType t 34 C_QUOTE
  let t := orType t 108 C_FLOAT
  let t := orType t 76 C_FLOAT
  let t := orType t 102 C_FLOAT
  let t := orType t 70 C_FLOAT
  let t := orType t 85 C_FLOAT
  let t := orType t 117 C_FLOAT
  let t := orType t 45 C_SIGN
  orType t 43 C_SIGN

/-- The function `build_table`: the contents of `tokens` once it has run, that is
after the loop `for (i=0;s_tokens[i];i++)` over the catalog. -/
def build_table : List Entry :=
  s_tokens.foldl addToken classTable

/-- The element `tokens[c]` of the built table (`c` is an `unsigned char`). -/
def tokens (c : Nat) : Entry := build_table.getD c Entry.zero

/-- The test `tokens[c].type & mask`. -/
def hasType (mask : Nat) (c : Nat) : Bool := (tokens c).type &&& mask != 0

/-! ## The accumulator in front of the hash sink -/

/-- A call of the external `hash_buffer`: `data bs` is `hash_buffer(buf, len)`
with `bs` the first `len` bytes of `buf`; `boundary` is `hash_buffer(NULL, 0)`. -/
inductive SinkCall where
  | data (bytes : List Nat)
  | boundary
deriving DecidableEq, Repr

/-- The static variables of `pushchar` and the calls of `hash_buffer` made so far. -/
structure Accum where
  buf : List Nat
  len : Nat
  calls : List SinkCall
deriving DecidableEq, Repr

/-- The accumulator at program start: `buf` zero-filled, `len = 0`, no call yet. -/
def Accum.init : Accum := ⟨List.replicate 64 0, 0, []⟩

/-- The function `pushchar`. -/
def pushchar (c : Nat) (a : Accum) : Accum :=
  if c = 0 then
    { a with len := 0, calls := a.calls ++ [SinkCall.data (a.buf.take a.len), SinkCall.boundary] }
  else
    let buf := a.buf.set a.len c
    let len := a.len + 1
    if len = 64 then
      { buf := buf, len := 0, calls := a.calls ++ [SinkCall.data (buf.take len)] }
    else
      { a with buf := buf, len := len }

/-- The calls `pushchar(c)` for the bytes `c` of `bs`, in order. -/
def pushAll (bs : List Nat) (a : Accum) : Accum := bs.foldl (fun a c => pushchar c a) a

/-- The bytes the sink has received: the payloads of the `data` calls in call order. -/
def delivered : List SinkCall → List Nat
  | [] => []
  | SinkCall.data bs :: cs => bs ++ delivered cs
  | SinkCall.boundary :: cs => delivered cs

/-- Number of `hash_buffer(NULL, 0)` calls. -/
def boundaries (cs : List SinkCall) : Nat := cs.count SinkCall.boundary

/-- The accumulator is well formed: 64 slots, fewer than 64 of them in use. -/
def Accum.wf (a : Accum) : Prop := a.buf.length = 64 ∧ a.len < 64

/-- What the sink has received together with what is still buffered. -/
def Accum.stream (a : Accum) : List Nat := delivered a.calls ++ a.buf.take a.len

/-! ## The scanner -/

/-- State of the dispatch loop of `unify`: the cursor `ofs`, the arguments of the
`pushchar` calls made so far (`out`), the indices at which `p` has been read
(`reads`), and `fault`, set when the operator branch runs off its candidate list
(null candidate pointer, or no progress). -/
structure Scan where
  ofs : Nat
  out : List Nat
  reads : List Nat
  fault : Bool
deriving DecidableEq, Repr

/-- Record an evaluation of `p[i]`. -/
def Scan.rd (s : Scan) (i : Nat) : Scan := { s with reads := s.reads ++ [i] }

/-- A call `pushchar(c)`. -/
def Scan.push (s : Scan) (c : Nat) : Scan := { s with out := s.out ++ [c] }

/-- The statement `ofs += k`. -/
def Scan.adv (s : Scan) (k : Nat) : Scan := { s with ofs := s.ofs + k }

/-- The statement pair `pushchar(p[ofs]); ofs++;`. -/
def copyByte (p : Nat → Nat) (s : Scan) : Scan := (((s.rd s.ofs).push (p s.ofs)).adv 1)

/-- The loop `while (ofs < size && c(p[ofs])) { [pushchar(p[ofs]);] ofs++; }`,
where the body pushes the byte when `emit` is set. -/
def runWhile (p : Nat → Nat) (size : Nat) (c : Nat → Bool) (emit : Bool) : Nat → Scan → Scan
  | 0, s => s
  | n + 1, s =>
    if s.ofs < size then
      let s1 := s.rd s.ofs
      if c (p s.ofs) then
        runWhile p size c emit n (if emit then copyByte p s1 else s1.adv 1)
      else s1
    else s

/-- The loop `runWhile` started with the counter `size - ofs`. -/
def scanWhile (p : Nat → Nat) (size : Nat) (c : Nat → Bool) (emit : Bool) (s : Scan) : Scan :=
  runWhile p size c emit (size - s.ofs) s

/-- The `#` branch when the line is a line-number directive:
`do { ofs++; } while (ofs < size && p[ofs] != 10); ofs++;`. -/
def skipLine (p : Nat → Nat) (size : Nat) (s : Scan) : Scan :=
  (scanWhile p size (fun c => c != 10) false (s.adv 1)).adv 1

/-- The `#` branch otherwise:
`do { pushchar(p[ofs]); ofs++; } while (ofs < size && p[ofs] != 10); pushchar(10); ofs++;`. -/
def verbatimLine (p : Nat → Nat) (size : Nat) (s : Scan) : Scan :=
  ((scanWhile p size (fun c => c != 10) true (copyByte p s)).push 10).adv 1

/-- The branch `if (p[ofs] == 35)`, with the test
`(size-ofs) > 2 && p[ofs+1] == 32 && isdigit(p[ofs+2])` evaluated left to right. -/
def directive (p : Nat → Nat) (size : Nat) (s : Scan) : Scan :=
  if size - s.ofs > 2 then
    let s1 := s.rd (s.ofs + 1)
    if p (s.ofs + 1) = 32 then
      let s2 := s1.rd (s.ofs + 2)
      if isdigit (p (s.ofs + 2)) then skipLine p size s2 else verbatimLine p size s2
    else verbatimLine p size s1
  else verbatimLine p size s

/-- The branch `if (tokens[p[ofs]].type & C_ALPHA)`. -/
def identifier (p : Nat → Nat) (size : Nat) (s : Scan) : Scan :=
  (scanWhile p size (hasType (C_ALPHA ||| C_DIGIT)) true (copyByte p s)).push 10

/-- The part `if (p[ofs] == 120 || p[ofs] == 88) { do { ... } while (... & C_HEX); }`
of the number branch.  The test reads `p[ofs]` without comparing `ofs` with `size`. -/
def hexPart (p : Nat → Nat) (size : Nat) (s : Scan) : Scan :=
  let s1 := s.rd s.ofs
  if p s.ofs = 120 ∨ p s.ofs = 88 then
    scanWhile p size (hasType C_HEX) true (copyByte p s1)
  else s1

/-- The part `if (p[ofs] == 69 || p[ofs] == 101) { pushchar(p[ofs]); ofs++; while (...) ... }`
of the number branch.  The test reads `p[ofs]` without comparing `ofs` with `size`. -/
def expPart (p : Nat → Nat) (size : Nat) (s : Scan) : Scan :=
  let s1 := s.rd s.ofs
  if p s.ofs = 69 ∨ p s.ofs = 101 then
    scanWhile p size (hasType (C_DIGIT ||| C_SIGN)) true (copyByte p s1)
  else s1

/-- The branch `if (tokens[p[ofs]].type & C_DIGIT)`. -/
def number (p : Nat → Nat) (size : Nat) (s : Scan) : Scan :=
  let s1 := scanWhile p size (fun c => hasType C_DIGIT c || c == 46) true (copyByte p s)
  let s2 := hexPart p size s1
  let s3 := expPart p size s2
  let s4 := scanWhile p size (hasType C_FLOAT) true s3
  s4.push 10

/-- The branch `if (tokens[p[ofs]].type & C_SPACE)`. -/
def whitespace (p : Nat → Nat) (size : Nat) (s : Scan) : Scan :=
  scanWhile p size (hasType C_SPACE) false (s.adv 1)

/-- The inner loop of the quote branch:
`while (ofs < size-1 && p[ofs] == 92) { pushchar(p[ofs]); pushchar(p[ofs+1]); ofs+=2; }`.
It only runs with `size ≥ 1`, so `size - 1` does not wrap. -/
def escLoop (p : Nat → Nat) (size : Nat) : Nat → Scan → Scan
  | 0, s => s
  | n + 1, s =>
    if s.ofs < size - 1 then
      let s1 := s.rd s.ofs
      if p s.ofs = 92 then
        escLoop p size n
          (((((s1.rd s.ofs).push (p s.ofs)).rd (s.ofs + 1)).push (p (s.ofs + 1))).adv 2)
      else s1
    else s

/-- The statements of the `do ... while` body of the quote branch that follow
`ofs++`: `while (...) { ... } pushchar(p[ofs]);`. -/
def quoteRest (p : Nat → Nat) (size : Nat) (s : Scan) : Scan :=
  let s2 := escLoop p size (size - s.ofs) s
  (s2.rd s2.ofs).push (p s2.ofs)

/-- Body of the `do ... while` of the quote branch:
`ofs++; while (...) { ... } pushchar(p[ofs]);`. -/
def quoteBody (p : Nat → Nat) (size : Nat) (s : Scan) : Scan :=
  quoteRest p size (s.adv 1)

/-- The repetition `while (ofs < size && p[ofs] != q) body` that follows the first
pass of the `do ... while` of the quote branch. -/
def quoteLoop (p : Nat → Nat) (size : Nat) (q : Nat) : Nat → Scan → Scan
  | 0, s => s
  | n + 1, s =>
    if s.ofs < size then
      let s1 := s.rd s.ofs
      if p s.ofs ≠ q then quoteLoop p size q n (quoteBody p size s1) else s1
    else s

/-- The branch `if (tokens[p[ofs]].type & C_QUOTE)`. -/
def literal (p : Nat → Nat) (size : Nat) (s : Scan) : Scan :=
  let q := p s.ofs
  let s1 := ((s.rd s.ofs).rd s.ofs).push (p s.ofs)
  let s2 := quoteBody p size s1
  let s3 := quoteLoop p size q (size - s2.ofs) s2
  (s3.push 10).adv 1

/-- The test `strncmp(&p[i], s, strlen(s)) == 0`: the bytes of `s` are compared
with `p[i]`, `p[i+1]`, ... up to the first difference. -/
def matchAt (p : Nat → Nat) : Nat → List Nat → Scan → Bool × Scan
  | _, [], s => (true, s)
  | i, c :: cs, s =>
    let s1 := s.rd i
    if p i = c then matchAt p (i + 1) cs s1 else (false, s1)

/-- The loop `for (j=0;s[j];j++) { pushchar(s[j]); ofs++; }`. -/
def copyTok (t : List Nat) (s : Scan) : Scan :=
  t.foldl (fun s c => (s.push c).adv 1) s

/-- The search `for (i=0;tokens[q].num_toks;i++)` over the candidate slots from
slot `i` on (the list holds `toks[i]`, `toks[i+1]`, ...).  The loop has no bound
on `i`: reaching a null slot or the end of the 7 slots is a fault. -/
def findTok (p : Nat → Nat) : List (Option (List Nat)) → Scan → Scan
  | [], s => { s with fault := true }
  | none :: _, s => { s with fault := true }
  | some t :: rest, s =>
    let r := matchAt p s.ofs t s
    if r.1 then (copyTok t r.2).push 10 else findTok p rest r.2

/-- The branch `if (tokens[p[ofs]].type & C_TOKEN)`.  With `num_toks == 0` the
`for` loop is not entered and the `continue` makes no progress. -/
def operator (p : Nat → Nat) (s : Scan) : Scan :=
  let e := tokens (p s.ofs)
  let s1 := s.rd s.ofs
  if e.num_toks = 0 then { s1 with fault := true } else findTok p e.toks s1

/-- The last three statements of the loop body: `pushchar(p[ofs]); pushchar(10); ofs++;`. -/
def fallback (p : Nat → Nat) (s : Scan) : Scan :=
  (((s.rd s.ofs).push (p s.ofs)).push 10).adv 1

/-- One pass through the body of `for (ofs=0; ofs<size;)`. -/
def step (p : Nat → Nat) (size : Nat) (s : Scan) : Scan :=
  let c := p s.ofs
  let s := s.rd s.ofs
  if c = 35 then directive p size s
  else
    let s := s.rd s.ofs
    if hasType C_ALPHA c then identifier p size s
    else
      let s := s.rd s.ofs
      if hasType C_DIGIT c then number p size s
      else
        let s := s.rd s.ofs
        if hasType C_SPACE c then whitespace p size s
        else
          let s := s.rd s.ofs
          if hasType C_QUOTE c then literal p size s
          else
            let s := s.rd s.ofs
            if hasType C_TOKEN c then operator p s
            else fallback p s

/-- The loop `for (ofs=0; ofs<size;) { ... }` run from the state `s`; a fault ends it. -/
def mainLoop (p : Nat → Nat) (size : Nat) : Nat → Scan → Scan
  | 0, s => s
  | n + 1, s => if s.ofs < size ∧ s.fault = false then mainLoop p size n (step p size s) else s

/-- The scanner state at the start of `unify`: `ofs = 0`, nothing emitted or read. -/
def Scan.init : Scan := ⟨0, [], [], false⟩

/-- The dispatch loop of `unify(p, size)` from `ofs = 0`. -/
def scan (p : Nat → Nat) (size : Nat) : Scan :=
  mainLoop p size size Scan.init

/-- The function `unify`: the `pushchar` calls of the dispatch loop in order, then
`pushchar(0)`, applied to the accumulator `a`.  (`build_table` only fills
`tokens`, which the embedding reads through `tokens`.) -/
def unify (p : Nat → Nat) (size : Nat) (a : Accum) : Accum :=
  pushchar 0 (pushAll (scan p size).out a)

/-- Memory that holds the bytes `buf` from `p[0]` on, followed by the bytes `beyond`
(`beyond 0` is the byte right after the buffer). -/
def mem (buf : List Nat) (beyond : Nat → Nat) : Nat → Nat :=
  fun i => if i < buf.length then buf.getD i 0 else beyond (i - buf.length)

/-- The bytes `unify` emits for the buffer `buf`: the arguments of the `pushchar`
calls of its dispatch loop, in call order. -/
def emitted (buf : List Nat) (beyond : Nat → Nat) : List Nat :=
  (scan (mem buf beyond) buf.length).out

/-- The indices at which `unify` reads `p` for the buffer `buf`. -/
def readIndices (buf : List Nat) (beyond : Nat → Nat) : List Nat :=
  (scan (mem buf beyond) buf.length).reads

/-- The calls of `hash_buffer` made by `unify` for the buffer `buf`, from the
accumulator at program start. -/
def sinkCalls (buf : List Nat) (beyond : Nat → Nat) : List SinkCall :=
  (unify (mem buf beyond) buf.length Accum.init).calls

/-- Memory in which every byte after the buffer is NUL. -/
def zeros : Nat → Nat := fun _ => 0

/-- The memory seen from the pointer `p + k`. -/
def shift (p : Nat → Nat) (k : Nat) : Nat → Nat := fun i => p (i + k)

/-- The state `s` of a scan of `(p, size)` corresponds to the state `t` of a scan of
`(p + k, size - k)`: same position in memory, same fault flag, and `s` has emitted
`pre` before what `t` has emitted. -/
def Sim (k : Nat) (pre : List Nat) (s t : Scan) : Prop :=
  s.ofs = t.ofs + k ∧ s.out = pre ++ t.out ∧ s.fault = t.fault

/-- The bytes `l` are stored at `p[k]`, `p[k+1]`, ... -/
def holds (p : Nat → Nat) (k : Nat) : List Nat → Prop
  | [] => True
  | x :: l => p k = x ∧ holds p (k + 1) l

/-- The line starts with `#`, a space and a decimal digit (a line-number directive). -/
def lineNumberForm : List Nat → Bool
  | _ :: 32 :: d :: _ => isdigit d
  | _ => false

/-- A directive line that is not a line-number directive: it starts with `#`, does
not go on with a space and a digit, and holds neither a newline nor a NUL byte. -/
def genuineDirective (l : List Nat) : Prop :=
  l.head? = some 35 ∧ lineNumberForm l = false ∧ 10 ∉ l ∧ 0 ∉ l

instance genuineDirective.decidable (l : List Nat) : Decidable (genuineDirective l) :=
  inferInstanceAs (Decidable (l.head? = some 35 ∧ lineNumberForm l = false ∧ 10 ∉ l ∧ 0 ∉ l))

/-- An element of the body of a string or character literal: a single byte, or a
backslash followed by any byte. -/
inductive Item where
  | byte (c : Nat)
  | esc (c : Nat)
deriving DecidableEq, Repr

/-- The bytes of a body element. -/
def Item.bytes : Item → List Nat
  | Item.byte c => [c]
  | Item.esc c => [92, c]

/-- A single byte of a literal delimited by `q` is neither `q` nor the backslash. -/
def Item.ok (q : Nat) : Item → Bool
  | Item.byte c => c != q && c != 92
  | Item.esc _ => true

/-- The bytes of a literal body. -/
def bodyBytes : List Item → List Nat
  | [] => []
  | it :: its => it.bytes ++ bodyBytes its

/-- A line-number directive line: `#`, a space, the decimal digit `d`, the bytes `ds`
(none of them a newline) and the newline that ends the line.  The lines
`# <digits> "<name>"` are of this form. -/
def lineDirective (d : Nat) (ds : List Nat) : List Nat := 35 :: 32 :: d :: ds ++ [10]

/-- The states `s` and `t` have the same cursor, have emitted the same bytes and have
the same fault flag (they may have read different indices). -/
def Same (s t : Scan) : Prop := s.ofs = t.ofs ∧ s.out = t.out ∧ s.fault = t.fault

/-- The memories `p` and `q` hold the same bytes below index `k`. -/
def Agree (p q : Nat → Nat) (k : Nat) : Prop := ∀ i, i < k → p i = q i

/-- The byte `x` is no letter, underscore or digit and no leading byte of an operator
spelling: no identifier, number or operator goes on over it. -/
def endsLexeme (x : Nat) : Bool := !hasType (C_ALPHA ||| C_DIGIT ||| C_TOKEN) x

/-- The offset `k` of the buffer is a lexeme boundary of its scan: the dispatch loop
reaches, without a fault, a cursor position at or before `k` from which only
whitespace bytes lead to `k`.  (The cursor reaches `k` itself, or `k` lies in the
whitespace run that starts at a cursor position.) -/
def boundaryAt (buf : List Nat) (beyond : Nat → Nat) (k : Nat) : Prop :=
  ∃ n, n < buf.length + 1 ∧
    (mainLoop (mem buf beyond) buf.length n Scan.init).fault = false ∧
    (mainLoop (mem buf beyond) buf.length n Scan.init).ofs ≤ k ∧ k ≤ buf.length ∧
    ∀ x ∈ (buf.take k).drop (mainLoop (mem buf beyond) buf.length n Scan.init).ofs,
      isspace x = true

instance boundaryAt.decidable (buf : List Nat) (beyond : Nat → Nat) (k : Nat) :
    Decidable (boundaryAt buf beyond k) :=
  inferInstanceAs (Decidable (∃ n, n < buf.length + 1 ∧
    (mainLoop (mem buf beyond) buf.length n Scan.init).fault = false ∧
    (mainLoop (mem buf beyond) buf.length n Scan.init).ofs ≤ k ∧ k ≤ buf.length ∧
    ∀ x ∈ (buf.take k).drop (mainLoop (mem buf beyond) buf.length n Scan.init).ofs,
      isspace x = true))

/-- The candidate spellings of the byte `c`: the slots `toks[0]` .. `toks[num_toks-1]`
of `tokens[c]`, in order. -/
def candidates (c : Nat) : List (List Nat) :=
  ((tokens c).toks.take (tokens c).num_toks).filterMap id

/-- The spelling `t` is a proper textual start of the spelling `s`. -/
def properStart (t s : List Nat) : Bool := decide (t.length < s.length) && s.take t.length == t

/-- The pairs `(s, t)` of a candidate list that break the catalog order: `t` is a
proper textual start of `s` and stands before `s`. -/
def misordered : List (List Nat) → List (List Nat × List Nat)
  | [] => []
  | t :: rest => (rest.filter (properStart t)).map (fun s => (s, t)) ++ misordered rest

/-- The index `i` at which the search `for (i=0;tokens[q].num_toks;i++)` of the
operator branch finds its match, counted from `i0` for the slots `l`; `none` when the
search reaches a null slot or the end of the slots first. -/
def findSlot (p : Nat → Nat) (ofs : Nat) : List (Option (List Nat)) → Nat → Option Nat
  | [], _ => none
  | none :: _, _ => none
  | some t :: rest, i0 =>
    if (matchAt p ofs t Scan.init).1 then some i0 else findSlot p ofs rest (i0 + 1)

/-- The table after the first `i` passes of the loop `for (i=0;s_tokens[i];i++)`. -/
def tableAfter (i : Nat) : List Entry := (s_tokens.take i).foldl addToken classTable

/-- The byte is an ASCII letter, an underscore or a decimal digit. -/
def isIdent (c : Nat) : Bool := isalpha c || c == 95 || isdigit c

/-- The number of passes through the body of the dispatch loop that `mainLoop` makes
from the state `s` with the counter `n`. -/
def passes (p : Nat → Nat) (size : Nat) : Nat → Scan → Nat
  | 0, _ => 0
  | n + 1, s => if s.ofs < size ∧ s.fault = false then passes p size n (step p size s) + 1 else 0

/-- The memories `p` and `q` hold the same bytes at all indices the state `s` has
recorded as read. -/
def readsAgree (p q : Nat → Nat) (s : Scan) : Prop := ∀ i ∈ s.reads, p i = q i

/-! ## Basic facts about the state operations -/

@[simp]
theorem rd_ofs (s : Scan) (i : Nat) : (s.rd i).ofs = s.ofs := rfl
@[simp]
theorem rd_out (s : Scan) (i : Nat) : (s.rd i).out = s.out := rfl
@[simp]
theorem rd_fault (s : Scan) (i : Nat) : (s.rd i).fault = s.fault := rfl
@[simp]
theorem rd_reads (s : Scan) (i : Nat) : (s.rd i).reads = s.reads ++ [i] := rfl
@[simp]
theorem push_ofs (s : Scan) (c : Nat) : (s.push c).ofs = s.ofs := rfl
@[simp]
theorem push_out (s : Scan) (c : Nat) : (s.push c).out = s.out ++ [c] := rfl
@[simp]
theorem push_fault (s : Scan) (c : Nat) : (s.push c).fault = s.fault := rfl
@[simp]
theorem push_reads (s : Scan) (c : Nat) : (s.push c).reads = s.reads := rfl
@[simp]
theorem adv_ofs (s : Scan) (k : Nat) : (s.adv k).ofs = s.ofs + k := rfl
@[simp]
theorem adv_out (s : Scan) (k : Nat) : (s.adv k).out = s.out := rfl
@[simp]
theorem adv_fault (s : Scan) (k : Nat) : (s.adv k).fault = s.fault := rfl
@[simp]
theorem adv_reads (s : Scan) (k : Nat) : (s.adv k).reads = s.reads := rfl
@[simp]
theorem copyByte_ofs (p : Nat → Nat) (s : Scan) : (copyByte p s).ofs = s.ofs + 1 := rfl
@[simp]
theorem copyByte_out (p : Nat → Nat) (s : Scan) :
    (copyByte p s).out = s.out ++ [p s.ofs] := rfl
@[simp]
theorem copyByte_fault (p : Nat → Nat) (s : Scan) : (copyByte p s).fault = s.fault := rfl

/-- Loop equation of `runWhile`: with a counter of at least `size - ofs`, one more
unit of counter does not change the result. -/
theorem runWhile_fuel (p : Nat → Nat) (size : Nat) (c : Nat → Bool) (emit : Bool) :
    ∀ (n m : Nat) (s : Scan), size - s.ofs ≤ n → size - s.ofs ≤ m →
      runWhile p size c emit n s = runWhile p size c emit m s := by
  intro n
  induction n with
  | zero =>
    intro m s hn _
    cases m with
    | zero => rfl
    | succ m =>
      have h : ¬ s.ofs < size := by omega
      simp [runWhile, h]
  | succ n ih =>
    intro m s _ hm
    cases m with
    | zero =>
      have h : ¬ s.ofs < size := by omega
      simp [runWhile, h]
    | succ m =>
      by_cases h : s.ofs < size
      · by_cases hc : c (p s.ofs) = true
        · cases emit
          · simp only [runWhile, h, hc, if_true]
            exact ih m _ (by simp; omega) (by simp; omega)
          · simp only [runWhile, h, hc, if_true]
            exact ih m _ (by simp; omega) (by simp; omega)
        · simp [runWhile, h, hc]
      · simp [runWhile, h]

/-- The loop equation of `scanWhile`: it is the C loop
`while (ofs < size && c(p[ofs])) body`. -/
theorem scanWhile_unfold (p : Nat → Nat) (size : Nat) (c : Nat → Bool) (emit : Bool) (s : Scan) :
    scanWhile p size c emit s =
      if s.ofs < size then
        if c (p s.ofs) then
          scanWhile p size c emit (if emit then copyByte p (s.rd s.ofs) else (s.rd s.ofs).adv 1)
        else s.rd s.ofs
      else s := by
  unfold scanWhile
  by_cases h : s.ofs < size
  · obtain ⟨k, hk⟩ : ∃ k, size - s.ofs = k + 1 := ⟨size - s.ofs - 1, by omega⟩
    rw [hk]
    by_cases hc : c (p s.ofs) = true
    · cases emit
      · simp only [runWhile, h, hc, if_true]
        exact runWhile_fuel p size c false _ _ _ (by simp; omega) (by simp)
      · simp only [runWhile, h, hc, if_true]
        exact runWhile_fuel p size c true _ _ _ (by simp; omega) (by simp)
    · simp [runWhile, h, hc]
  · have : size - s.ofs = 0 := by omega
    simp [this, runWhile, h]

/-! ## The accumulator -/

theorem delivered_append (cs ds : List SinkCall) :
    delivered (cs ++ ds) = delivered cs ++ delivered ds := by
  induction cs with
  | nil => rfl
  | cons c cs ih => cases c <;> simp [delivered, ih]

theorem take_succ_set (l : List Nat) (c : Nat) :
    ∀ n, n < l.length → (l.set n c).take (n + 1) = l.take n ++ [c] := by
  induction l with
  | nil => intro n h; simp at h
  | cons x xs ih =>
    intro n h
    cases n with
    | zero => simp
    | succ n => simpa using ih n (by simpa using h)

theorem pushchar_wf (c : Nat) (a : Accum) (h : a.wf) : (pushchar c a).wf := by
  obtain ⟨h1, h2⟩ := h
  unfold pushchar
  by_cases hc : c = 0
  · simp [hc, Accum.wf, h1]
  · by_cases hl : a.len + 1 = 64
    · simp [hc, hl, Accum.wf, h1]
    · simp only [hc, hl, if_false, Accum.wf, List.length_set]
      exact ⟨h1, by omega⟩

theorem pushchar_stream (c : Nat) (a : Accum) (h : a.wf) (hc : c ≠ 0) :
    (pushchar c a).stream = a.stream ++ [c] := by
  obtain ⟨h1, h2⟩ := h
  have ht := take_succ_set a.buf c a.len (by omega)
  unfold pushchar
  by_cases hl : a.len + 1 = 64
  · simp only [hc, hl, if_false, if_true, Accum.stream, delivered_append, delivered]
    rw [← hl, ht]
    simp
  · simp only [hc, hl, if_false, Accum.stream]
    rw [ht]
    simp

theorem pushAll_wf (bs : List Nat) : ∀ a : Accum, a.wf → (pushAll bs a).wf := by
  induction bs with
  | nil => intro a h; exact h
  | cons b bs ih => intro a h; exact ih _ (pushchar_wf b a h)

theorem pushAll_stream (bs : List Nat) :
    ∀ a : Accum, a.wf → (∀ c ∈ bs, c ≠ 0) → (pushAll bs a).stream = a.stream ++ bs := by
  induction bs with
  | nil => intro a _ _; simp [pushAll]
  | cons b bs ih =>
    intro a h hb
    have h1 := ih (pushchar b a) (pushchar_wf b a h) (fun c hc => hb c (List.mem_cons_of_mem _ hc))
    have h2 := pushchar_stream b a h (hb b (List.mem_cons_self _ _))
    simp only [pushAll, List.foldl_cons] at h1 ⊢
    rw [h1, h2]
    simp

theorem pushchar_zero_delivered (a : Accum) :
    delivered (pushchar 0 a).calls = a.stream := by
  simp [pushchar, Accum.stream, delivered_append, delivered]
/-! ## Scanning from a later start: `(p, size)` from `ofs = k` and `(p + k, size - k)` -/

theorem Sim.rd {k : Nat} {pre : List Nat} {s t : Scan} (h : Sim k pre s t) (i j : Nat) :
    Sim k pre (s.rd i) (t.rd j) := h

theorem Sim.push {k : Nat} {pre : List Nat} {s t : Scan} (h : Sim k pre s t) (c : Nat) :
    Sim k pre (s.push c) (t.push c) := by
  obtain ⟨h1, h2, h3⟩ := h
  exact ⟨h1, by simp [h2], h3⟩

theorem Sim.adv {k : Nat} {pre : List Nat} {s t : Scan} (h : Sim k pre s t) (d : Nat) :
    Sim k pre (s.adv d) (t.adv d) := by
  obtain ⟨h1, h2, h3⟩ := h
  exact ⟨by simp [h1]; omega, h2, h3⟩

theorem Sim.setFault {k : Nat} {pre : List Nat} {s t : Scan} (h : Sim k pre s t) :
    Sim k pre { s with fault := true } { t with fault := true } := by
  obtain ⟨h1, h2, _⟩ := h
  exact ⟨h1, h2, rfl⟩

theorem Sim.byte {k : Nat} {pre : List Nat} {s t : Scan} (h : Sim k pre s t) (p : Nat → Nat)
    (d : Nat) : p (s.ofs + d) = shift p k (t.ofs + d) := by
  obtain ⟨h1, _, _⟩ := h
  simp only [shift, h1]
  congr 1
  omega

theorem Sim.byte0 {k : Nat} {pre : List Nat} {s t : Scan} (h : Sim k pre s t) (p : Nat → Nat) :
    p s.ofs = shift p k t.ofs := h.byte p 0

theorem Sim.copyByte {k : Nat} {pre : List Nat} {s t : Scan} (h : Sim k pre s t)
    (p : Nat → Nat) : Sim k pre (copyByte p s) (copyByte (shift p k) t) := by
  unfold Unify.copyByte
  rw [h.byte0 p]
  exact ((h.rd _ _).push _).adv 1

theorem runWhile_sim (p : Nat → Nat) (size k : Nat) (pre : List Nat) (c : Nat → Bool)
    (emit : Bool) : ∀ (n : Nat) (s t : Scan), Sim k pre s t →
      Sim k pre (runWhile p size c emit n s) (runWhile (shift p k) (size - k) c emit n t) := by
  intro n
  induction n with
  | zero => intro s t h; exact h
  | succ n ih =>
    intro s t h
    have hlt : s.ofs < size ↔ t.ofs < size - k := by
      have := h.1
      omega
    have hb := h.byte0 p
    by_cases h1 : s.ofs < size
    · have h2 := hlt.1 h1
      by_cases hc : c (p s.ofs) = true
      · have hc2 : c (shift p k t.ofs) = true := hb ▸ hc
        simp only [runWhile, h1, h2, hc, hc2, if_true]
        apply ih
        cases emit
        · exact (h.rd _ _).adv 1
        · exact (h.rd _ _).copyByte p
      · have hc2 : ¬ c (shift p k t.ofs) = true := hb ▸ hc
        simp only [runWhile, h1, h2, hc, hc2, if_true, if_false]
        exact h.rd _ _
    · have h2 : ¬ t.ofs < size - k := fun h' => h1 (hlt.2 h')
      simp only [runWhile, h1, h2, if_false]
      exact h

theorem scanWhile_sim (p : Nat → Nat) (size k : Nat) (pre : List Nat) (c : Nat → Bool)
    (emit : Bool) (s t : Scan) (h : Sim k pre s t) :
    Sim k pre (scanWhile p size c emit s) (scanWhile (shift p k) (size - k) c emit t) := by
  unfold scanWhile
  have : size - s.ofs = size - k - t.ofs := by
    have := h.1
    omega
  rw [this]
  exact runWhile_sim p size k pre c emit _ s t h

theorem skipLine_sim (p : Nat → Nat) (size k : Nat) (pre : List Nat) (s t : Scan)
    (h : Sim k pre s t) : Sim k pre (skipLine p size s) (skipLine (shift p k) (size - k) t) :=
  (scanWhile_sim p size k pre _ false _ _ (h.adv 1)).adv 1

theorem verbatimLine_sim (p : Nat → Nat) (size k : Nat) (pre : List Nat) (s t : Scan)
    (h : Sim k pre s t) :
    Sim k pre (verbatimLine p size s) (verbatimLine (shift p k) (size - k) t) :=
  ((scanWhile_sim p size k pre _ true _ _ (h.copyByte p)).push 10).adv 1

theorem directive_sim (p : Nat → Nat) (size k : Nat) (pre : List Nat) (s t : Scan)
    (h : Sim k pre s t) : Sim k pre (directive p size s) (directive (shift p k) (size - k) t) := by
  have hsz : size - s.ofs > 2 ↔ size - k - t.ofs > 2 := by
    have := h.1
    omega
  have hb1 := h.byte p 1
  have hb2 := h.byte p 2
  unfold directive
  by_cases h1 : size - s.ofs > 2
  · have h1' := hsz.1 h1
    by_cases h2 : p (s.ofs + 1) = 32
    · have h2' : shift p k (t.ofs + 1) = 32 := hb1 ▸ h2
      by_cases h3 : isdigit (p (s.ofs + 2)) = true
      · have h3' : isdigit (shift p k (t.ofs + 2)) = true := hb2 ▸ h3
        simp only [h1, h1', h2, h2', h3, h3', if_true]
        exact skipLine_sim p size k pre _ _ ((h.rd _ _).rd _ _)
      · have h3' : ¬ isdigit (shift p k (t.ofs + 2)) = true := hb2 ▸ h3
        simp only [h1, h1', h2, h2', h3, h3', if_true, if_false]
        exact verbatimLine_sim p size k pre _ _ ((h.rd _ _).rd _ _)
    · have h2' : ¬ shift p k (t.ofs + 1) = 32 := hb1 ▸ h2
      simp only [h1, h1', h2, h2', if_true, if_false]
      exact verbatimLine_sim p size k pre _ _ (h.rd _ _)
  · have h1' : ¬ size - k - t.ofs > 2 := fun h' => h1 (hsz.2 h')
    simp only [h1, h1', if_false]
    exact verbatimLine_sim p size k pre _ _ h

theorem identifier_sim (p : Nat → Nat) (size k : Nat) (pre : List Nat) (s t : Scan)
    (h : Sim k pre s t) :
    Sim k pre (identifier p size s) (identifier (shift p k) (size - k) t) :=
  (scanWhile_sim p size k pre _ true _ _ (h.copyByte p)).push 10

theorem hexPart_sim (p : Nat → Nat) (size k : Nat) (pre : List Nat) (s t : Scan)
    (h : Sim k pre s t) : Sim k pre (hexPart p size s) (hexPart (shift p k) (size - k) t) := by
  unfold hexPart
  rw [← h.byte0 p]
  by_cases hc : p s.ofs = 120 ∨ p s.ofs = 88
  · simp only [hc, if_true]
    exact scanWhile_sim p size k pre _ true _ _ ((h.rd _ _).copyByte p)
  · simp only [hc, if_false]
    exact h.rd _ _

theorem expPart_sim (p : Nat → Nat) (size k : Nat) (pre : List Nat) (s t : Scan)
    (h : Sim k pre s t) : Sim k pre (expPart p size s) (expPart (shift p k) (size - k) t) := by
  unfold expPart
  rw [← h.byte0 p]
  by_cases hc : p s.ofs = 69 ∨ p s.ofs = 101
  · simp only [hc, if_true]
    exact scanWhile_sim p size k pre _ true _ _ ((h.rd _ _).copyByte p)
  · simp only [hc, if_false]
    exact h.rd _ _

theorem number_sim (p : Nat → Nat) (size k : Nat) (pre : List Nat) (s t : Scan)
    (h : Sim k pre s t) : Sim k pre (number p size s) (number (shift p k) (size - k) t) :=
  (scanWhile_sim p size k pre _ true _ _
    (expPart_sim p size k pre _ _
      (hexPart_sim p size k pre _ _
        (scanWhile_sim p size k pre _ true _ _ (h.copyByte p))))).push 10

theorem whitespace_sim (p : Nat → Nat) (size k : Nat) (pre : List Nat) (s t : Scan)
    (h : Sim k pre s t) :
    Sim k pre (whitespace p size s) (whitespace (shift p k) (size - k) t) :=
  scanWhile_sim p size k pre _ false _ _ (h.adv 1)

theorem escLoop_sim (p : Nat → Nat) (size k : Nat) (pre : List Nat) :
    ∀ (n : Nat) (s t : Scan), Sim k pre s t →
      Sim k pre (escLoop p size n s) (escLoop (shift p k) (size - k) n t) := by
  intro n
  induction n with
  | zero => intro s t h; exact h
  | succ n ih =>
    intro s t h
    have hlt : s.ofs < size - 1 ↔ t.ofs < size - k - 1 := by
      have := h.1
      omega
    have hb := h.byte0 p
    have hb1 := h.byte p 1
    by_cases h1 : s.ofs < size - 1
    · have h2 := hlt.1 h1
      by_cases hc : p s.ofs = 92
      · have hc2 : shift p k t.ofs = 92 := hb ▸ hc
        simp only [escLoop, h1, h2, hc, hc2, if_true]
        apply ih
        rw [hb1]
        exact (((((h.rd _ _).rd _ _).push 92).rd _ _).push _).adv 2
      · have hc2 : ¬ shift p k t.ofs = 92 := hb ▸ hc
        simp only [escLoop, h1, h2, hc, hc2, if_true, if_false]
        exact h.rd _ _
    · have h2 : ¬ t.ofs < size - k - 1 := fun h' => h1 (hlt.2 h')
      simp only [escLoop, h1, h2, if_false]
      exact h

theorem quoteBody_sim (p : Nat → Nat) (size k : Nat) (pre : List Nat) (s t : Scan)
    (h : Sim k pre s t) :
    Sim k pre (quoteBody p size s) (quoteBody (shift p k) (size - k) t) := by
  unfold quoteBody quoteRest
  have hf : size - (s.adv 1).ofs = size - k - (t.adv 1).ofs := by
    have := h.1
    simp
    omega
  have h2 := escLoop_sim p size k pre (size - (s.adv 1).ofs) _ _ (h.adv 1)
  simp only [← hf]
  rw [← h2.byte0 p]
  exact (h2.rd _ _).push _

theorem quoteLoop_sim (p : Nat → Nat) (size k : Nat) (pre : List Nat) (q : Nat) :
    ∀ (n : Nat) (s t : Scan), Sim k pre s t →
      Sim k pre (quoteLoop p size q n s) (quoteLoop (shift p k) (size - k) q n t) := by
  intro n
  induction n with
  | zero => intro s t h; exact h
  | succ n ih =>
    intro s t h
    have hlt : s.ofs < size ↔ t.ofs < size - k := by
      have := h.1
      omega
    have hb := h.byte0 p
    by_cases h1 : s.ofs < size
    · have h2 := hlt.1 h1
      by_cases hc : p s.ofs = q
      · have hc2 : shift p k t.ofs = q := hb ▸ hc
        simp only [quoteLoop, h1, h2, hc, hc2, if_true, ne_eq, not_true_eq_false, if_false]
        exact h.rd _ _
      · have hc2 : ¬ shift p k t.ofs = q := hb ▸ hc
        simp only [quoteLoop, h1, h2, hc, hc2, if_true, ne_eq, not_false_eq_true]
        exact ih _ _ (quoteBody_sim p size k pre _ _ (h.rd _ _))
    · have h2 : ¬ t.ofs < size - k := fun h' => h1 (hlt.2 h')
      simp only [quoteLoop, h1, h2, if_false]
      exact h

theorem literal_sim (p : Nat → Nat) (size k : Nat) (pre : List Nat) (s t : Scan)
    (h : Sim k pre s t) : Sim k pre (literal p size s) (literal (shift p k) (size - k) t) := by
  unfold literal
  simp only [h.byte0 p]
  have h1 : Sim k pre (((s.rd s.ofs).rd s.ofs).push (shift p k t.ofs))
      (((t.rd t.ofs).rd t.ofs).push (shift p k t.ofs)) := ((h.rd _ _).rd _ _).push _
  have h2 := quoteBody_sim p size k pre _ _ h1
  have hf : size - (quoteBody p size (((s.rd s.ofs).rd s.ofs).push (shift p k t.ofs))).ofs
      = size - k - (quoteBody (shift p k) (size - k)
          (((t.rd t.ofs).rd t.ofs).push (shift p k t.ofs))).ofs := by
    have := h2.1
    omega
  rw [hf]
  exact ((quoteLoop_sim p size k pre _ _ _ _ h2).push 10).adv 1

theorem matchAt_sim (p : Nat → Nat) (k : Nat) (pre : List Nat) :
    ∀ (cs : List Nat) (i : Nat) (s t : Scan), Sim k pre s t →
      (matchAt p (i + k) cs s).1 = (matchAt (shift p k) i cs t).1
        ∧ Sim k pre (matchAt p (i + k) cs s).2 (matchAt (shift p k) i cs t).2 := by
  intro cs
  induction cs with
  | nil => intro i s t h; exact ⟨rfl, h⟩
  | cons c cs ih =>
    intro i s t h
    have hb : p (i + k) = shift p k i := rfl
    by_cases hc : p (i + k) = c
    · have hc2 : shift p k i = c := hb ▸ hc
      have e : i + k + 1 = (i + 1) + k := by omega
      simp only [matchAt, hc, hc2, if_true]
      rw [e]
      exact ih (i + 1) _ _ (h.rd _ _)
    · have hc2 : ¬ shift p k i = c := hb ▸ hc
      simp only [matchAt, hc, hc2, if_false, true_and]
      exact h.rd _ _

theorem copyTok_sim (k : Nat) (pre : List Nat) :
    ∀ (cs : List Nat) (s t : Scan), Sim k pre s t → Sim k pre (copyTok cs s) (copyTok cs t) := by
  intro cs
  induction cs with
  | nil => intro s t h; exact h
  | cons c cs ih =>
    intro s t h
    simp only [copyTok, List.foldl_cons]
    exact ih _ _ ((h.push c).adv 1)

theorem findTok_sim (p : Nat → Nat) (k : Nat) (pre : List Nat) :
    ∀ (l : List (Option (List Nat))) (s t : Scan), Sim k pre s t →
      Sim k pre (findTok p l s) (findTok (shift p k) l t) := by
  intro l
  induction l with
  | nil => intro s t h; exact h.setFault
  | cons o l ih =>
    intro s t h
    cases o with
    | none => exact h.setFault
    | some cs =>
      have hm := matchAt_sim p k pre cs t.ofs s t h
      rw [← h.1] at hm
      by_cases hr : (matchAt p s.ofs cs s).1 = true
      · have hr2 : (matchAt (shift p k) t.ofs cs t).1 = true := hm.1 ▸ hr
        simp only [findTok, hr, hr2, if_true]
        exact (copyTok_sim k pre cs _ _ hm.2).push 10
      · have hr2 : ¬ (matchAt (shift p k) t.ofs cs t).1 = true := hm.1 ▸ hr
        simp only [findTok, hr, hr2, if_false]
        exact ih _ _ hm.2

theorem operator_sim (p : Nat → Nat) (k : Nat) (pre : List Nat) (s t : Scan)
    (h : Sim k pre s t) : Sim k pre (operator p s) (operator (shift p k) t) := by
  unfold operator
  simp only [h.byte0 p]
  by_cases hn : (tokens (shift p k t.ofs)).num_toks = 0
  · simp only [hn, if_true]
    exact (h.rd _ _).setFault
  · simp only [hn, if_false]
    exact findTok_sim p k pre _ _ _ (h.rd _ _)

theorem fallback_sim (p : Nat → Nat) (k : Nat) (pre : List Nat) (s t : Scan)
    (h : Sim k pre s t) : Sim k pre (fallback p s) (fallback (shift p k) t) := by
  unfold fallback
  rw [h.byte0 p]
  exact (((h.rd _ _).push _).push 10).adv 1

theorem step_sim (p : Nat → Nat) (size k : Nat) (pre : List Nat) (s t : Scan)
    (h : Sim k pre s t) : Sim k pre (step p size s) (step (shift p k) (size - k) t) := by
  unfold step
  simp only [h.byte0 p]
  split
  · exact directive_sim p size k pre _ _ (h.rd _ _)
  · split
    · exact identifier_sim p size k pre _ _ ((h.rd _ _).rd _ _)
    · split
      · exact number_sim p size k pre _ _ (((h.rd _ _).rd _ _).rd _ _)
      · split
        · exact whitespace_sim p size k pre _ _ ((((h.rd _ _).rd _ _).rd _ _).rd _ _)
        · split
          · exact literal_sim p size k pre _ _ (((((h.rd _ _).rd _ _).rd _ _).rd _ _).rd _ _)
          · split
            · exact operator_sim p k pre _ _
                ((((((h.rd _ _).rd _ _).rd _ _).rd _ _).rd _ _).rd _ _)
            · exact fallback_sim p k pre _ _
                ((((((h.rd _ _).rd _ _).rd _ _).rd _ _).rd _ _).rd _ _)

theorem mainLoop_sim (p : Nat → Nat) (size k : Nat) (pre : List Nat) :
    ∀ (n : Nat) (s t : Scan), Sim k pre s t →
      Sim k pre (mainLoop p size n s) (mainLoop (shift p k) (size - k) n t) := by
  intro n
  induction n with
  | zero => intro s t h; exact h
  | succ n ih =>
    intro s t h
    have hlt : (s.ofs < size ∧ s.fault = false) ↔ (t.ofs < size - k ∧ t.fault = false) := by
      have h1 := h.1
      have h3 := h.2.2
      rw [h3]
      constructor
      · rintro ⟨a, b⟩; exact ⟨by omega, b⟩
      · rintro ⟨a, b⟩; exact ⟨by omega, b⟩
    by_cases h1 : s.ofs < size ∧ s.fault = false
    · have h2 := hlt.1 h1
      simp only [mainLoop, h1, h2, and_self, if_true]
      exact ih _ _ (step_sim p size k pre _ _ h)
    · have h2 : ¬ (t.ofs < size - k ∧ t.fault = false) := fun h' => h1 (hlt.2 h')
      simp only [mainLoop, h1, h2, if_false]
      exact h

/-! ## Every pass of the dispatch loop moves the cursor forward -/

theorem runWhile_ofs_ge (p : Nat → Nat) (size : Nat) (c : Nat → Bool) (emit : Bool) :
    ∀ (n : Nat) (s : Scan), s.ofs ≤ (runWhile p size c emit n s).ofs := by
  intro n
  induction n with
  | zero => intro s; exact Nat.le_refl _
  | succ n ih =>
    intro s
    unfold runWhile
    split
    · split
      · refine Nat.le_trans ?_ (ih _)
        cases emit <;> simp
      · simp
    · exact Nat.le_refl _

theorem runWhile_fault (p : Nat → Nat) (size : Nat) (c : Nat → Bool) (emit : Bool) :
    ∀ (n : Nat) (s : Scan), (runWhile p size c emit n s).fault = s.fault := by
  intro n
  induction n with
  | zero => intro s; rfl
  | succ n ih =>
    intro s
    unfold runWhile
    split
    · split
      · rw [ih]
        cases emit <;> simp
      · simp
    · rfl

theorem scanWhile_ofs_ge (p : Nat → Nat) (size : Nat) (c : Nat → Bool) (emit : Bool) (s : Scan) :
    s.ofs ≤ (scanWhile p size c emit s).ofs := runWhile_ofs_ge p size c emit _ s

theorem escLoop_ofs_ge (p : Nat → Nat) (size : Nat) :
    ∀ (n : Nat) (s : Scan), s.ofs ≤ (escLoop p size n s).ofs := by
  intro n
  induction n with
  | zero => intro s; exact Nat.le_refl _
  | succ n ih =>
    intro s
    unfold escLoop
    split
    · split
      · refine Nat.le_trans ?_ (ih _)
        simp
      · simp
    · exact Nat.le_refl _

theorem quoteBody_ofs_gt (p : Nat → Nat) (size : Nat) (s : Scan) :
    s.ofs < (quoteBody p size s).ofs := by
  unfold quoteBody quoteRest
  have := escLoop_ofs_ge p size (size - (s.adv 1).ofs) (s.adv 1)
  simp at this ⊢
  omega

theorem quoteLoop_ofs_ge (p : Nat → Nat) (size q : Nat) :
    ∀ (n : Nat) (s : Scan), s.ofs ≤ (quoteLoop p size q n s).ofs := by
  intro n
  induction n with
  | zero => intro s; exact Nat.le_refl _
  | succ n ih =>
    intro s
    unfold quoteLoop
    split
    · split
      · refine Nat.le_trans ?_ (ih _)
        have := quoteBody_ofs_gt p size (s.rd s.ofs)
        simp at this
        omega
      · simp
    · exact Nat.le_refl _

theorem directive_ofs_gt (p : Nat → Nat) (size : Nat) (s : Scan) :
    s.ofs < (directive p size s).ofs := by
  have hs : ∀ u : Scan, u.ofs < (skipLine p size u).ofs := by
    intro u
    have := scanWhile_ofs_ge p size (fun c => c != 10) false (u.adv 1)
    simp [skipLine] at this ⊢
    omega
  have hv : ∀ u : Scan, u.ofs < (verbatimLine p size u).ofs := by
    intro u
    have := scanWhile_ofs_ge p size (fun c => c != 10) true (copyByte p u)
    simp [verbatimLine] at this ⊢
    omega
  unfold directive
  dsimp only
  split
  · split
    · split
      · exact hs ((s.rd (s.ofs + 1)).rd (s.ofs + 2))
      · exact hv ((s.rd (s.ofs + 1)).rd (s.ofs + 2))
    · exact hv (s.rd (s.ofs + 1))
  · exact hv s

theorem identifier_ofs_gt (p : Nat → Nat) (size : Nat) (s : Scan) :
    s.ofs < (identifier p size s).ofs := by
  have := scanWhile_ofs_ge p size (hasType (C_ALPHA ||| C_DIGIT)) true (copyByte p s)
  simp [identifier] at this ⊢
  omega

theorem hexPart_ofs_ge (p : Nat → Nat) (size : Nat) (s : Scan) :
    s.ofs ≤ (hexPart p size s).ofs := by
  unfold hexPart
  split
  · have := scanWhile_ofs_ge p size (hasType C_HEX) true (copyByte p (s.rd s.ofs))
    simp at this ⊢
    omega
  · simp

theorem expPart_ofs_ge (p : Nat → Nat) (size : Nat) (s : Scan) :
    s.ofs ≤ (expPart p size s).ofs := by
  unfold expPart
  split
  · have := scanWhile_ofs_ge p size (hasType (C_DIGIT ||| C_SIGN)) true (copyByte p (s.rd s.ofs))
    simp at this ⊢
    omega
  · simp

theorem number_ofs_gt (p : Nat → Nat) (size : Nat) (s : Scan) :
    s.ofs < (number p size s).ofs := by
  unfold number
  have h1 := scanWhile_ofs_ge p size (fun c => hasType C_DIGIT c || c == 46) true (copyByte p s)
  have h2 := hexPart_ofs_ge p size
    (scanWhile p size (fun c => hasType C_DIGIT c || c == 46) true (copyByte p s))
  have h3 := expPart_ofs_ge p size (hexPart p size
    (scanWhile p size (fun c => hasType C_DIGIT c || c == 46) true (copyByte p s)))
  have h4 := scanWhile_ofs_ge p size (hasType C_FLOAT) true (expPart p size (hexPart p size
    (scanWhile p size (fun c => hasType C_DIGIT c || c == 46) true (copyByte p s))))
  simp at h1 ⊢
  omega

theorem whitespace_ofs_gt (p : Nat → Nat) (size : Nat) (s : Scan) :
    s.ofs < (whitespace p size s).ofs := by
  have := scanWhile_ofs_ge p size (hasType C_SPACE) false (s.adv 1)
  simp [whitespace] at this ⊢
  omega

theorem literal_ofs_gt (p : Nat → Nat) (size : Nat) (s : Scan) :
    s.ofs < (literal p size s).ofs := by
  unfold literal
  have h1 := quoteBody_ofs_gt p size (((s.rd s.ofs).rd s.ofs).push (p s.ofs))
  have h2 := quoteLoop_ofs_ge p size (p s.ofs)
    (size - (quoteBody p size (((s.rd s.ofs).rd s.ofs).push (p s.ofs))).ofs)
    (quoteBody p size (((s.rd s.ofs).rd s.ofs).push (p s.ofs)))
  simp at h1 ⊢
  omega

theorem matchAt_state (p : Nat → Nat) :
    ∀ (cs : List Nat) (i : Nat) (s : Scan),
      (matchAt p i cs s).2.ofs = s.ofs ∧ (matchAt p i cs s).2.out = s.out
        ∧ (matchAt p i cs s).2.fault = s.fault := by
  intro cs
  induction cs with
  | nil => intro i s; exact ⟨rfl, rfl, rfl⟩
  | cons c cs ih =>
    intro i s
    unfold matchAt
    split
    · simpa using ih (i + 1) (s.rd i)
    · exact ⟨rfl, rfl, rfl⟩

theorem copyTok_state :
    ∀ (cs : List Nat) (s : Scan),
      (copyTok cs s).ofs = s.ofs + cs.length ∧ (copyTok cs s).out = s.out ++ cs
        ∧ (copyTok cs s).fault = s.fault := by
  intro cs
  induction cs with
  | nil => intro s; simp [copyTok]
  | cons c cs ih =>
    intro s
    have := ih ((s.push c).adv 1)
    simp only [copyTok, List.foldl_cons] at this ⊢
    simp at this
    refine ⟨?_, ?_, ?_⟩
    · rw [this.1]; simp; omega
    · rw [this.2.1]
    · rw [this.2.2]

theorem findTok_progress (p : Nat → Nat) :
    ∀ (l : List (Option (List Nat))) (s : Scan), (∀ o ∈ l, o ≠ some []) →
      s.ofs < (findTok p l s).ofs ∨ (findTok p l s).fault = true := by
  intro l
  induction l with
  | nil => intro s _; exact Or.inr rfl
  | cons o l ih =>
    intro s hl
    cases o with
    | none => exact Or.inr rfl
    | some cs =>
      have hne : cs ≠ [] := fun h => hl (some cs) (List.mem_cons_self _ _) (by rw [h])
      have hm := matchAt_state p cs s.ofs s
      unfold findTok
      dsimp only
      split
      · left
        have hc := copyTok_state cs (matchAt p s.ofs cs s).2
        have : 0 < cs.length := List.length_pos.2 hne
        simp only [push_ofs]
        rw [hc.1, hm.1]
        omega
      · have := ih (matchAt p s.ofs cs s).2 (fun o ho => hl o (List.mem_cons_of_mem _ ho))
        rw [hm.1] at this
        exact this

theorem build_table_length : build_table.length = 256 := by decide!

theorem tokens_toks_ne_nil : ∀ c < 256, ∀ o ∈ (tokens c).toks, o ≠ some [] := by decide!

theorem tokens_of_ge (c : Nat) (h : 256 ≤ c) : tokens c = Entry.zero := by
  unfold tokens
  rw [List.getD_eq_default]
  rw [build_table_length]
  exact h

theorem operator_progress (p : Nat → Nat) (s : Scan) :
    s.ofs < (operator p s).ofs ∨ (operator p s).fault = true := by
  unfold operator
  dsimp only
  split
  · exact Or.inr rfl
  · have hl : ∀ o ∈ (tokens (p s.ofs)).toks, o ≠ some [] := by
      by_cases hc : p s.ofs < 256
      · exact tokens_toks_ne_nil _ hc
      · rw [tokens_of_ge _ (by omega)]
        intro o ho
        simp [Entry.zero] at ho
        simp [ho]
    simpa using findTok_progress p _ (s.rd s.ofs) hl

/-- Every pass through the body of the dispatch loop moves the cursor forward,
unless the operator branch faults. -/
theorem step_progress (p : Nat → Nat) (size : Nat) (s : Scan) :
    s.ofs < (step p size s).ofs ∨ (step p size s).fault = true := by
  unfold step
  dsimp only
  split
  · exact Or.inl (by simpa using directive_ofs_gt p size (s.rd s.ofs))
  · split
    · exact Or.inl (by simpa using identifier_ofs_gt p size ((s.rd s.ofs).rd s.ofs))
    · split
      · exact Or.inl (by simpa using number_ofs_gt p size (((s.rd s.ofs).rd s.ofs).rd s.ofs))
      · split
        · exact Or.inl (by
            simpa using whitespace_ofs_gt p size ((((s.rd s.ofs).rd s.ofs).rd s.ofs).rd s.ofs))
        · split
          · exact Or.inl (by
              simpa using literal_ofs_gt p size
                (((((s.rd s.ofs).rd s.ofs).rd s.ofs).rd s.ofs).rd s.ofs))
          · split
            · simpa using operator_progress p
                ((((((s.rd s.ofs).rd s.ofs).rd s.ofs).rd s.ofs).rd s.ofs).rd s.ofs)
            · exact Or.inl (by simp [fallback])

theorem mainLoop_of_fault (p : Nat → Nat) (size : Nat) (n : Nat) (s : Scan)
    (h : s.fault = true) : mainLoop p size n s = s := by
  cases n with
  | zero => rfl
  | succ n => simp [mainLoop, h]

theorem mainLoop_fuel (p : Nat → Nat) (size : Nat) :
    ∀ (n m : Nat) (s : Scan), size - s.ofs ≤ n → size - s.ofs ≤ m →
      mainLoop p size n s = mainLoop p size m s := by
  intro n
  induction n with
  | zero =>
    intro m s hn _
    cases m with
    | zero => rfl
    | succ m =>
      have h : ¬ s.ofs < size := by omega
      simp [mainLoop, h]
  | succ n ih =>
    intro m s _ hm
    cases m with
    | zero =>
      have h : ¬ s.ofs < size := by omega
      simp [mainLoop, h]
    | succ m =>
      by_cases h : s.ofs < size ∧ s.fault = false
      · simp only [mainLoop, h, and_self, if_true]
        rcases step_progress p size s with hp | hf
        · exact ih m _ (by omega) (by omega)
        · rw [mainLoop_of_fault p size n _ hf, mainLoop_of_fault p size m _ hf]
      · simp [mainLoop, h]

/-- The loop equation of the dispatch loop: with a counter of at least
`size - ofs` it is the C loop `for (; ofs<size;) body` (stopped by a fault). -/
theorem mainLoop_unfold (p : Nat → Nat) (size : Nat) (n : Nat) (s : Scan)
    (hn : size - s.ofs ≤ n) :
    mainLoop p size n s =
      if s.ofs < size ∧ s.fault = false then mainLoop p size n (step p size s) else s := by
  cases n with
  | zero =>
    have h : ¬ s.ofs < size := by omega
    simp [mainLoop, h]
  | succ n =>
    by_cases h : s.ofs < size ∧ s.fault = false
    · simp only [mainLoop, h, and_self, if_true]
      rcases step_progress p size s with hp | hf
      · exact mainLoop_fuel p size n (n + 1) _ (by omega) (by omega)
      · rw [mainLoop_of_fault p size n _ hf]
        simp [mainLoop, hf]
    · simp [mainLoop, h]

/-! ## The first lexeme and the rest of the buffer -/

theorem shift_mem_append (a b : List Nat) (beyond : Nat → Nat) :
    shift (mem (a ++ b) beyond) a.length = mem b beyond := by
  funext i
  simp only [shift, mem, List.length_append]
  by_cases h : i < b.length
  · have h1 : i + a.length < a.length + b.length := by omega
    simp only [h, h1, if_true]
    rw [List.getD_append_right _ _ _ _ (by omega)]
    congr 1
    omega
  · have h1 : ¬ i + a.length < a.length + b.length := by omega
    simp only [h, h1, if_false]
    congr 1
    omega

theorem holds_append (p : Nat → Nat) :
    ∀ (a b : List Nat) (k : Nat), holds p k (a ++ b) ↔ holds p k a ∧ holds p (k + a.length) b := by
  intro a
  induction a with
  | nil => intro b k; simp [holds]
  | cons x a ih =>
    intro b k
    have e : k + 1 + a.length = k + (a.length + 1) := by omega
    show (p k = x ∧ holds p (k + 1) (a ++ b))
      ↔ (p k = x ∧ holds p (k + 1) a) ∧ holds p (k + (a.length + 1)) b
    rw [ih, e, and_assoc]

theorem holds_shift (p : Nat → Nat) (j : Nat) :
    ∀ (l : List Nat) (k : Nat), holds (shift p j) k l ↔ holds p (k + j) l := by
  intro l
  induction l with
  | nil => intro k; simp [holds]
  | cons x l ih =>
    intro k
    simp only [holds, ih]
    have e : k + 1 + j = k + j + 1 := by omega
    rw [e]
    rfl

theorem holds_mem (beyond : Nat → Nat) : ∀ (l : List Nat), holds (mem l beyond) 0 l := by
  intro l
  induction l with
  | nil => trivial
  | cons x l ih =>
    refine ⟨by simp [mem], ?_⟩
    have := shift_mem_append [x] l beyond
    simp only [List.singleton_append, List.length_singleton] at this
    have h2 := (holds_shift (mem (x :: l) beyond) 1 l 0).1 (this ▸ ih)
    simpa using h2

/-- The buffer `buf` is stored at the start of the memory `mem buf beyond`. -/
theorem holds_mem_append (a b : List Nat) (beyond : Nat → Nat) :
    holds (mem (a ++ b) beyond) 0 a := ((holds_append _ a b 0).1 (holds_mem beyond (a ++ b))).1

/-- What the dispatch loop emits from a state `s` on: the bytes emitted so far, then
what a scan of the rest of the buffer, started at `p + ofs`, emits. -/
theorem mainLoop_out (p : Nat → Nat) (size n : Nat) (s : Scan) (hf : s.fault = false)
    (hn : size - s.ofs ≤ n) :
    (mainLoop p size n s).out = s.out ++ (scan (shift p s.ofs) (size - s.ofs)).out := by
  have h0 : Sim s.ofs s.out s Scan.init := ⟨by simp [Scan.init], by simp [Scan.init], hf⟩
  have h1 := mainLoop_sim p size s.ofs s.out n s Scan.init h0
  have h2 := mainLoop_fuel (shift p s.ofs) (size - s.ofs) n (size - s.ofs) Scan.init
    (by simp [Scan.init]; omega) (by simp [Scan.init])
  rw [h2] at h1
  exact h1.2.1

/-- The scan of a non-empty buffer: its first pass, then the scan of what follows
the first lexeme. -/
theorem scan_out_first (p : Nat → Nat) (size : Nat) (h0 : 0 < size)
    (hf : (step p size Scan.init).fault = false) :
    (scan p size).out = (step p size Scan.init).out
      ++ (scan (shift p (step p size Scan.init).ofs) (size - (step p size Scan.init).ofs)).out := by
  unfold scan
  rw [mainLoop_unfold p size size Scan.init (by simp)]
  have hc : Scan.init.ofs < size ∧ Scan.init.fault = false := ⟨h0, rfl⟩
  simp only [hc, and_self, if_true]
  exact mainLoop_out p size size _ hf (by omega)

/-- The guarded loop over a run of bytes that satisfy its condition, followed by the
end of the buffer or by a byte that does not: the cursor moves over the run, the
run is emitted when `emit` is set. -/
theorem scanWhile_run (p : Nat → Nat) (size : Nat) (c : Nat → Bool) (emit : Bool) :
    ∀ (run : List Nat) (s : Scan), holds p s.ofs run → (∀ x ∈ run, c x = true) →
      s.ofs + run.length ≤ size →
      (s.ofs + run.length < size → c (p (s.ofs + run.length)) = false) →
      (scanWhile p size c emit s).ofs = s.ofs + run.length
        ∧ (scanWhile p size c emit s).out = s.out ++ (if emit then run else [])
        ∧ (scanWhile p size c emit s).fault = s.fault := by
  intro run
  induction run with
  | nil =>
    intro s _ _ _ hstop
    rw [scanWhile_unfold]
    by_cases h : s.ofs < size
    · have hc : c (p s.ofs) = false := by simpa using hstop (by simpa using h)
      simp [h, hc]
    · simp [h]
  | cons x run ih =>
    intro s hh hall hin hstop
    obtain ⟨hx, hh⟩ := hh
    have hlt : s.ofs < size := by simp at hin; omega
    have hc : c (p s.ofs) = true := hx ▸ hall x (List.mem_cons_self _ _)
    rw [scanWhile_unfold]
    simp only [hlt, hc, if_true]
    have hall2 : ∀ y ∈ run, c y = true := fun y hy => hall y (List.mem_cons_of_mem _ hy)
    cases emit
    · have := ih ((s.rd s.ofs).adv 1) (by simpa using hh) hall2
        (by simp at hin ⊢; omega)
        (by
          intro h
          have := hstop (by simp at h ⊢; omega)
          simp at this ⊢
          rw [← this]; congr 2; omega)
      simp at this ⊢
      refine ⟨by rw [this.1]; omega, this.2⟩
    · have := ih (copyByte p (s.rd s.ofs)) (by simpa using hh) hall2
        (by simp at hin ⊢; omega)
        (by
          intro h
          have := hstop (by simp at h ⊢; omega)
          simp at this ⊢
          rw [← this]; congr 2; omega)
      simp at this ⊢
      refine ⟨by rw [this.1]; omega, ?_, this.2.2⟩
      rw [this.2.1, hx]

/-! ## What the sink receives -/

theorem pushchar_zero_wf (a : Accum) (h : a.wf) : (pushchar 0 a).wf := pushchar_wf 0 a h

theorem pushchar_zero_stream (a : Accum) : (pushchar 0 a).stream = a.stream := by
  simp [pushchar, Accum.stream, delivered_append, delivered]

theorem pushAll_stream_filter (bs : List Nat) :
    ∀ a : Accum, a.wf → (pushAll bs a).stream = a.stream ++ bs.filter (fun c => c != 0) := by
  induction bs with
  | nil => intro a _; simp [pushAll]
  | cons b bs ih =>
    intro a h
    have h1 := ih (pushchar b a) (pushchar_wf b a h)
    simp only [pushAll, List.foldl_cons] at h1 ⊢
    rw [h1]
    by_cases hb : b = 0
    · subst hb
      rw [pushchar_zero_stream]
      simp
    · rw [pushchar_stream b a h hb]
      simp [hb]

/-- The bytes the sink receives from `unify`, started with the accumulator of program
start: the bytes the dispatch loop emits, without the NUL bytes among them. -/
theorem delivered_unify (p : Nat → Nat) (size : Nat) :
    delivered (unify p size Accum.init).calls = (scan p size).out.filter (fun c => c != 0) := by
  unfold unify
  rw [pushchar_zero_delivered, pushAll_stream_filter _ Accum.init ⟨rfl, by decide⟩]
  simp [Accum.stream, Accum.init, delivered]

/-! ## The verbatim directive line -/

theorem verbatimLine_run (p : Nat → Nat) (size : Nat) (x : Nat) (l : List Nat) (s : Scan)
    (hh : holds p s.ofs (x :: l ++ [10])) (hnl : 10 ∉ l) (hin : s.ofs + l.length + 1 < size) :
    (verbatimLine p size s).ofs = s.ofs + l.length + 2
      ∧ (verbatimLine p size s).out = s.out ++ x :: l ++ [10]
      ∧ (verbatimLine p size s).fault = s.fault := by
  obtain ⟨hx, hh⟩ := hh
  obtain ⟨hl, h10⟩ := (holds_append p l [10] (s.ofs + 1)).1 hh
  have hstop : p (s.ofs + 1 + l.length) = 10 := h10.1
  have hr := scanWhile_run p size (fun c => c != 10) true l (copyByte p s)
    (by simpa using hl)
    (by intro y hy; simp; intro h; exact hnl (h ▸ hy))
    (by simp; omega)
    (by intro _; simp [hstop])
  unfold verbatimLine
  simp at hr ⊢
  refine ⟨by rw [hr.1]; omega, ?_, hr.2.2⟩
  rw [hr.2.1, hx]
  simp

theorem step_hash (p : Nat → Nat) (size : Nat) (s : Scan) (h : p s.ofs = 35) :
    step p size s = directive p size (s.rd s.ofs) := by
  unfold step
  simp [h]

theorem directive_verbatim (p : Nat → Nat) (size : Nat) (s : Scan)
    (h : ¬ (size - s.ofs > 2 ∧ p (s.ofs + 1) = 32 ∧ isdigit (p (s.ofs + 2)) = true)) :
    ∃ u : Scan, directive p size s = verbatimLine p size u
      ∧ u.ofs = s.ofs ∧ u.out = s.out ∧ u.fault = s.fault := by
  unfold directive
  by_cases h1 : size - s.ofs > 2
  · by_cases h2 : p (s.ofs + 1) = 32
    · by_cases h3 : isdigit (p (s.ofs + 2)) = true
      · exact absurd ⟨h1, h2, h3⟩ h
      · exact ⟨(s.rd (s.ofs + 1)).rd (s.ofs + 2), by simp [h1, h2, h3], rfl, rfl, rfl⟩
    · exact ⟨s.rd (s.ofs + 1), by simp [h1, h2], rfl, rfl, rfl⟩
  · exact ⟨s, by simp [h1], rfl, rfl, rfl⟩

theorem directive_skip (p : Nat → Nat) (size : Nat) (s : Scan)
    (h : size - s.ofs > 2 ∧ p (s.ofs + 1) = 32 ∧ isdigit (p (s.ofs + 2)) = true) :
    directive p size s = skipLine p size ((s.rd (s.ofs + 1)).rd (s.ofs + 2)) := by
  unfold directive
  simp [h.1, h.2.1, h.2.2]

theorem step_genuineDirective (p : Nat → Nat) (size : Nat) (l : List Nat)
    (hg : genuineDirective l) (hh : holds p 0 (l ++ [10])) (hin : l.length < size) :
    (step p size Scan.init).ofs = l.length + 1
      ∧ (step p size Scan.init).out = l ++ [10]
      ∧ (step p size Scan.init).fault = false := by
  obtain ⟨hhd, hln, hnl, _⟩ := hg
  cases l with
  | nil => simp at hhd
  | cons x l =>
    simp at hhd
    subst hhd
    have hp0 : p 0 = 35 := hh.1
    have hno : ¬ (size - 0 > 2 ∧ p (0 + 1) = 32 ∧ isdigit (p (0 + 2)) = true) := by
      rintro ⟨_, h1, h2⟩
      have h1 : p 1 = 32 := h1
      have h2 : isdigit (p 2) = true := h2
      cases l with
      | nil =>
        have : p 1 = 10 := hh.2.1
        omega
      | cons a l =>
        have ha : p 1 = a := hh.2.1
        cases l with
        | nil =>
          have : p 2 = 10 := hh.2.2.1
          rw [this] at h2
          simp [isdigit] at h2
        | cons b l =>
          have hb : p 2 = b := hh.2.2.1
          rw [← ha, ← hb, h1] at hln
          simp [lineNumberForm, h2] at hln
    rw [step_hash p size Scan.init hp0]
    obtain ⟨u, hu, h1, h2, h3⟩ := directive_verbatim p size (Scan.init.rd Scan.init.ofs) hno
    rw [hu]
    have := verbatimLine_run p size 35 l u (by rw [h1]; exact hh)
        (fun h => hnl (List.mem_cons_of_mem _ h)) (by rw [h1]; simp [Scan.init] at hin ⊢; omega)
    rw [h1, h2, h3] at this
    simpa [Scan.init] using this

/-- When the first pass over the buffer `a ++ b` consumes exactly `a`, `unify` emits
what that pass emits and then what it emits for `b`. -/
theorem emitted_append (a b : List Nat) (beyond : Nat → Nat) (h0 : a ≠ [])
    (hofs : (step (mem (a ++ b) beyond) (a ++ b).length Scan.init).ofs = a.length)
    (hf : (step (mem (a ++ b) beyond) (a ++ b).length Scan.init).fault = false) :
    emitted (a ++ b) beyond
      = (step (mem (a ++ b) beyond) (a ++ b).length Scan.init).out ++ emitted b beyond := by
  unfold emitted
  have hpos : 0 < (a ++ b).length := by
    have := List.length_pos.2 h0
    simp
    omega
  rw [scan_out_first _ _ hpos hf, hofs, shift_mem_append]
  simp

/-! ## String and character literals -/

theorem escLoop_fuel (p : Nat → Nat) (size : Nat) :
    ∀ (n m : Nat) (s : Scan), size - s.ofs ≤ n → size - s.ofs ≤ m →
      escLoop p size n s = escLoop p size m s := by
  intro n
  induction n with
  | zero =>
    intro m s hn _
    cases m with
    | zero => rfl
    | succ m =>
      have h : ¬ s.ofs < size - 1 := by omega
      simp [escLoop, h]
  | succ n ih =>
    intro m s _ hm
    cases m with
    | zero =>
      have h : ¬ s.ofs < size - 1 := by omega
      simp [escLoop, h]
    | succ m =>
      by_cases h : s.ofs < size - 1
      · by_cases hc : p s.ofs = 92
        · simp only [escLoop, h, hc, if_true]
          exact ih m _ (by simp; omega) (by simp; omega)
        · simp [escLoop, h, hc]
      · simp [escLoop, h]

theorem escLoop_stop (p : Nat → Nat) (size n : Nat) (s : Scan) (h : p s.ofs ≠ 92) :
    (escLoop p size n s).ofs = s.ofs ∧ (escLoop p size n s).out = s.out
      ∧ (escLoop p size n s).fault = s.fault := by
  cases n with
  | zero => exact ⟨rfl, rfl, rfl⟩
  | succ n =>
    unfold escLoop
    by_cases h1 : s.ofs < size - 1
    · simp [h1, h]
    · simp [h1]

theorem quoteRest_ofs_ge (p : Nat → Nat) (size : Nat) (s : Scan) :
    s.ofs ≤ (quoteRest p size s).ofs := by
  have := escLoop_ofs_ge p size (size - s.ofs) s
  unfold quoteRest
  simpa using this

theorem quoteRest_stop (p : Nat → Nat) (size : Nat) (s : Scan) (h : p s.ofs ≠ 92) :
    (quoteRest p size s).ofs = s.ofs ∧ (quoteRest p size s).out = s.out ++ [p s.ofs]
      ∧ (quoteRest p size s).fault = s.fault := by
  have := escLoop_stop p size (size - s.ofs) s h
  unfold quoteRest
  simp [this.1, this.2.1, this.2.2]

theorem quoteRest_esc (p : Nat → Nat) (size : Nat) (s : Scan) (h : p s.ofs = 92)
    (hin : s.ofs + 1 < size) :
    ∃ u : Scan, quoteRest p size s = quoteRest p size u ∧ u.ofs = s.ofs + 2
      ∧ u.out = s.out ++ [92, p (s.ofs + 1)] ∧ u.fault = s.fault := by
  refine ⟨((((s.rd s.ofs).rd s.ofs).push (p s.ofs)).rd (s.ofs + 1)).push (p (s.ofs + 1)) |>.adv 2,
    ?_, rfl, by simp [h], rfl⟩
  obtain ⟨k, hk⟩ : ∃ k, size - s.ofs = k + 1 := ⟨size - s.ofs - 1, by omega⟩
  have h1 : s.ofs < size - 1 := by omega
  unfold quoteRest
  have e : escLoop p size (size - s.ofs) s
      = escLoop p size (size - (s.ofs + 2))
          (((((s.rd s.ofs).rd s.ofs).push (p s.ofs)).rd (s.ofs + 1)).push (p (s.ofs + 1)) |>.adv 2)
      := by
    rw [hk]
    simp only [escLoop, h1, h, if_true]
    exact escLoop_fuel p size _ _ _ (by simp; omega) (by simp)
  simp only [e, adv_ofs, push_ofs, rd_ofs]

theorem quoteLoop_stop (p : Nat → Nat) (size q n : Nat) (s : Scan)
    (h : p s.ofs = q ∨ ¬ s.ofs < size) :
    (quoteLoop p size q n s).ofs = s.ofs ∧ (quoteLoop p size q n s).out = s.out
      ∧ (quoteLoop p size q n s).fault = s.fault := by
  cases n with
  | zero => exact ⟨rfl, rfl, rfl⟩
  | succ n =>
    unfold quoteLoop
    by_cases h1 : s.ofs < size
    · have h2 : p s.ofs = q := h.resolve_right (fun h' => h' h1)
      simp [h1, h2]
    · simp [h1]

theorem bodyBytes_cons (it : Item) (its : List Item) :
    bodyBytes (it :: its) = it.bytes ++ bodyBytes its := rfl

/-- The `do ... while` of the quote branch over a well-formed body followed by the
closing quote inside the buffer: body and closing quote are emitted unchanged and
the cursor ends on the closing quote. -/
theorem quoteLoop_body (p : Nat → Nat) (size q : Nat) (hq : q ≠ 92) :
    ∀ (its : List Item) (s : Scan) (n : Nat),
      (∀ it ∈ its, it.ok q = true) →
      holds p s.ofs (bodyBytes its ++ [q]) →
      s.ofs + (bodyBytes its).length < size →
      size - (quoteRest p size s).ofs ≤ n →
      (quoteLoop p size q n (quoteRest p size s)).ofs = s.ofs + (bodyBytes its).length
        ∧ (quoteLoop p size q n (quoteRest p size s)).out = s.out ++ bodyBytes its ++ [q]
        ∧ (quoteLoop p size q n (quoteRest p size s)).fault = s.fault := by
  intro its
  induction its with
  | nil =>
    intro s n _ hh _ _
    have hp : p s.ofs = q := hh.1
    have h1 := quoteRest_stop p size s (by rw [hp]; exact hq)
    have h2 := quoteLoop_stop p size q n (quoteRest p size s) (Or.inl (by rw [h1.1]; exact hp))
    rw [h2.1, h2.2.1, h2.2.2, h1.1, h1.2.1, h1.2.2, hp]
    simp [bodyBytes]
  | cons it its ih =>
    intro s n hok hh hin hn
    have hok2 : ∀ x ∈ its, x.ok q = true := fun x hx => hok x (List.mem_cons_of_mem _ hx)
    cases it with
    | byte c =>
      have hc := hok (Item.byte c) (List.mem_cons_self _ _)
      simp [Item.ok] at hc
      have hp : p s.ofs = c := hh.1
      have hh2 : holds p (s.ofs + 1) (bodyBytes its ++ [q]) := hh.2
      have h1 := quoteRest_stop p size s (by rw [hp]; exact hc.2)
      have hlen : (bodyBytes (Item.byte c :: its)).length = (bodyBytes its).length + 1 := by
        simp [bodyBytes, Item.bytes]
      rw [hlen] at hin
      obtain ⟨m, hm⟩ : ∃ m, n = m + 1 := ⟨n - 1, by rw [h1.1] at hn; omega⟩
      have hlt : (quoteRest p size s).ofs < size := by rw [h1.1]; omega
      have hne : p (quoteRest p size s).ofs ≠ q := by rw [h1.1, hp]; exact hc.1
      have e : quoteLoop p size q n (quoteRest p size s)
          = quoteLoop p size q m
              (quoteRest p size (((quoteRest p size s).rd (quoteRest p size s).ofs).adv 1)) := by
        rw [hm]
        conv => lhs; unfold quoteLoop
        simp only [hlt, hne, ne_eq, not_false_eq_true, if_true]
        rfl
      have hge := quoteRest_ofs_ge p size
        (((quoteRest p size s).rd (quoteRest p size s).ofs).adv 1)
      have hofs : (((quoteRest p size s).rd (quoteRest p size s).ofs).adv 1).ofs
          = (quoteRest p size s).ofs + 1 := rfl
      have := ih (((quoteRest p size s).rd (quoteRest p size s).ofs).adv 1) m hok2
        (by simpa [h1.1] using hh2) (by simp [h1.1]; omega) (by omega)
      rw [e, this.1, this.2.1, this.2.2, hlen]
      simp [h1.1, h1.2.1, h1.2.2, hp, bodyBytes, Item.bytes]
      omega
    | esc c =>
      have hp : p s.ofs = 92 := hh.1
      have hp1 : p (s.ofs + 1) = c := hh.2.1
      have hh2 : holds p (s.ofs + 1 + 1) (bodyBytes its ++ [q]) := hh.2.2
      have hlen : (bodyBytes (Item.esc c :: its)).length = (bodyBytes its).length + 2 := by
        simp [bodyBytes, Item.bytes]
      rw [hlen] at hin
      obtain ⟨u, hu, h1, h2, h3⟩ := quoteRest_esc p size s hp (by omega)
      have := ih u n hok2 (by rw [h1]; exact hh2) (by rw [h1]; omega) (by rw [← hu]; exact hn)
      rw [hu, this.1, this.2.1, this.2.2, h1, h2, h3, hlen, hp1]
      simp [bodyBytes, Item.bytes]
      omega

theorem literal_body (p : Nat → Nat) (size q : Nat) (hq : q ≠ 92) (its : List Item) (s : Scan)
    (hok : ∀ it ∈ its, it.ok q = true)
    (hh : holds p s.ofs (q :: bodyBytes its ++ [q]))
    (hin : s.ofs + (bodyBytes its).length + 1 < size) :
    (literal p size s).ofs = s.ofs + (bodyBytes its).length + 2
      ∧ (literal p size s).out = s.out ++ q :: bodyBytes its ++ [q, 10]
      ∧ (literal p size s).fault = s.fault := by
  have hp : p s.ofs = q := hh.1
  have := quoteLoop_body p size q hq its ((((s.rd s.ofs).rd s.ofs).push (p s.ofs)).adv 1)
    (size - (quoteRest p size ((((s.rd s.ofs).rd s.ofs).push (p s.ofs)).adv 1)).ofs)
    hok hh.2 (by simp; omega) (Nat.le_refl _)
  unfold literal quoteBody
  simp only [hp] at this ⊢
  simp only [adv_ofs, push_ofs, adv_out, push_out, adv_fault, push_fault, this.1, this.2.1,
    this.2.2]
  simp
  omega

theorem quote_class :
    ∀ q, (q = 39 ∨ q = 34) → q ≠ 35 ∧ hasType C_ALPHA q = false ∧ hasType C_DIGIT q = false
      ∧ hasType C_SPACE q = false ∧ hasType C_QUOTE q = true := by
  intro q hq
  rcases hq with h | h <;> subst h <;> decide!

theorem step_quote (p : Nat → Nat) (size : Nat) (s : Scan) (h : p s.ofs = 39 ∨ p s.ofs = 34) :
    ∃ u : Scan, step p size s = literal p size u
      ∧ u.ofs = s.ofs ∧ u.out = s.out ∧ u.fault = s.fault := by
  obtain ⟨h1, h2, h3, h4, h5⟩ := quote_class _ h
  refine ⟨((((s.rd s.ofs).rd s.ofs).rd s.ofs).rd s.ofs).rd s.ofs, ?_, rfl, rfl, rfl⟩
  unfold step
  simp [h1, h2, h3, h4, h5]

/-! ## Lexemes that emit nothing: whitespace runs and line-number directives -/

theorem hasType_space (c : Nat) : hasType C_SPACE c = isspace c := by
  by_cases h : c < 256
  · have : ∀ c < 256, hasType C_SPACE c = isspace c := by decide!
    exact this c h
  · have h1 : hasType C_SPACE c = false := by
      unfold hasType
      rw [tokens_of_ge c (by omega)]
      rfl
    have h2 : isspace c = false := by
      simp only [isspace, decide_eq_false_iff_not]
      omega
    rw [h1, h2]

theorem space_class : ∀ c, isspace c = true →
    c ≠ 35 ∧ hasType C_ALPHA c = false ∧ hasType C_DIGIT c = false ∧ hasType C_SPACE c = true := by
  intro c hc
  have hlt : c < 256 := by
    simp only [isspace, decide_eq_true_eq] at hc
    omega
  have : ∀ c < 256, isspace c = true →
      c ≠ 35 ∧ hasType C_ALPHA c = false ∧ hasType C_DIGIT c = false
        ∧ hasType C_SPACE c = true := by decide!
  exact this c hlt hc

theorem step_space (p : Nat → Nat) (size : Nat) (s : Scan) (h : isspace (p s.ofs) = true) :
    ∃ u : Scan, step p size s = whitespace p size u
      ∧ u.ofs = s.ofs ∧ u.out = s.out ∧ u.fault = s.fault := by
  obtain ⟨h1, h2, h3, h4⟩ := space_class _ h
  refine ⟨(((s.rd s.ofs).rd s.ofs).rd s.ofs).rd s.ofs, ?_, rfl, rfl, rfl⟩
  unfold step
  simp [h1, h2, h3, h4]

/-- A whitespace run in front of a byte that is not whitespace (or of the end of the
buffer) is consumed by one pass, which emits nothing. -/
theorem emitted_space_run (x : Nat) (run tl : List Nat) (beyond : Nat → Nat)
    (hx : isspace x = true) (hrun : ∀ y ∈ run, isspace y = true)
    (htl : ∀ y ∈ tl.head?, isspace y = false) :
    emitted (x :: run ++ tl) beyond = emitted tl beyond := by
  have e : x :: run ++ tl = (x :: run) ++ tl := rfl
  have hh := holds_mem beyond (x :: run ++ tl)
  have hh1 : holds (mem ((x :: run) ++ tl) beyond) 1 (run ++ tl) := hh.2
  obtain ⟨hr, ht⟩ := (holds_append _ run tl 1).1 hh1
  obtain ⟨u, hu, h1, h2, h3⟩ := step_space (mem ((x :: run) ++ tl) beyond)
    ((x :: run) ++ tl).length Scan.init (by
      have h0 : mem ((x :: run) ++ tl) beyond Scan.init.ofs = x := hh.1
      rw [h0]; exact hx)
  have hw := scanWhile_run (mem ((x :: run) ++ tl) beyond) ((x :: run) ++ tl).length
    (hasType C_SPACE) false run (u.adv 1)
    (by simpa [h1, Scan.init] using hr)
    (by intro y hy; rw [hasType_space]; exact hrun y hy)
    (by simp [h1, Scan.init]; omega)
    (by
      intro hlt
      simp [h1, Scan.init] at hlt ⊢
      cases tl with
      | nil => exfalso; simp at hlt; omega
      | cons y tl =>
        have hy : mem ((x :: run) ++ y :: tl) beyond (1 + run.length) = y := ht.1
        rw [List.cons_append] at hy
        rw [hy, hasType_space]
        exact htl y (by simp))
  have hs : step (mem ((x :: run) ++ tl) beyond) ((x :: run) ++ tl).length Scan.init
      = scanWhile (mem ((x :: run) ++ tl) beyond) ((x :: run) ++ tl).length
          (hasType C_SPACE) false (u.adv 1) := hu
  rw [e, emitted_append (x :: run) tl beyond (by simp)
    (by rw [hs, hw.1]; simp [h1, Scan.init]; omega) (by rw [hs, hw.2.2]; simp [h3, Scan.init]),
    hs, hw.2.1]
  simp [h2, Scan.init]

theorem dropWhile_head_not (f : Nat → Bool) :
    ∀ l : List Nat, ∀ y ∈ (l.dropWhile f).head?, f y = false := by
  intro l
  induction l with
  | nil => intro y hy; simp at hy
  | cons a l ih =>
    intro y hy
    by_cases ha : f a = true
    · rw [List.dropWhile_cons_of_pos ha] at hy
      exact ih y hy
    · rw [List.dropWhile_cons_of_neg ha] at hy
      simp at hy
      subst hy
      simpa using ha

theorem emitted_dropWhile_space (l : List Nat) (beyond : Nat → Nat) :
    emitted l beyond = emitted (l.dropWhile isspace) beyond := by
  cases l with
  | nil => rfl
  | cons x l =>
    by_cases hx : isspace x = true
    · rw [List.dropWhile_cons_of_pos hx]
      have e : x :: l = x :: l.takeWhile isspace ++ l.dropWhile isspace := by
        simp [List.takeWhile_append_dropWhile]
      conv => lhs; rw [e]
      exact emitted_space_run x _ _ beyond hx
        (fun y hy => (List.mem_takeWhile_imp hy)) (dropWhile_head_not isspace l)
    · rw [List.dropWhile_cons_of_neg hx]

/-- A non-empty run of whitespace in front of the buffer emits nothing: `unify`
emits for `w ++ rest` what it emits for `rest`. -/
theorem emitted_space_append (w rest : List Nat) (beyond : Nat → Nat)
    (hw : ∀ y ∈ w, isspace y = true) :
    emitted (w ++ rest) beyond = emitted rest beyond := by
  rw [emitted_dropWhile_space (w ++ rest), emitted_dropWhile_space rest]
  congr 1
  induction w with
  | nil => rfl
  | cons x w ih =>
    rw [List.cons_append, List.dropWhile_cons_of_pos (hw x (List.mem_cons_self _ _))]
    exact ih (fun y hy => hw y (List.mem_cons_of_mem _ hy))

theorem skipLine_run (p : Nat → Nat) (size : Nat) (l : List Nat) (s : Scan)
    (hh : holds p (s.ofs + 1) (l ++ [10])) (hnl : 10 ∉ l) (hin : s.ofs + 1 + l.length < size) :
    (skipLine p size s).ofs = s.ofs + l.length + 2
      ∧ (skipLine p size s).out = s.out
      ∧ (skipLine p size s).fault = s.fault := by
  obtain ⟨hl, h10⟩ := (holds_append p l [10] (s.ofs + 1)).1 hh
  have hstop : p (s.ofs + 1 + l.length) = 10 := h10.1
  have hr := scanWhile_run p size (fun c => c != 10) false l (s.adv 1)
    (by simpa using hl)
    (by intro y hy; simp; intro h; exact hnl (h ▸ hy))
    (by simp; omega)
    (by intro _; simp [hstop])
  unfold skipLine
  simp at hr ⊢
  exact ⟨by rw [hr.1]; omega, hr.2⟩

/-- A line-number directive line at the start of the buffer is consumed by one pass,
which emits nothing. -/
theorem step_lineDirective (p : Nat → Nat) (size : Nat) (d : Nat) (ds : List Nat)
    (hd : isdigit d = true) (hnl : 10 ∉ ds)
    (hh : holds p 0 (lineDirective d ds)) (hin : (lineDirective d ds).length ≤ size) :
    (step p size Scan.init).ofs = (lineDirective d ds).length
      ∧ (step p size Scan.init).out = []
      ∧ (step p size Scan.init).fault = false := by
  have hp0 : p 0 = 35 := hh.1
  have hp1 : p 1 = 32 := hh.2.1
  have hp2 : p 2 = d := hh.2.2.1
  have hlen : (lineDirective d ds).length = ds.length + 4 := by simp [lineDirective]
  rw [hlen] at hin
  rw [step_hash p size Scan.init hp0,
    directive_skip p size (Scan.init.rd Scan.init.ofs)
      ⟨by simp [Scan.init]; omega, by simpa [Scan.init] using hp1,
        by simpa [Scan.init, hp2] using hd⟩]
  have hd10 : d ≠ 10 := by
    intro h
    rw [h] at hd
    simp [isdigit] at hd
  have := skipLine_run p size (32 :: d :: ds)
    (((Scan.init.rd Scan.init.ofs).rd ((Scan.init.rd Scan.init.ofs).ofs + 1)).rd
      ((Scan.init.rd Scan.init.ofs).ofs + 2))
    (by simpa [Scan.init, lineDirective] using hh.2)
    (by simp; exact ⟨fun h => hd10 h.symm, hnl⟩)
    (by simp [Scan.init]; omega)
  rw [hlen]
  simpa [Scan.init] using this

/-- A line-number directive line in front of the buffer emits nothing: `unify` emits
for the line followed by `rest` what it emits for `rest`. -/
theorem emitted_lineDirective_append (d : Nat) (ds rest : List Nat) (beyond : Nat → Nat)
    (hd : isdigit d = true) (hnl : 10 ∉ ds) :
    emitted (lineDirective d ds ++ rest) beyond = emitted rest beyond := by
  have hs := step_lineDirective (mem (lineDirective d ds ++ rest) beyond)
    (lineDirective d ds ++ rest).length d ds hd hnl (holds_mem_append _ _ _) (by simp)
  rw [emitted_append (lineDirective d ds) rest beyond (by simp [lineDirective]) hs.1 hs.2.2,
    hs.2.1]
  simp

/-! ## Scanning the same bytes in a different buffer

`p` and `q` hold the same bytes below `k`; a pass of the loop on `(p, size)` that ends
at or before `k` is compared with the pass on `(q, size2)` from the same cursor. -/

theorem Same.refl (s : Scan) : Same s s := ⟨rfl, rfl, rfl⟩

theorem Same.rdB {s t : Scan} (h : Same s t) (i j : Nat) : Same (s.rd i) (t.rd j) := h

theorem Same.rdL {s t : Scan} (h : Same s t) (i : Nat) : Same (s.rd i) t := h

theorem Same.rdR {s t : Scan} (h : Same s t) (j : Nat) : Same s (t.rd j) := h

theorem Same.pushB {s t : Scan} (h : Same s t) (c : Nat) : Same (s.push c) (t.push c) := by
  obtain ⟨h1, h2, h3⟩ := h
  exact ⟨h1, by simp [h2], h3⟩

theorem Same.advB {s t : Scan} (h : Same s t) (d : Nat) : Same (s.adv d) (t.adv d) := by
  obtain ⟨h1, h2, h3⟩ := h
  exact ⟨by simp [h1], h2, h3⟩

theorem Same.faultB {s t : Scan} (h : Same s t) :
    Same { s with fault := true } { t with fault := true } := ⟨h.1, h.2.1, rfl⟩

theorem Same.trans {s t u : Scan} (h1 : Same s t) (h2 : Same t u) : Same s u :=
  ⟨h1.1.trans h2.1, h1.2.1.trans h2.2.1, h1.2.2.trans h2.2.2⟩

theorem Same.symm {s t : Scan} (h : Same s t) : Same t s := ⟨h.1.symm, h.2.1.symm, h.2.2.symm⟩

theorem Same.copyB {s t : Scan} (h : Same s t) (p q : Nat → Nat) (hb : p s.ofs = q t.ofs) :
    Same (copyByte p s) (copyByte q t) := by
  unfold Unify.copyByte
  rw [hb]
  exact ((h.rdB _ _).pushB _).advB 1

theorem runWhile_stable (p q : Nat → Nat) (size size2 k : Nat) (c : Nat → Bool) (emit : Bool)
    (hag : Agree p q k) (hk : k ≤ size) (hk2 : k ≤ size2) :
    ∀ (n m : Nat) (s t : Scan), Same s t → s.ofs ≤ k → size2 - t.ofs ≤ m →
      (runWhile p size c emit n s).ofs ≤ k →
      ((runWhile p size c emit n s).ofs = k → c (q k) = false) →
      size - s.ofs ≤ n →
      Same (runWhile p size c emit n s) (runWhile q size2 c emit m t) := by
  intro n
  induction n with
  | zero =>
    intro m s t h hs hm hfin hstop hfuel
    have hsk : s.ofs = k := by omega
    cases m with
    | zero => exact h
    | succ m =>
      have hc := hstop hsk
      unfold runWhile
      by_cases h2 : t.ofs < size2
      · have : c (q t.ofs) = false := by rw [← h.1, hsk]; exact hc
        simp only [h2, this, if_true]
        exact h.rdR _
      · simp only [h2, if_false]
        exact h
  | succ n ih =>
    intro m s t h hs hm hfin hstop hfuel
    by_cases h1 : s.ofs < size
    · by_cases hc : c (p s.ofs) = true
      · have e : runWhile p size c emit (n + 1) s
            = runWhile p size c emit n (if emit then copyByte p (s.rd s.ofs) else (s.rd s.ofs).adv 1)
            := by simp [runWhile, h1, hc]
        rw [e] at hfin hstop ⊢
        have hge := runWhile_ofs_ge p size c emit n
          (if emit then copyByte p (s.rd s.ofs) else (s.rd s.ofs).adv 1)
        have hofs : (if emit then copyByte p (s.rd s.ofs) else (s.rd s.ofs).adv 1).ofs
            = s.ofs + 1 := by cases emit <;> rfl
        have hlt : s.ofs < k := by omega
        have hb : p s.ofs = q t.ofs := by rw [← h.1]; exact hag _ hlt
        have ht : t.ofs < size2 := by rw [← h.1]; omega
        obtain ⟨m', hm'⟩ : ∃ m', m = m' + 1 := ⟨m - 1, by omega⟩
        have hc2 : c (q t.ofs) = true := hb ▸ hc
        have e2 : runWhile q size2 c emit m t
            = runWhile q size2 c emit m' (if emit then copyByte q (t.rd t.ofs) else (t.rd t.ofs).adv 1)
            := by rw [hm']; simp [runWhile, ht, hc2]
        rw [e2]
        have hsame : Same (if emit then copyByte p (s.rd s.ofs) else (s.rd s.ofs).adv 1)
            (if emit then copyByte q (t.rd t.ofs) else (t.rd t.ofs).adv 1) := by
          cases emit
          · exact (h.rdB _ _).advB 1
          · exact (h.rdB _ _).copyB p q hb
        have hofs2 : (if emit then copyByte q (t.rd t.ofs) else (t.rd t.ofs).adv 1).ofs
            = t.ofs + 1 := by cases emit <;> rfl
        exact ih m' _ _ hsame (by omega) (by omega) hfin hstop (by omega)
      · have e : runWhile p size c emit (n + 1) s = s.rd s.ofs := by simp [runWhile, h1, hc]
        rw [e] at hstop ⊢
        have hcq : c (q t.ofs) = false := by
          by_cases hlt : s.ofs < k
          · have hb : p s.ofs = q t.ofs := by rw [← h.1]; exact hag _ hlt
            rw [← hb]; simpa using hc
          · have hsk : s.ofs = k := by omega
            rw [← h.1, hsk]
            exact hstop hsk
        cases m with
        | zero => exact h.rdL _
        | succ m =>
          unfold runWhile
          by_cases h2 : t.ofs < size2
          · simp only [h2, hcq, if_true]
            exact (h.rdB _ _)
          · simp only [h2, if_false]
            exact h.rdL _
    · have e : runWhile p size c emit (n + 1) s = s := by simp [runWhile, h1]
      rw [e] at hstop ⊢
      have hsk : s.ofs = k := by omega
      have hcq : c (q t.ofs) = false := by rw [← h.1, hsk]; exact hstop hsk
      cases m with
      | zero => exact h
      | succ m =>
        unfold runWhile
        by_cases h2 : t.ofs < size2
        · simp only [h2, hcq, if_true]
          exact h.rdR _
        · simp only [h2, if_false]
          exact h

theorem scanWhile_stable (p q : Nat → Nat) (size size2 k : Nat) (c : Nat → Bool) (emit : Bool)
    (hag : Agree p q k) (hk : k ≤ size) (hk2 : k ≤ size2) (s t : Scan) (h : Same s t)
    (hfin : (scanWhile p size c emit s).ofs ≤ k)
    (hstop : (scanWhile p size c emit s).ofs = k → c (q k) = false) :
    Same (scanWhile p size c emit s) (scanWhile q size2 c emit t) := by
  have hs : s.ofs ≤ k := Nat.le_trans (scanWhile_ofs_ge p size c emit s) hfin
  exact runWhile_stable p q size size2 k c emit hag hk hk2 _ _ s t h hs (Nat.le_refl _)
    hfin hstop (Nat.le_refl _)

/-- When the guarded loop ends inside the buffer, its condition fails on the byte
under the cursor. -/
theorem runWhile_exit (p : Nat → Nat) (size : Nat) (c : Nat → Bool) (emit : Bool) :
    ∀ (n : Nat) (s : Scan), size - s.ofs ≤ n → (runWhile p size c emit n s).ofs < size →
      c (p (runWhile p size c emit n s).ofs) = false := by
  intro n
  induction n with
  | zero =>
    intro s hn hlt
    simp only [runWhile] at hlt
    omega
  | succ n ih =>
    intro s hn hlt
    by_cases h1 : s.ofs < size
    · by_cases hc : c (p s.ofs) = true
      · have e : runWhile p size c emit (n + 1) s
            = runWhile p size c emit n (if emit then copyByte p (s.rd s.ofs) else (s.rd s.ofs).adv 1)
            := by simp [runWhile, h1, hc]
        rw [e] at hlt ⊢
        have hofs : (if emit then copyByte p (s.rd s.ofs) else (s.rd s.ofs).adv 1).ofs
            = s.ofs + 1 := by cases emit <;> rfl
        exact ih _ (by omega) hlt
      · have e : runWhile p size c emit (n + 1) s = s.rd s.ofs := by simp [runWhile, h1, hc]
        rw [e]
        simpa using hc
    · have e : runWhile p size c emit (n + 1) s = s := by simp [runWhile, h1]
      rw [e] at hlt
      exact absurd hlt h1

theorem scanWhile_exit (p : Nat → Nat) (size : Nat) (c : Nat → Bool) (emit : Bool) (s : Scan)
    (hlt : (scanWhile p size c emit s).ofs < size) :
    c (p (scanWhile p size c emit s).ofs) = false :=
  runWhile_exit p size c emit _ s (Nat.le_refl _) hlt

theorem skipLine_stable (p q : Nat → Nat) (size size2 k : Nat)
    (hag : Agree p q k) (hk : k ≤ size) (hk2 : k ≤ size2) (s t : Scan) (h : Same s t)
    (hfin : (skipLine p size s).ofs ≤ k) :
    Same (skipLine p size s) (skipLine q size2 t) := by
  unfold skipLine at hfin ⊢
  simp only [adv_ofs] at hfin
  exact (scanWhile_stable p q size size2 k _ false hag hk hk2 _ _ (h.advB 1) (by omega)
    (by intro h'; omega)).advB 1

theorem verbatimLine_stable (p q : Nat → Nat) (size size2 k : Nat)
    (hag : Agree p q k) (hk : k ≤ size) (hk2 : k ≤ size2) (s t : Scan) (h : Same s t)
    (hfin : (verbatimLine p size s).ofs ≤ k) :
    Same (verbatimLine p size s) (verbatimLine q size2 t) := by
  unfold verbatimLine at hfin ⊢
  simp only [adv_ofs, push_ofs] at hfin
  have hge := scanWhile_ofs_ge p size (fun c => c != 10) true (copyByte p s)
  simp only [copyByte_ofs] at hge
  have hb : p s.ofs = q t.ofs := by rw [← h.1]; exact hag _ (by omega)
  exact ((scanWhile_stable p q size size2 k _ true hag hk hk2 _ _ (h.copyB p q hb) (by omega)
    (by intro h'; omega)).pushB 10).advB 1

theorem directive_stable (p q : Nat → Nat) (size size2 k : Nat)
    (hag : Agree p q k) (hk : k ≤ size) (hk2 : k ≤ size2) (s t : Scan) (h : Same s t)
    (hfin : (directive p size s).ofs ≤ k) :
    Same (directive p size s) (directive q size2 t) := by
  have hst := h.1
  by_cases hskip : size - s.ofs > 2 ∧ p (s.ofs + 1) = 32 ∧ isdigit (p (s.ofs + 2)) = true
  · rw [directive_skip p size s hskip] at hfin ⊢
    have hfin' := hfin
    unfold skipLine at hfin'
    simp only [adv_ofs] at hfin'
    have hge := scanWhile_ofs_ge p size (fun c => c != 10) false
      (((s.rd (s.ofs + 1)).rd (s.ofs + 2)).adv 1)
    have hex := scanWhile_exit p size (fun c => c != 10) false
      (((s.rd (s.ofs + 1)).rd (s.ofs + 2)).adv 1) (by omega)
    simp only [adv_ofs, rd_ofs] at hge
    have h10 : p (scanWhile p size (fun c => c != 10) false
        (((s.rd (s.ofs + 1)).rd (s.ofs + 2)).adv 1)).ofs = 10 := by simpa using hex
    have hd10 : p (s.ofs + 2) ≠ 10 := by
      intro h'
      have := hskip.2.2
      rw [h'] at this
      simp [isdigit] at this
    have hf3 : s.ofs + 3 ≤ (scanWhile p size (fun c => c != 10) false
        (((s.rd (s.ofs + 1)).rd (s.ofs + 2)).adv 1)).ofs := by
      by_contra hcon
      have hcase : (scanWhile p size (fun c => c != 10) false
          (((s.rd (s.ofs + 1)).rd (s.ofs + 2)).adv 1)).ofs = s.ofs + 1
          ∨ (scanWhile p size (fun c => c != 10) false
          (((s.rd (s.ofs + 1)).rd (s.ofs + 2)).adv 1)).ofs = s.ofs + 2 := by omega
      rcases hcase with hc | hc
      · rw [hc] at h10
        have := hskip.2.1
        omega
      · rw [hc] at h10
        exact hd10 h10
    have hq : size2 - t.ofs > 2 ∧ q (t.ofs + 1) = 32 ∧ isdigit (q (t.ofs + 2)) = true := by
      refine ⟨by omega, ?_, ?_⟩
      · rw [← hst, ← hag (s.ofs + 1) (by omega)]; exact hskip.2.1
      · rw [← hst, ← hag (s.ofs + 2) (by omega)]; exact hskip.2.2
    rw [directive_skip q size2 t hq]
    exact skipLine_stable p q size size2 k hag hk hk2 _ _ ((h.rdB _ _).rdB _ _) hfin
  · obtain ⟨u, hu, hu1, hu2, hu3⟩ := directive_verbatim p size s hskip
    rw [hu] at hfin ⊢
    have hfin' := hfin
    unfold verbatimLine at hfin'
    simp only [adv_ofs, push_ofs] at hfin'
    have hge := scanWhile_ofs_ge p size (fun c => c != 10) true (copyByte p u)
    have hex := scanWhile_exit p size (fun c => c != 10) true (copyByte p u) (by omega)
    simp only [copyByte_ofs, hu1] at hge
    have h10 : p (scanWhile p size (fun c => c != 10) true (copyByte p u)).ofs = 10 := by
      simpa using hex
    have hq : ¬ (size2 - t.ofs > 2 ∧ q (t.ofs + 1) = 32 ∧ isdigit (q (t.ofs + 2)) = true) := by
      rintro ⟨_, hq1, hq2⟩
      have hp1 : p (s.ofs + 1) = 32 := by rw [hag (s.ofs + 1) (by omega), hst]; exact hq1
      have hf2 : s.ofs + 2 ≤ (scanWhile p size (fun c => c != 10) true (copyByte p u)).ofs := by
        by_contra hcon
        have hc : (scanWhile p size (fun c => c != 10) true (copyByte p u)).ofs = s.ofs + 1 := by
          omega
        rw [hc] at h10
        omega
      have hp2 : isdigit (p (s.ofs + 2)) = true := by
        rw [hag (s.ofs + 2) (by omega), hst]; exact hq2
      exact hskip ⟨by omega, hp1, hp2⟩
    obtain ⟨v, hv, hv1, hv2, hv3⟩ := directive_verbatim q size2 t hq
    rw [hv]
    exact verbatimLine_stable p q size size2 k hag hk hk2 u v
      ⟨by rw [hu1, hv1]; exact h.1, by rw [hu2, hv2]; exact h.2.1, by rw [hu3, hv3]; exact h.2.2⟩
      hfin

theorem s_tokens_bytes_lt : ∀ s ∈ s_tokens, ∀ c ∈ s, c < 256 := by decide!

theorem hasType_of_ge (mask c : Nat) (h : 256 ≤ c) : hasType mask c = false := by
  unfold hasType
  rw [tokens_of_ge c h]
  simp [Entry.zero]

/-- What a byte that ends every lexeme is not. -/
theorem endsLexeme_facts (x : Nat) (h : endsLexeme x = true) :
    hasType (C_ALPHA ||| C_DIGIT) x = false ∧ (hasType C_DIGIT x || x == 46) = false
      ∧ ¬ (x = 120 ∨ x = 88) ∧ hasType C_HEX x = false ∧ ¬ (x = 69 ∨ x = 101)
      ∧ hasType (C_DIGIT ||| C_SIGN) x = false ∧ hasType C_FLOAT x = false
      ∧ (∀ s ∈ s_tokens, x ∉ s) := by
  by_cases hx : x < 256
  · have : ∀ x < 256, endsLexeme x = true →
        hasType (C_ALPHA ||| C_DIGIT) x = false ∧ (hasType C_DIGIT x || x == 46) = false
          ∧ ¬ (x = 120 ∨ x = 88) ∧ hasType C_HEX x = false ∧ ¬ (x = 69 ∨ x = 101)
          ∧ hasType (C_DIGIT ||| C_SIGN) x = false ∧ hasType C_FLOAT x = false
          ∧ (∀ s ∈ s_tokens, x ∉ s) := by decide!
    exact this x hx h
  · have hge : 256 ≤ x := by omega
    refine ⟨hasType_of_ge _ x hge, ?_, by omega, hasType_of_ge _ x hge, by omega,
      hasType_of_ge _ x hge, hasType_of_ge _ x hge, ?_⟩
    · rw [hasType_of_ge _ x hge]
      simp
      omega
    · intro s hs hxs
      have := s_tokens_bytes_lt s hs x hxs
      omega

theorem identifier_stable (p q : Nat → Nat) (size size2 k : Nat)
    (hag : Agree p q k) (hk : k ≤ size) (hk2 : k ≤ size2) (hx : endsLexeme (q k) = true)
    (s t : Scan) (h : Same s t) (hfin : (identifier p size s).ofs ≤ k) :
    Same (identifier p size s) (identifier q size2 t) := by
  unfold identifier at hfin ⊢
  simp only [push_ofs] at hfin
  have hge := scanWhile_ofs_ge p size (hasType (C_ALPHA ||| C_DIGIT)) true (copyByte p s)
  simp only [copyByte_ofs] at hge
  have hb : p s.ofs = q t.ofs := by rw [← h.1]; exact hag _ (by omega)
  exact (scanWhile_stable p q size size2 k _ true hag hk hk2 _ _ (h.copyB p q hb) hfin
    (fun _ => (endsLexeme_facts _ hx).1)).pushB 10

theorem hexPart_stable (p q : Nat → Nat) (size size2 k : Nat)
    (hag : Agree p q k) (hk : k ≤ size) (hk2 : k ≤ size2) (hx : endsLexeme (q k) = true)
    (s t : Scan) (h : Same s t) (hfin : (hexPart p size s).ofs ≤ k) :
    Same (hexPart p size s) (hexPart q size2 t) := by
  have hf := endsLexeme_facts _ hx
  unfold hexPart at hfin ⊢
  by_cases hc : p s.ofs = 120 ∨ p s.ofs = 88
  · simp only [hc, if_true] at hfin ⊢
    have hge := scanWhile_ofs_ge p size (hasType C_HEX) true (copyByte p (s.rd s.ofs))
    simp only [copyByte_ofs, rd_ofs] at hge
    have hb : p s.ofs = q t.ofs := by rw [← h.1]; exact hag _ (by omega)
    have hc2 : q t.ofs = 120 ∨ q t.ofs = 88 := hb ▸ hc
    simp only [hc2, if_true]
    exact scanWhile_stable p q size size2 k _ true hag hk hk2 _ _
      ((h.rdB _ _).copyB p q hb) hfin (fun _ => hf.2.2.2.1)
  · simp only [hc, if_false] at hfin ⊢
    simp only [rd_ofs] at hfin
    have hc2 : ¬ (q t.ofs = 120 ∨ q t.ofs = 88) := by
      by_cases hlt : s.ofs < k
      · have hb : p s.ofs = q t.ofs := by rw [← h.1]; exact hag _ hlt
        exact hb ▸ hc
      · have : t.ofs = k := by rw [← h.1]; omega
        rw [this]
        exact hf.2.2.1
    simp only [hc2, if_false]
    exact h.rdB _ _

theorem expPart_stable (p q : Nat → Nat) (size size2 k : Nat)
    (hag : Agree p q k) (hk : k ≤ size) (hk2 : k ≤ size2) (hx : endsLexeme (q k) = true)
    (s t : Scan) (h : Same s t) (hfin : (expPart p size s).ofs ≤ k) :
    Same (expPart p size s) (expPart q size2 t) := by
  have hf := endsLexeme_facts _ hx
  unfold expPart at hfin ⊢
  by_cases hc : p s.ofs = 69 ∨ p s.ofs = 101
  · simp only [hc, if_true] at hfin ⊢
    have hge := scanWhile_ofs_ge p size (hasType (C_DIGIT ||| C_SIGN)) true
      (copyByte p (s.rd s.ofs))
    simp only [copyByte_ofs, rd_ofs] at hge
    have hb : p s.ofs = q t.ofs := by rw [← h.1]; exact hag _ (by omega)
    have hc2 : q t.ofs = 69 ∨ q t.ofs = 101 := hb ▸ hc
    simp only [hc2, if_true]
    exact scanWhile_stable p q size size2 k _ true hag hk hk2 _ _
      ((h.rdB _ _).copyB p q hb) hfin (fun _ => hf.2.2.2.2.2.1)
  · simp only [hc, if_false] at hfin ⊢
    simp only [rd_ofs] at hfin
    have hc2 : ¬ (q t.ofs = 69 ∨ q t.ofs = 101) := by
      by_cases hlt : s.ofs < k
      · have hb : p s.ofs = q t.ofs := by rw [← h.1]; exact hag _ hlt
        exact hb ▸ hc
      · have : t.ofs = k := by rw [← h.1]; omega
        rw [this]
        exact hf.2.2.2.2.1
    simp only [hc2, if_false]
    exact h.rdB _ _

theorem number_stable (p q : Nat → Nat) (size size2 k : Nat)
    (hag : Agree p q k) (hk : k ≤ size) (hk2 : k ≤ size2) (hx : endsLexeme (q k) = true)
    (s t : Scan) (h : Same s t) (hfin : (number p size s).ofs ≤ k) :
    Same (number p size s) (number q size2 t) := by
  have hf := endsLexeme_facts _ hx
  unfold number at hfin ⊢
  simp only [push_ofs] at hfin
  have h0 := scanWhile_ofs_ge p size (fun c => hasType C_DIGIT c || c == 46) true (copyByte p s)
  have h2 := hexPart_ofs_ge p size
    (scanWhile p size (fun c => hasType C_DIGIT c || c == 46) true (copyByte p s))
  have h3 := expPart_ofs_ge p size (hexPart p size
    (scanWhile p size (fun c => hasType C_DIGIT c || c == 46) true (copyByte p s)))
  have h4 := scanWhile_ofs_ge p size (hasType C_FLOAT) true (expPart p size (hexPart p size
    (scanWhile p size (fun c => hasType C_DIGIT c || c == 46) true (copyByte p s))))
  simp only [copyByte_ofs] at h0
  have hb : p s.ofs = q t.ofs := by rw [← h.1]; exact hag _ (by omega)
  have s1 := scanWhile_stable p q size size2 k (fun c => hasType C_DIGIT c || c == 46) true
    hag hk hk2 _ _ (h.copyB p q hb) (by omega) (fun _ => hf.2.1)
  have s2 := hexPart_stable p q size size2 k hag hk hk2 hx _ _ s1 (by omega)
  have s3 := expPart_stable p q size size2 k hag hk hk2 hx _ _ s2 (by omega)
  exact (scanWhile_stable p q size size2 k (hasType C_FLOAT) true hag hk hk2 _ _ s3 hfin
    (fun _ => hf.2.2.2.2.2.2.1)).pushB 10

theorem whitespace_stable (p q : Nat → Nat) (size size2 k : Nat)
    (hag : Agree p q k) (hk : k ≤ size) (hk2 : k ≤ size2)
    (s t : Scan) (h : Same s t) (hfin : (whitespace p size s).ofs ≤ k)
    (hws : (whitespace p size s).ofs = k → isspace (q k) = false) :
    Same (whitespace p size s) (whitespace q size2 t) := by
  unfold whitespace at hfin hws ⊢
  exact scanWhile_stable p q size size2 k _ false hag hk hk2 _ _ (h.advB 1) hfin
    (fun h' => by rw [hasType_space]; exact hws h')

theorem escLoop_stable (p q : Nat → Nat) (size size2 k : Nat)
    (hag : Agree p q k) (hk : k ≤ size) (hk2 : k ≤ size2) :
    ∀ (n m : Nat) (s t : Scan), Same s t → size - s.ofs ≤ n → size2 - t.ofs ≤ m →
      (escLoop p size n s).ofs < k →
      ((escLoop p size n s).ofs + 1 < k ∨ p (escLoop p size n s).ofs ≠ 92) →
      Same (escLoop p size n s) (escLoop q size2 m t) := by
  intro n
  induction n with
  | zero =>
    intro m s t h hn hm hfin _
    simp only [escLoop] at hfin
    omega
  | succ n ih =>
    intro m s t h hn hm hfin hlast
    by_cases h1 : s.ofs < size - 1
    · by_cases hc : p s.ofs = 92
      · have e : escLoop p size (n + 1) s = escLoop p size n
            (((((s.rd s.ofs).rd s.ofs).push (p s.ofs)).rd (s.ofs + 1)).push (p (s.ofs + 1))
              |>.adv 2) := by
          simp [escLoop, h1, hc]
        rw [e] at hfin hlast ⊢
        have hge := escLoop_ofs_ge p size n
          (((((s.rd s.ofs).rd s.ofs).push (p s.ofs)).rd (s.ofs + 1)).push (p (s.ofs + 1))
              |>.adv 2)
        simp only [adv_ofs, push_ofs, rd_ofs] at hge
        have hb : p s.ofs = q t.ofs := by rw [← h.1]; exact hag _ (by omega)
        have hb1 : p (s.ofs + 1) = q (t.ofs + 1) := by rw [← h.1]; exact hag _ (by omega)
        have ht : t.ofs < size2 - 1 := by rw [← h.1]; omega
        obtain ⟨m', hm'⟩ : ∃ m', m = m' + 1 := ⟨m - 1, by omega⟩
        have hc2 : q t.ofs = 92 := hb ▸ hc
        have e2 : escLoop q size2 m t = escLoop q size2 m'
            (((((t.rd t.ofs).rd t.ofs).push (q t.ofs)).rd (t.ofs + 1)).push (q (t.ofs + 1))
              |>.adv 2) := by
          rw [hm']
          simp [escLoop, ht, hc2]
        rw [e2]
        refine ih m' _ _ ?_ (by simp; omega) (by simp; omega) hfin hlast
        rw [hb, hb1]
        exact (((((h.rdB _ _).rdB _ _).pushB _).rdB _ _).pushB _).advB 2
      · have e : escLoop p size (n + 1) s = s.rd s.ofs := by simp [escLoop, h1, hc]
        rw [e] at hfin ⊢
        simp only [rd_ofs] at hfin
        have hb : p s.ofs = q t.ofs := by rw [← h.1]; exact hag _ hfin
        have hc2 : ¬ q t.ofs = 92 := hb ▸ hc
        cases m with
        | zero => exact h.rdL _
        | succ m =>
          unfold escLoop
          by_cases h2 : t.ofs < size2 - 1
          · simp only [h2, hc2, if_true, if_false]
            exact h.rdB _ _
          · simp only [h2, if_false]
            exact h.rdL _
    · have e : escLoop p size (n + 1) s = s := by simp [escLoop, h1]
      rw [e] at hfin hlast ⊢
      have hne : p s.ofs ≠ 92 := by
        rcases hlast with hl | hl
        · omega
        · exact hl
      have hb : p s.ofs = q t.ofs := by rw [← h.1]; exact hag _ hfin
      have hc2 : ¬ q t.ofs = 92 := hb ▸ hne
      cases m with
      | zero => exact h
      | succ m =>
        unfold escLoop
        by_cases h2 : t.ofs < size2 - 1
        · simp only [h2, hc2, if_true, if_false]
          exact h.rdR _
        · simp only [h2, if_false]
          exact h

theorem quoteRest_ofs (p : Nat → Nat) (size : Nat) (s : Scan) :
    (quoteRest p size s).ofs = (escLoop p size (size - s.ofs) s).ofs := rfl

theorem quoteRest_stable (p q : Nat → Nat) (size size2 k : Nat)
    (hag : Agree p q k) (hk : k ≤ size) (hk2 : k ≤ size2) (s t : Scan) (h : Same s t)
    (hfin : (quoteRest p size s).ofs < k)
    (hlast : (quoteRest p size s).ofs + 1 < k ∨ p (quoteRest p size s).ofs ≠ 92) :
    Same (quoteRest p size s) (quoteRest q size2 t) := by
  rw [quoteRest_ofs] at hfin hlast
  have he := escLoop_stable p q size size2 k hag hk hk2 (size - s.ofs) (size2 - t.ofs) s t h
    (Nat.le_refl _) (Nat.le_refl _) hfin hlast
  unfold quoteRest
  have hb : p (escLoop p size (size - s.ofs) s).ofs = q (escLoop q size2 (size2 - t.ofs) t).ofs := by
    rw [← he.1]
    exact hag _ hfin
  simp only [hb]
  exact (he.rdB _ _).pushB _

theorem quoteLoop_stable (p q : Nat → Nat) (size size2 k c : Nat) (hc92 : c ≠ 92)
    (hag : Agree p q k) (hk : k ≤ size) (hk2 : k ≤ size2) :
    ∀ (n m : Nat) (s t : Scan), Same s t →
      size - (quoteRest p size s).ofs ≤ n → size2 - (quoteRest q size2 t).ofs ≤ m →
      (quoteLoop p size c n (quoteRest p size s)).ofs < k →
      Same (quoteLoop p size c n (quoteRest p size s))
        (quoteLoop q size2 c m (quoteRest q size2 t)) := by
  intro n
  induction n with
  | zero =>
    intro m s t h hn hm hfin
    simp only [quoteLoop] at hfin
    omega
  | succ n ih =>
    intro m s t h hn hm hfin
    have hge := quoteLoop_ofs_ge p size c (n + 1) (quoteRest p size s)
    have hlt : (quoteRest p size s).ofs < size := by omega
    by_cases hq : p (quoteRest p size s).ofs = c
    · have e : quoteLoop p size c (n + 1) (quoteRest p size s)
          = (quoteRest p size s).rd (quoteRest p size s).ofs := by
        conv => lhs; unfold quoteLoop
        simp [hlt, hq]
      have hr := quoteRest_stable p q size size2 k hag hk hk2 s t h (by omega)
        (Or.inr (by rw [hq]; exact hc92))
      rw [e]
      have hb : p (quoteRest p size s).ofs = q (quoteRest q size2 t).ofs := by
        rw [← hr.1]; exact hag _ (by omega)
      have hq2 : q (quoteRest q size2 t).ofs = c := hb ▸ hq
      cases m with
      | zero => exact hr.rdL _
      | succ m =>
        conv => rhs; unfold quoteLoop
        by_cases h2 : (quoteRest q size2 t).ofs < size2
        · simp only [h2, hq2, if_true, ne_eq, not_true_eq_false, if_false]
          exact hr.rdB _ _
        · simp only [h2, if_false]
          exact hr.rdL _
    · have e : quoteLoop p size c (n + 1) (quoteRest p size s)
          = quoteLoop p size c n
              (quoteRest p size (((quoteRest p size s).rd (quoteRest p size s).ofs).adv 1)) := by
        conv => lhs; unfold quoteLoop
        simp only [hlt, hq, ne_eq, not_false_eq_true, if_true]
        rfl
      rw [e] at hfin ⊢
      have hge2 := quoteLoop_ofs_ge p size c n
        (quoteRest p size (((quoteRest p size s).rd (quoteRest p size s).ofs).adv 1))
      have hge3 := quoteRest_ofs_ge p size
        (((quoteRest p size s).rd (quoteRest p size s).ofs).adv 1)
      simp only [adv_ofs, rd_ofs] at hge3
      have hr := quoteRest_stable p q size size2 k hag hk hk2 s t h (by omega)
        (Or.inl (by omega))
      have hb : p (quoteRest p size s).ofs = q (quoteRest q size2 t).ofs := by
        rw [← hr.1]; exact hag _ (by omega)
      have hq2 : ¬ q (quoteRest q size2 t).ofs = c := hb ▸ hq
      have ht : (quoteRest q size2 t).ofs < size2 := by rw [← hr.1]; omega
      obtain ⟨m', hm'⟩ : ∃ m', m = m' + 1 := ⟨m - 1, by omega⟩
      have e2 : quoteLoop q size2 c m (quoteRest q size2 t)
          = quoteLoop q size2 c m'
              (quoteRest q size2 (((quoteRest q size2 t).rd (quoteRest q size2 t).ofs).adv 1)) := by
        rw [hm']
        conv => lhs; unfold quoteLoop
        simp only [ht, hq2, ne_eq, not_false_eq_true, if_true]
        rfl
      rw [e2]
      have hge4 := quoteRest_ofs_ge q size2
        (((quoteRest q size2 t).rd (quoteRest q size2 t).ofs).adv 1)
      simp only [adv_ofs, rd_ofs] at hge4
      exact ih m' _ _ ((hr.rdB _ _).advB 1) (by omega) (by omega) hfin

theorem quote_ne_backslash (c : Nat) (h : hasType C_QUOTE c = true) : c ≠ 92 := by
  by_cases hc : c < 256
  · have : ∀ c < 256, hasType C_QUOTE c = true → c ≠ 92 := by decide!
    exact this c hc h
  · rw [hasType_of_ge _ c (by omega)] at h
    exact absurd h (by simp)

theorem literal_stable (p q : Nat → Nat) (size size2 k : Nat)
    (hag : Agree p q k) (hk : k ≤ size) (hk2 : k ≤ size2) (s t : Scan) (h : Same s t)
    (hquote : hasType C_QUOTE (p s.ofs) = true)
    (hfin : (literal p size s).ofs ≤ k) :
    Same (literal p size s) (literal q size2 t) := by
  have hgt := literal_ofs_gt p size s
  have hb : p s.ofs = q t.ofs := by rw [← h.1]; exact hag _ (by omega)
  unfold literal quoteBody at hfin ⊢
  simp only [adv_ofs, push_ofs] at hfin
  rw [← hb]
  have h1 : Same ((((s.rd s.ofs).rd s.ofs).push (p s.ofs)).adv 1)
      ((((t.rd t.ofs).rd t.ofs).push (p s.ofs)).adv 1) := (((h.rdB _ _).rdB _ _).pushB _).advB 1
  exact ((quoteLoop_stable p q size size2 k (p s.ofs) (quote_ne_backslash _ hquote)
    hag hk hk2 _ _ _ _ h1 (Nat.le_refl _) (Nat.le_refl _) (by omega)).pushB 10).advB 1

theorem matchAt_stable (p q : Nat → Nat) (k : Nat) (hag : Agree p q k) :
    ∀ (cs : List Nat) (i : Nat) (s t : Scan), (∀ c ∈ cs, c ≠ q k) → i ≤ k →
      ((matchAt p i cs s).1 = true → i + cs.length ≤ k) →
      (matchAt q i cs t).1 = (matchAt p i cs s).1 := by
  intro cs
  induction cs with
  | nil => intro i s t _ _ _; rfl
  | cons c cs ih =>
    intro i s t hne hi hlen
    have hne2 : ∀ d ∈ cs, d ≠ q k := fun d hd => hne d (List.mem_cons_of_mem _ hd)
    by_cases hlt : i < k
    · have hb : p i = q i := hag i hlt
      by_cases hc : p i = c
      · have hc2 : q i = c := hb ▸ hc
        have e : matchAt p i (c :: cs) s = matchAt p (i + 1) cs (s.rd i) := by
          simp [matchAt, hc]
        have e2 : matchAt q i (c :: cs) t = matchAt q (i + 1) cs (t.rd i) := by
          simp [matchAt, hc2]
        rw [e] at hlen
        rw [e, e2]
        exact ih (i + 1) _ _ hne2 (by omega) (fun h => by
          have := hlen h
          simp at this
          omega)
      · have hc2 : ¬ q i = c := hb ▸ hc
        simp [matchAt, hc, hc2]
    · have hik : i = k := by omega
      have hc2 : ¬ q i = c := by
        rw [hik]
        exact fun h => hne c (List.mem_cons_self _ _) h.symm
      have e2 : (matchAt q i (c :: cs) t).1 = false := by simp [matchAt, hc2]
      rw [e2]
      cases hm : (matchAt p i (c :: cs) s).1
      · rfl
      · have := hlen hm
        simp at this
        omega

theorem findTok_ofs_ge (p : Nat → Nat) :
    ∀ (l : List (Option (List Nat))) (s : Scan), s.ofs ≤ (findTok p l s).ofs := by
  intro l
  induction l with
  | nil => intro s; exact Nat.le_refl _
  | cons o l ih =>
    intro s
    cases o with
    | none => exact Nat.le_refl _
    | some cs =>
      have hm := matchAt_state p cs s.ofs s
      unfold findTok
      dsimp only
      split
      · have hc := copyTok_state cs (matchAt p s.ofs cs s).2
        simp only [push_ofs]
        rw [hc.1, hm.1]
        omega
      · have := ih (matchAt p s.ofs cs s).2
        rw [hm.1] at this
        exact this

theorem findTok_stable (p q : Nat → Nat) (k : Nat) (hag : Agree p q k) :
    ∀ (l : List (Option (List Nat))) (s t : Scan), Same s t →
      (∀ cs, some cs ∈ l → ∀ c ∈ cs, c ≠ q k) → s.ofs ≤ k → (findTok p l s).ofs ≤ k →
      Same (findTok p l s) (findTok q l t) := by
  intro l
  induction l with
  | nil => intro s t h _ _ _; exact h.faultB
  | cons o l ih =>
    intro s t h hne hs hfin
    cases o with
    | none => exact h.faultB
    | some cs =>
      have hms := matchAt_state p cs s.ofs s
      have hmt := matchAt_state q cs t.ofs t
      have hsame : Same (matchAt p s.ofs cs s).2 (matchAt q t.ofs cs t).2 :=
        ⟨by rw [hms.1, hmt.1]; exact h.1, by rw [hms.2.1, hmt.2.1]; exact h.2.1,
          by rw [hms.2.2, hmt.2.2]; exact h.2.2⟩
      have hcs : ∀ c ∈ cs, c ≠ q k := hne cs (List.mem_cons_self _ _)
      by_cases hr : (matchAt p s.ofs cs s).1 = true
      · have e : findTok p (some cs :: l) s = (copyTok cs (matchAt p s.ofs cs s).2).push 10 := by
          simp [findTok, hr]
        rw [e] at hfin ⊢
        have hc := copyTok_state cs (matchAt p s.ofs cs s).2
        simp only [push_ofs] at hfin
        rw [hc.1, hms.1] at hfin
        have hr2 : (matchAt q t.ofs cs t).1 = true := by
          rw [← h.1, matchAt_stable p q k hag cs s.ofs s t hcs hs (fun _ => hfin)]
          exact hr
        have e2 : findTok q (some cs :: l) t = (copyTok cs (matchAt q t.ofs cs t).2).push 10 := by
          simp [findTok, hr2]
        rw [e2]
        have hc2 := copyTok_state cs (matchAt q t.ofs cs t).2
        exact ⟨by simp only [push_ofs]; rw [hc.1, hc2.1, hsame.1],
          by simp only [push_out]; rw [hc.2.1, hc2.2.1, hsame.2.1],
          by simp only [push_fault]; rw [hc.2.2, hc2.2.2, hsame.2.2]⟩
      · have e : findTok p (some cs :: l) s = findTok p l (matchAt p s.ofs cs s).2 := by
          simp [findTok, hr]
        rw [e] at hfin ⊢
        have hr2 : ¬ (matchAt q t.ofs cs t).1 = true := by
          rw [← h.1, matchAt_stable p q k hag cs s.ofs s t hcs hs (fun h' => absurd h' hr)]
          exact hr
        have e2 : findTok q (some cs :: l) t = findTok q l (matchAt q t.ofs cs t).2 := by
          simp [findTok, hr2]
        rw [e2]
        exact ih _ _ hsame (fun cs' h' => hne cs' (List.mem_cons_of_mem _ h'))
          (by rw [hms.1]; exact hs) hfin

theorem tokens_toks_in_catalog :
    ∀ c < 256, ∀ o ∈ (tokens c).toks, o.all (fun cs => decide (cs ∈ s_tokens)) = true := by
  decide!

theorem tokens_toks_mem (c : Nat) (cs : List Nat) (h : some cs ∈ (tokens c).toks) :
    cs ∈ s_tokens := by
  by_cases hc : c < 256
  · have := tokens_toks_in_catalog c hc (some cs) h
    simpa using this
  · rw [tokens_of_ge c (by omega)] at h
    simp [Entry.zero] at h

theorem operator_stable (p q : Nat → Nat) (k : Nat) (hag : Agree p q k)
    (hx : endsLexeme (q k) = true) (s t : Scan) (h : Same s t) (hs : s.ofs < k)
    (hfin : (operator p s).ofs ≤ k) :
    Same (operator p s) (operator q t) := by
  have hb : p s.ofs = q t.ofs := by rw [← h.1]; exact hag _ hs
  have hf := (endsLexeme_facts _ hx).2.2.2.2.2.2.2
  unfold operator at hfin ⊢
  dsimp only at hfin ⊢
  rw [← hb]
  by_cases hn : (tokens (p s.ofs)).num_toks = 0
  · simp only [hn, if_true]
    exact (h.rdB _ _).faultB
  · simp only [hn, if_false] at hfin ⊢
    exact findTok_stable p q k hag _ _ _ (h.rdB _ _)
      (fun cs hcs c hc heq => hf cs (tokens_toks_mem _ cs hcs) (heq ▸ hc))
      (by simp only [rd_ofs]; omega) hfin

theorem fallback_stable (p q : Nat → Nat) (k : Nat) (hag : Agree p q k)
    (s t : Scan) (h : Same s t) (hs : s.ofs < k) :
    Same (fallback p s) (fallback q t) := by
  have hb : p s.ofs = q t.ofs := by rw [← h.1]; exact hag _ hs
  unfold fallback
  rw [hb]
  exact (((h.rdB _ _).pushB _).pushB 10).advB 1

/-- A pass of the dispatch loop that ends at or before `k` does the same on every
memory that holds the same bytes below `k` and a byte at `k` that ends every lexeme
(a whitespace run that ends at `k` must not run on over `k`). -/
theorem step_stable (p q : Nat → Nat) (size size2 k : Nat)
    (hag : Agree p q k) (hk : k ≤ size) (hk2 : k ≤ size2) (hx : endsLexeme (q k) = true)
    (s t : Scan) (h : Same s t) (hs : s.ofs < k)
    (hfin : (step p size s).ofs ≤ k)
    (hws : isspace (p s.ofs) = true → (step p size s).ofs = k → isspace (q k) = false) :
    Same (step p size s) (step q size2 t) := by
  have hb : p s.ofs = q t.ofs := by rw [← h.1]; exact hag _ hs
  by_cases hsp : isspace (p s.ofs) = true
  · obtain ⟨u, hu, hu1, hu2, hu3⟩ := step_space p size s hsp
    obtain ⟨v, hv, hv1, hv2, hv3⟩ := step_space q size2 t (hb ▸ hsp)
    have huv : Same u v := ⟨by rw [hu1, hv1]; exact h.1, by rw [hu2, hv2]; exact h.2.1,
      by rw [hu3, hv3]; exact h.2.2⟩
    have hws2 := hws hsp
    rw [hu] at hfin hws2 ⊢
    rw [hv]
    exact whitespace_stable p q size size2 k hag hk hk2 u v huv hfin hws2
  · have hsp2 : hasType C_SPACE (p s.ofs) = false := by
      rw [hasType_space]; simpa using hsp
    unfold step at hfin ⊢
    dsimp only at hfin ⊢
    rw [← hb]
    by_cases h1 : p s.ofs = 35
    · simp only [h1, if_true] at hfin ⊢
      exact directive_stable p q size size2 k hag hk hk2 _ _ (h.rdB _ _) hfin
    · simp only [h1, if_false] at hfin ⊢
      by_cases h2 : hasType C_ALPHA (p s.ofs) = true
      · simp only [h2, if_true] at hfin ⊢
        exact identifier_stable p q size size2 k hag hk hk2 hx _ _ ((h.rdB _ _).rdB _ _) hfin
      · simp only [h2, if_false, Bool.false_eq_true] at hfin ⊢
        by_cases h3 : hasType C_DIGIT (p s.ofs) = true
        · simp only [h3, if_true] at hfin ⊢
          exact number_stable p q size size2 k hag hk hk2 hx _ _
            (((h.rdB _ _).rdB _ _).rdB _ _) hfin
        · simp only [h3, if_false, hsp2, Bool.false_eq_true] at hfin ⊢
          by_cases h5 : hasType C_QUOTE (p s.ofs) = true
          · simp only [h5, if_true] at hfin ⊢
            exact literal_stable p q size size2 k hag hk hk2 _ _
              (((((h.rdB _ _).rdB _ _).rdB _ _).rdB _ _).rdB _ _) h5 hfin
          · simp only [h5, if_false, Bool.false_eq_true] at hfin ⊢
            by_cases h6 : hasType C_TOKEN (p s.ofs) = true
            · simp only [h6, if_true] at hfin ⊢
              refine operator_stable p q k hag hx _ _ ?_ ?_ hfin
              · exact (((((h.rdB _ _).rdB _ _).rdB _ _).rdB _ _).rdB _ _).rdB _ _
              · exact hs
            · simp only [h6, if_false, Bool.false_eq_true] at hfin ⊢
              refine fallback_stable p q k hag
                ((((((s.rd s.ofs).rd s.ofs).rd s.ofs).rd s.ofs).rd s.ofs).rd s.ofs)
                ((((((t.rd t.ofs).rd t.ofs).rd t.ofs).rd t.ofs).rd t.ofs).rd t.ofs) ?_ ?_
              · exact (((((h.rdB _ _).rdB _ _).rdB _ _).rdB _ _).rdB _ _).rdB _ _
              · exact hs

/-! ## The cursor positions of the dispatch loop -/

theorem operator_ofs_ge (p : Nat → Nat) (s : Scan) : s.ofs ≤ (operator p s).ofs := by
  unfold operator
  dsimp only
  split
  · exact Nat.le_refl _
  · simpa using findTok_ofs_ge p (tokens (p s.ofs)).toks (s.rd s.ofs)

theorem step_ofs_ge (p : Nat → Nat) (size : Nat) (s : Scan) : s.ofs ≤ (step p size s).ofs := by
  rcases step_progress p size s with h | h
  · exact Nat.le_of_lt h
  · unfold step
    dsimp only
    split
    · exact Nat.le_of_lt (by simpa using directive_ofs_gt p size (s.rd s.ofs))
    · split
      · exact Nat.le_of_lt (by simpa using identifier_ofs_gt p size ((s.rd s.ofs).rd s.ofs))
      · split
        · exact Nat.le_of_lt
            (by simpa using number_ofs_gt p size (((s.rd s.ofs).rd s.ofs).rd s.ofs))
        · split
          · exact Nat.le_of_lt (by
              simpa using whitespace_ofs_gt p size ((((s.rd s.ofs).rd s.ofs).rd s.ofs).rd s.ofs))
          · split
            · exact Nat.le_of_lt (by
                simpa using literal_ofs_gt p size
                  (((((s.rd s.ofs).rd s.ofs).rd s.ofs).rd s.ofs).rd s.ofs))
            · split
              · simpa using operator_ofs_ge p
                  ((((((s.rd s.ofs).rd s.ofs).rd s.ofs).rd s.ofs).rd s.ofs).rd s.ofs)
              · simp [fallback]

theorem mainLoop_ofs_ge (p : Nat → Nat) (size : Nat) :
    ∀ (n : Nat) (s : Scan), s.ofs ≤ (mainLoop p size n s).ofs := by
  intro n
  induction n with
  | zero => intro s; exact Nat.le_refl _
  | succ n ih =>
    intro s
    unfold mainLoop
    split
    · exact Nat.le_trans (step_ofs_ge p size s) (ih _)
    · exact Nat.le_refl _

/-- A run of the dispatch loop that leaves the cursor where it was and does not
fault has made no pass. -/
theorem mainLoop_stuck (p : Nat → Nat) (size n : Nat) (s : Scan)
    (hofs : (mainLoop p size n s).ofs = s.ofs) (hf : (mainLoop p size n s).fault = false) :
    mainLoop p size n s = s := by
  cases n with
  | zero => rfl
  | succ n =>
    by_cases hc : s.ofs < size ∧ s.fault = false
    · have e : mainLoop p size (n + 1) s = mainLoop p size n (step p size s) := by
        simp [mainLoop, hc]
      rw [e] at hofs hf
      exfalso
      rcases step_progress p size s with h | h
      · have := mainLoop_ofs_ge p size n (step p size s)
        omega
      · rw [mainLoop_of_fault p size n _ h] at hf
        rw [h] at hf
        exact absurd hf (by simp)
    · simp [mainLoop, hc]

/-- The dispatch loop run to its end passes through every state it reaches after any
number of passes. -/
theorem mainLoop_through (p : Nat → Nat) (size N : Nat) :
    ∀ (n : Nat) (s : Scan), size - s.ofs ≤ N →
      mainLoop p size N s = mainLoop p size N (mainLoop p size n s) := by
  intro n
  induction n with
  | zero => intro s _; rfl
  | succ n ih =>
    intro s hN
    by_cases hc : s.ofs < size ∧ s.fault = false
    · have e : mainLoop p size (n + 1) s = mainLoop p size n (step p size s) := by
        simp [mainLoop, hc]
      rw [e, mainLoop_unfold p size N s hN]
      simp only [hc, and_self, if_true]
      have := step_ofs_ge p size s
      exact ih _ (by omega)
    · have e : mainLoop p size (n + 1) s = s := by simp [mainLoop, hc]
      rw [e]

/-- What `unify` emits, split at a state the dispatch loop reaches: the bytes emitted
up to there, then what a scan from that cursor on emits. -/
theorem scan_out_split (p : Nat → Nat) (size n : Nat)
    (hf : (mainLoop p size n Scan.init).fault = false) :
    (scan p size).out = (mainLoop p size n Scan.init).out
      ++ (scan (shift p (mainLoop p size n Scan.init).ofs)
            (size - (mainLoop p size n Scan.init).ofs)).out := by
  unfold scan
  rw [mainLoop_through p size size n Scan.init (by simp [Scan.init])]
  exact mainLoop_out p size size _ hf (by omega)

theorem runWhile_consumed (p : Nat → Nat) (size : Nat) (c : Nat → Bool) (emit : Bool) :
    ∀ (n : Nat) (s : Scan) (i : Nat), s.ofs ≤ i → i < (runWhile p size c emit n s).ofs →
      c (p i) = true := by
  intro n
  induction n with
  | zero =>
    intro s i h1 h2
    simp only [runWhile] at h2
    omega
  | succ n ih =>
    intro s i h1 h2
    by_cases hl : s.ofs < size
    · by_cases hc : c (p s.ofs) = true
      · have e : runWhile p size c emit (n + 1) s
            = runWhile p size c emit n (if emit then copyByte p (s.rd s.ofs) else (s.rd s.ofs).adv 1)
            := by simp [runWhile, hl, hc]
        rw [e] at h2
        have hofs : (if emit then copyByte p (s.rd s.ofs) else (s.rd s.ofs).adv 1).ofs
            = s.ofs + 1 := by cases emit <;> rfl
        by_cases hi : i = s.ofs
        · rw [hi]; exact hc
        · exact ih _ i (by omega) h2
      · have e : runWhile p size c emit (n + 1) s = s.rd s.ofs := by simp [runWhile, hl, hc]
        rw [e] at h2
        simp only [rd_ofs] at h2
        omega
    · have e : runWhile p size c emit (n + 1) s = s := by simp [runWhile, hl]
      rw [e] at h2
      omega

theorem runWhile_out_silent (p : Nat → Nat) (size : Nat) (c : Nat → Bool) :
    ∀ (n : Nat) (s : Scan), (runWhile p size c false n s).out = s.out := by
  intro n
  induction n with
  | zero => intro s; rfl
  | succ n ih =>
    intro s
    unfold runWhile
    split
    · split
      · rw [ih]
        simp
      · simp
    · rfl

theorem whitespace_out (p : Nat → Nat) (size : Nat) (s : Scan) :
    (whitespace p size s).out = s.out := by
  unfold whitespace scanWhile
  rw [runWhile_out_silent]
  simp

theorem whitespace_consumed (p : Nat → Nat) (size : Nat) (s : Scan) (i : Nat)
    (h1 : s.ofs < i) (h2 : i < (whitespace p size s).ofs) : isspace (p i) = true := by
  unfold whitespace scanWhile at h2
  have := runWhile_consumed p size (hasType C_SPACE) false _ (s.adv 1) i (by simp; omega) h2
  rw [hasType_space] at this
  exact this

/-! ## Changing the buffer behind a cursor position of the dispatch loop -/

theorem space_endsLexeme (c : Nat) (h : isspace c = true) : endsLexeme c = true := by
  have hlt : c < 256 := by
    simp only [isspace, decide_eq_true_eq] at h
    omega
  have : ∀ c < 256, isspace c = true → endsLexeme c = true := by decide!
  exact this c hlt h

/-- The scan of `(p, size)` reaches the cursor `k` without a fault; `q` holds the same
bytes below `k` and at `k` a byte that ends every lexeme; `X` is what the scan of
`(q, size2)` emits from `k` on, and also from any earlier cursor from which only
whitespace leads to `k`.  Then the scan of `(q, size2)` emits what the scan of
`(p, size)` has emitted up to `k`, followed by `X`. -/
theorem mainLoop_prefix (p q : Nat → Nat) (size size2 k : Nat) (X : List Nat)
    (hag : Agree p q k) (hk : k ≤ size) (hk2 : k ≤ size2) (hx : endsLexeme (q k) = true)
    (hX : ∀ j, j ≤ k → (∀ i, j ≤ i → i < k → isspace (q i) = true) →
      (scan (shift q j) (size2 - j)).out = X) :
    ∀ (n : Nat) (s t : Scan), Same s t → s.fault = false →
      (mainLoop p size n s).ofs = k → (mainLoop p size n s).fault = false →
      ∀ N, size2 - t.ofs ≤ N →
        (mainLoop q size2 N t).out = (mainLoop p size n s).out ++ X := by
  have base : ∀ (s t : Scan), Same s t → s.fault = false → s.ofs = k →
      ∀ N, size2 - t.ofs ≤ N → (mainLoop q size2 N t).out = s.out ++ X := by
    intro s t h hsf hsk N hN
    rw [mainLoop_out q size2 N t (by rw [← h.2.2]; exact hsf) hN, ← h.1, hsk, ← h.2.1]
    rw [hX k (Nat.le_refl _) (fun i h1 h2 => by omega)]
  intro n
  induction n with
  | zero =>
    intro s t h hsf hofs _ N hN
    exact base s t h hsf hofs N hN
  | succ n ih =>
    intro s t h hsf hofs hfault N hN
    by_cases hc : s.ofs < size ∧ s.fault = false
    · have e : mainLoop p size (n + 1) s = mainLoop p size n (step p size s) := by
        simp [mainLoop, hc]
      rw [e] at hofs hfault ⊢
      have hstepf : (step p size s).fault = false := by
        cases hf : (step p size s).fault
        · rfl
        · rw [mainLoop_of_fault p size n _ hf, hf] at hfault
          exact absurd hfault (by simp)
      have hlt : s.ofs < (step p size s).ofs := by
        rcases step_progress p size s with h' | h'
        · exact h'
        · rw [hstepf] at h'
          exact absurd h' (by simp)
      have hge := mainLoop_ofs_ge p size n (step p size s)
      have hsk : s.ofs < k := by omega
      have htf : t.fault = false := by rw [← h.2.2]; exact hsf
      by_cases hB : isspace (p s.ofs) = true ∧ (step p size s).ofs = k ∧ isspace (q k) = true
      · obtain ⟨hB1, hB2, _⟩ := hB
        have hu : mainLoop p size n (step p size s) = step p size s :=
          mainLoop_stuck p size n _ (by rw [hofs, hB2]) hfault
        obtain ⟨u, hu0, hu1, hu2, _⟩ := step_space p size s hB1
        rw [hu, hu0, whitespace_out, hu2]
        rw [mainLoop_out q size2 N t htf hN, ← h.2.1]
        congr 1
        rw [← h.1]
        apply hX s.ofs (Nat.le_of_lt hsk)
        intro i h1 h2
        rw [← hag i h2]
        by_cases hi : i = s.ofs
        · rw [hi]; exact hB1
        · apply whitespace_consumed p size u i (by rw [hu1]; omega)
          rw [← hu0, hB2]
          exact h2
      · have hst := step_stable p q size size2 k hag hk hk2 hx s t h hsk (by omega)
          (fun h1 h2 => by
            cases hq : isspace (q k)
            · rfl
            · exact absurd ⟨h1, h2, hq⟩ hB)
        have ht : t.ofs < size2 ∧ t.fault = false := ⟨by rw [← h.1]; omega, htf⟩
        rw [mainLoop_unfold q size2 N t hN]
        simp only [ht, and_self, if_true]
        have := step_ofs_ge q size2 t
        exact ih _ _ hst hstepf hofs hfault N (by omega)
    · have e : mainLoop p size (n + 1) s = s := by simp [mainLoop, hc]
      rw [e] at hofs ⊢
      exact base s t h hsf hofs N hN

theorem mem_of_lt (a c : List Nat) (beyond : Nat → Nat) (i : Nat) (h : i < a.length) :
    mem (a ++ c) beyond i = a.getD i 0 := by
  unfold mem
  have h1 : i < (a ++ c).length := by simp; omega
  simp only [h1, if_true]
  rw [List.getD_append _ _ _ _ h]

theorem shift_mem_drop (a c : List Nat) (beyond : Nat → Nat) (j : Nat) (hj : j ≤ a.length) :
    shift (mem (a ++ c) beyond) j = mem (a.drop j ++ c) beyond := by
  have e : a ++ c = a.take j ++ (a.drop j ++ c) := by
    rw [← List.append_assoc, List.take_append_drop]
  have hl : (a.take j).length = j := by simp; omega
  conv => lhs; rw [e]
  have := shift_mem_append (a.take j) (a.drop j ++ c) beyond
  rw [hl] at this
  exact this

theorem drop_all_space (a : List Nat) (f : Nat → Nat) (j1 j : Nat)
    (hfa : ∀ i, i < a.length → f i = a.getD i 0)
    (h1 : ∀ i, j1 ≤ i → i < j → isspace (f i) = true)
    (h2 : ∀ y ∈ a.drop j, isspace y = true) :
    ∀ y ∈ a.drop j1, isspace y = true := by
  intro y hy
  obtain ⟨i, hi, rfl⟩ := List.mem_iff_getElem.1 hy
  rw [List.getElem_drop]
  have hlen : j1 + i < a.length := by
    simp at hi
    omega
  by_cases hm : j1 + i < j
  · have := h1 (j1 + i) (by omega) hm
    rw [hfa _ hlen, List.getD_eq_getElem _ _ hlen] at this
    exact this
  · apply h2
    have hlt : j1 + i - j < (a.drop j).length := by simp; omega
    have e : a[j1 + i] = (a.drop j).get ⟨j1 + i - j, hlt⟩ := by
      simp only [List.get_eq_getElem, List.getElem_drop]
      congr 1
      omega
    rw [e]
    exact List.get_mem _ _ _

/-- Inserting at a lexeme boundary.  `ins` starts with a byte that ends every lexeme
and emits nothing when it stands in front of `b`, also behind a run of whitespace:
then `unify` emits the same bytes for `a ++ ins ++ b` as for `a ++ b`, for every
`a` whose end is a lexeme boundary of the scan of `a ++ b`. -/
theorem emitted_insert (a b ins : List Nat) (x : Nat) (beyond : Nat → Nat)
    (hins : ins.head? = some x) (hx : endsLexeme x = true)
    (hsil : ∀ r : List Nat, (∀ y ∈ r, isspace y = true) →
      emitted (r ++ (ins ++ b)) beyond = emitted b beyond)
    (hbd : boundaryAt (a ++ b) beyond a.length) :
    emitted (a ++ (ins ++ b)) beyond = emitted (a ++ b) beyond := by
  obtain ⟨n, _, hf, hle, _, hws⟩ := hbd
  rw [List.take_left] at hws
  have h2 := scan_out_split (mem (a ++ b) beyond) (a ++ b).length n hf
  have hpre := mainLoop_prefix (mem (a ++ b) beyond) (mem (a ++ (ins ++ b)) beyond)
    (a ++ b).length (a ++ (ins ++ b)).length
    (mainLoop (mem (a ++ b) beyond) (a ++ b).length n Scan.init).ofs (emitted b beyond)
  have hrun : ∀ N, (a ++ (ins ++ b)).length - Scan.init.ofs ≤ N →
      (mainLoop (mem (a ++ b) beyond) (a ++ b).length n Scan.init).fault = false →
      (mainLoop (mem (a ++ (ins ++ b)) beyond) (a ++ (ins ++ b)).length N Scan.init).out
        = (mainLoop (mem (a ++ b) beyond) (a ++ b).length n Scan.init).out ++ emitted b beyond
      → emitted (a ++ (ins ++ b)) beyond
        = (mainLoop (mem (a ++ b) beyond) (a ++ b).length n Scan.init).out
          ++ emitted b beyond := by
    intro N _ _ h
    unfold emitted scan
    rw [mainLoop_fuel _ _ _ N Scan.init (by simp [Scan.init]) (by assumption)]
    exact h
  have hlab := List.length_append a b
  have hlab2 := List.length_append a (ins ++ b)
  generalize hu : mainLoop (mem (a ++ b) beyond) (a ++ b).length n Scan.init = u at *
  have hq : endsLexeme (mem (a ++ (ins ++ b)) beyond u.ofs) = true := by
    have e := shift_mem_drop a (ins ++ b) beyond _ hle
    have e0 := congrFun e 0
    simp only [shift, Nat.zero_add] at e0
    rw [e0]
    cases hr : a.drop u.ofs with
    | nil =>
      cases ins with
      | nil => simp at hins
      | cons z ins =>
        simp at hins
        subst hins
        simpa [mem] using hx
    | cons y r =>
      have hy : isspace y = true := hws y (by rw [hr]; exact List.mem_cons_self _ _)
      simpa [mem] using space_endsLexeme y hy
  have hag : Agree (mem (a ++ b) beyond) (mem (a ++ (ins ++ b)) beyond) u.ofs := by
    intro i hi
    rw [mem_of_lt a b beyond i (by omega), mem_of_lt a (ins ++ b) beyond i (by omega)]
  have hX : ∀ j, j ≤ u.ofs →
      (∀ i, j ≤ i → i < u.ofs → isspace (mem (a ++ (ins ++ b)) beyond i) = true) →
      (scan (shift (mem (a ++ (ins ++ b)) beyond) j) ((a ++ (ins ++ b)).length - j)).out
        = emitted b beyond := by
    intro j hj hsp
    rw [shift_mem_drop a (ins ++ b) beyond j (by omega)]
    have hl : (a ++ (ins ++ b)).length - j = (a.drop j ++ (ins ++ b)).length := by
      rw [List.length_append (a.drop j), List.length_drop]
      omega
    rw [hl]
    exact hsil (a.drop j) (drop_all_space a (mem (a ++ (ins ++ b)) beyond) j _
      (fun i hi => mem_of_lt a (ins ++ b) beyond i hi) hsp hws)
  have h1 := hpre hag (by omega) (by omega) hq hX
  rw [shift_mem_drop a b beyond _ hle] at h2
  have hl2 : (a ++ b).length - u.ofs = (a.drop u.ofs ++ b).length := by
    rw [List.length_append (a.drop u.ofs), List.length_drop]
    omega
  rw [hl2] at h2
  have h3 : emitted (a.drop u.ofs ++ b) beyond = emitted b beyond :=
    emitted_space_append _ b beyond hws
  unfold emitted at h3
  rw [h3] at h2
  have h4 := h1 n Scan.init Scan.init (Same.refl _) rfl (by rw [hu]) (by rw [hu]; exact hf)
    (a ++ (ins ++ b)).length (by simp [Scan.init])
  rw [hu] at h4
  rw [hrun (a ++ (ins ++ b)).length (by simp [Scan.init]) hf h4]
  unfold emitted
  rw [h2]

/-! ## The operator branch always finds its match -/

theorem matchAt_fst_indep (p : Nat → Nat) :
    ∀ (cs : List Nat) (i : Nat) (s t : Scan), (matchAt p i cs s).1 = (matchAt p i cs t).1 := by
  intro cs
  induction cs with
  | nil => intro i s t; rfl
  | cons c cs ih =>
    intro i s t
    unfold matchAt
    by_cases h : p i = c
    · simp only [h, if_true]
      exact ih _ _ _
    · simp only [h, if_false]

theorem findSlot_found (p : Nat → Nat) (ofs c : Nat) (hp : p ofs = c) :
    ∀ (l : List (Option (List Nat))) (i0 j : Nat), l.getD j none = some [c] →
      (∀ i, i < j + 1 → (l.getD i none).isSome = true) →
      ∃ i, findSlot p ofs l i0 = some i ∧ i ≤ i0 + j := by
  intro l
  induction l with
  | nil => intro i0 j h _; simp at h
  | cons o l ih =>
    intro i0 j hj hsome
    have h0 := hsome 0 (by omega)
    cases o with
    | none => simp at h0
    | some t =>
      by_cases hm : (matchAt p ofs t Scan.init).1 = true
      · exact ⟨i0, by simp [findSlot, hm], by omega⟩
      · cases j with
        | zero =>
          exfalso
          simp at hj
          subst hj
          simp [matchAt, hp] at hm
        | succ j =>
          have := ih (i0 + 1) j (by simpa using hj) (fun i hi => by
            have := hsome (i + 1) (by omega)
            simpa using this)
          obtain ⟨i, hi1, hi2⟩ := this
          exact ⟨i, by simp [findSlot, hm, hi1], by omega⟩

theorem findTok_no_fault (p : Nat → Nat) :
    ∀ (l : List (Option (List Nat))) (s : Scan) (i0 i : Nat),
      findSlot p s.ofs l i0 = some i → (findTok p l s).fault = s.fault := by
  intro l
  induction l with
  | nil => intro s i0 i h; simp [findSlot] at h
  | cons o l ih =>
    intro s i0 i h
    cases o with
    | none => simp [findSlot] at h
    | some t =>
      have hst := matchAt_state p t s.ofs s
      by_cases hm : (matchAt p s.ofs t s).1 = true
      · have e : findTok p (some t :: l) s = (copyTok t (matchAt p s.ofs t s).2).push 10 := by
          simp [findTok, hm]
        rw [e, push_fault, (copyTok_state t _).2.2, hst.2.2]
      · have e : findTok p (some t :: l) s = findTok p l (matchAt p s.ofs t s).2 := by
          simp [findTok, hm]
        have hm2 : ¬ (matchAt p s.ofs t Scan.init).1 = true := by
          rw [matchAt_fst_indep p t s.ofs Scan.init s]; exact hm
        have h2 : findSlot p s.ofs l (i0 + 1) = some i := by
          simpa [findSlot, hm2] using h
        rw [e, ih (matchAt p s.ofs t s).2 (i0 + 1) i (by rw [hst.1]; exact h2), hst.2.2]

/-- Every byte of the operator-leading class has its one-byte spelling among its
candidates, behind non-null slots only. -/
theorem tokens_single_candidate :
    ∀ c < 256, hasType C_TOKEN c = true →
      ∃ j, j < (tokens c).num_toks ∧ (tokens c).toks.getD j none = some [c]
        ∧ ∀ i, i < j + 1 → ((tokens c).toks.getD i none).isSome = true := by
  decide!

theorem operator_found (p : Nat → Nat) (s : Scan) (h : hasType C_TOKEN (p s.ofs) = true) :
    0 < (tokens (p s.ofs)).num_toks
      ∧ (∃ i, findSlot p s.ofs (tokens (p s.ofs)).toks 0 = some i
          ∧ i < (tokens (p s.ofs)).num_toks)
      ∧ (operator p s).fault = s.fault := by
  have hc : p s.ofs < 256 := by
    by_contra hge
    rw [hasType_of_ge _ _ (by omega)] at h
    exact absurd h (by simp)
  obtain ⟨j, hj, hget, hsome⟩ := tokens_single_candidate _ hc h
  obtain ⟨i, hi1, hi2⟩ := findSlot_found p s.ofs (p s.ofs) rfl _ 0 j hget hsome
  refine ⟨by omega, ⟨i, hi1, by omega⟩, ?_⟩
  unfold operator
  have hn : ¬ (tokens (p s.ofs)).num_toks = 0 := by omega
  simp only [hn, if_false]
  exact findTok_no_fault p _ (s.rd s.ofs) 0 i hi1

/-! ## No pass of the dispatch loop faults, and the loop ends -/

theorem scanWhile_fault (p : Nat → Nat) (size : Nat) (c : Nat → Bool) (emit : Bool) (s : Scan) :
    (scanWhile p size c emit s).fault = s.fault := runWhile_fault p size c emit _ s

theorem escLoop_fault (p : Nat → Nat) (size : Nat) :
    ∀ (n : Nat) (s : Scan), (escLoop p size n s).fault = s.fault := by
  intro n
  induction n with
  | zero => intro s; rfl
  | succ n ih =>
    intro s
    unfold escLoop
    split
    · split
      · rw [ih]
        simp
      · simp
    · rfl

theorem quoteRest_fault (p : Nat → Nat) (size : Nat) (s : Scan) :
    (quoteRest p size s).fault = s.fault := by
  unfold quoteRest
  simp [escLoop_fault]

theorem quoteLoop_fault (p : Nat → Nat) (size q : Nat) :
    ∀ (n : Nat) (s : Scan), (quoteLoop p size q n s).fault = s.fault := by
  intro n
  induction n with
  | zero => intro s; rfl
  | succ n ih =>
    intro s
    unfold quoteLoop
    split
    · split
      · rw [ih]
        simp [quoteBody, quoteRest_fault]
      · simp
    · rfl

theorem literal_fault (p : Nat → Nat) (size : Nat) (s : Scan) :
    (literal p size s).fault = s.fault := by
  unfold literal
  simp [quoteLoop_fault, quoteBody, quoteRest_fault]

theorem directive_fault (p : Nat → Nat) (size : Nat) (s : Scan) :
    (directive p size s).fault = s.fault := by
  unfold directive
  dsimp only
  split
  · split
    · split
      · simp [skipLine, scanWhile_fault]
      · simp [verbatimLine, scanWhile_fault]
    · simp [verbatimLine, scanWhile_fault]
  · simp [verbatimLine, scanWhile_fault]

theorem identifier_fault (p : Nat → Nat) (size : Nat) (s : Scan) :
    (identifier p size s).fault = s.fault := by
  simp [identifier, scanWhile_fault]

theorem hexPart_fault (p : Nat → Nat) (size : Nat) (s : Scan) :
    (hexPart p size s).fault = s.fault := by
  unfold hexPart
  dsimp only
  split
  · simp [scanWhile_fault]
  · simp

theorem expPart_fault (p : Nat → Nat) (size : Nat) (s : Scan) :
    (expPart p size s).fault = s.fault := by
  unfold expPart
  dsimp only
  split
  · simp [scanWhile_fault]
  · simp

theorem number_fault (p : Nat → Nat) (size : Nat) (s : Scan) :
    (number p size s).fault = s.fault := by
  simp [number, scanWhile_fault, hexPart_fault, expPart_fault]

theorem whitespace_fault (p : Nat → Nat) (size : Nat) (s : Scan) :
    (whitespace p size s).fault = s.fault := by
  simp [whitespace, scanWhile_fault]

/-- No pass of the dispatch loop raises the fault flag. -/
theorem step_fault (p : Nat → Nat) (size : Nat) (s : Scan) :
    (step p size s).fault = s.fault := by
  unfold step
  dsimp only
  split
  · simp [directive_fault]
  · split
    · simp [identifier_fault]
    · split
      · simp [number_fault]
      · split
        · simp [whitespace_fault]
        · split
          · simp [literal_fault]
          · split
            · rename_i h
              have := (operator_found p
                ((((((s.rd s.ofs).rd s.ofs).rd s.ofs).rd s.ofs).rd s.ofs).rd s.ofs) h).2.2
              simpa using this
            · simp [fallback]

/-- Every pass of the dispatch loop moves the cursor forward by at least one. -/
theorem step_ofs_gt (p : Nat → Nat) (size : Nat) (s : Scan) (hf : s.fault = false) :
    s.ofs < (step p size s).ofs := by
  rcases step_progress p size s with h | h
  · exact h
  · rw [step_fault, hf] at h
    exact absurd h (by simp)

theorem mainLoop_fault (p : Nat → Nat) (size : Nat) :
    ∀ (n : Nat) (s : Scan), (mainLoop p size n s).fault = s.fault := by
  intro n
  induction n with
  | zero => intro s; rfl
  | succ n ih =>
    intro s
    unfold mainLoop
    split
    · rw [ih, step_fault]
    · rfl

theorem mainLoop_exit (p : Nat → Nat) (size : Nat) :
    ∀ (n : Nat) (s : Scan), size - s.ofs ≤ n → s.fault = false →
      size ≤ (mainLoop p size n s).ofs := by
  intro n
  induction n with
  | zero =>
    intro s hn _
    simp only [mainLoop]
    omega
  | succ n ih =>
    intro s hn hf
    by_cases hc : s.ofs < size ∧ s.fault = false
    · have e : mainLoop p size (n + 1) s = mainLoop p size n (step p size s) := by
        simp [mainLoop, hc]
      rw [e]
      have := step_ofs_gt p size s hf
      exact ih _ (by omega) (by rw [step_fault]; exact hf)
    · have e : mainLoop p size (n + 1) s = s := by simp [mainLoop, hc]
      rw [e]
      have : ¬ s.ofs < size := fun h => hc ⟨h, hf⟩
      omega

theorem passes_le (p : Nat → Nat) (size : Nat) :
    ∀ (n : Nat) (s : Scan), passes p size n s ≤ n := by
  intro n
  induction n with
  | zero => intro s; exact Nat.le_refl _
  | succ n ih =>
    intro s
    unfold passes
    split
    · exact Nat.succ_le_succ (ih _)
    · omega

/-! ## The accumulator between scans -/

theorem hasType_ident (c : Nat) : hasType (C_ALPHA ||| C_DIGIT) c = isIdent c := by
  by_cases h : c < 256
  · have : ∀ c < 256, hasType (C_ALPHA ||| C_DIGIT) c = isIdent c := by decide!
    exact this c h
  · rw [hasType_of_ge _ c (by omega)]
    have h1 : isalpha c = false := by simp only [isalpha, decide_eq_false_iff_not]; omega
    have h2 : isdigit c = false := by simp only [isdigit, decide_eq_false_iff_not]; omega
    have h3 : (c == 95) = false := by simp; omega
    simp [isIdent, h1, h2, h3]

theorem alpha_class (c : Nat) (h : (isalpha c || c == 95) = true) :
    c ≠ 35 ∧ hasType C_ALPHA c = true := by
  have hlt : c < 256 := by
    simp only [isalpha, Bool.or_eq_true, decide_eq_true_eq, beq_iff_eq] at h
    omega
  have : ∀ c < 256, (isalpha c || c == 95) = true → c ≠ 35 ∧ hasType C_ALPHA c = true := by
    decide!
  exact this c hlt h

theorem step_alpha (p : Nat → Nat) (size : Nat) (s : Scan)
    (h : (isalpha (p s.ofs) || p s.ofs == 95) = true) :
    ∃ u : Scan, step p size s = identifier p size u
      ∧ u.ofs = s.ofs ∧ u.out = s.out ∧ u.fault = s.fault := by
  obtain ⟨h1, h2⟩ := alpha_class _ h
  refine ⟨(s.rd s.ofs).rd s.ofs, ?_, rfl, rfl, rfl⟩
  unfold step
  simp [h1, h2]

/-- An identifier in front of a byte that is no letter, underscore or digit (or of the
end of the buffer) is consumed by one pass, which emits it and one separator. -/
theorem emitted_ident_run (x : Nat) (run tl : List Nat) (beyond : Nat → Nat)
    (hx : (isalpha x || x == 95) = true) (hrun : ∀ y ∈ run, isIdent y = true)
    (htl : ∀ y ∈ tl.head?, isIdent y = false) :
    emitted (x :: run ++ tl) beyond = x :: run ++ 10 :: emitted tl beyond := by
  have e : x :: run ++ tl = (x :: run) ++ tl := rfl
  have hh := holds_mem beyond (x :: run ++ tl)
  have hh1 : holds (mem ((x :: run) ++ tl) beyond) 1 (run ++ tl) := hh.2
  obtain ⟨hr, ht⟩ := (holds_append _ run tl 1).1 hh1
  have hp0 : mem ((x :: run) ++ tl) beyond Scan.init.ofs = x := hh.1
  obtain ⟨u, hu, h1, h2, h3⟩ := step_alpha (mem ((x :: run) ++ tl) beyond)
    ((x :: run) ++ tl).length Scan.init (by rw [hp0]; exact hx)
  have hw := scanWhile_run (mem ((x :: run) ++ tl) beyond) ((x :: run) ++ tl).length
    (hasType (C_ALPHA ||| C_DIGIT)) true run (copyByte (mem ((x :: run) ++ tl) beyond) u)
    (by simpa [h1, Scan.init] using hr)
    (by intro y hy; rw [hasType_ident]; exact hrun y hy)
    (by simp [h1, Scan.init]; omega)
    (by
      intro hlt
      simp [h1, Scan.init] at hlt ⊢
      cases tl with
      | nil => exfalso; simp at hlt; omega
      | cons y tl =>
        have hy : mem ((x :: run) ++ y :: tl) beyond (1 + run.length) = y := ht.1
        rw [List.cons_append] at hy
        rw [hy, hasType_ident]
        exact htl y (by simp))
  have hs : step (mem ((x :: run) ++ tl) beyond) ((x :: run) ++ tl).length Scan.init
      = (scanWhile (mem ((x :: run) ++ tl) beyond) ((x :: run) ++ tl).length
          (hasType (C_ALPHA ||| C_DIGIT)) true
          (copyByte (mem ((x :: run) ++ tl) beyond) u)).push 10 := hu
  have hpu : mem ((x :: run) ++ tl) beyond u.ofs = x := by rw [h1]; exact hp0
  rw [e, emitted_append (x :: run) tl beyond (by simp)
    (by rw [hs, push_ofs, hw.1]; simp [h1, Scan.init]; omega)
    (by rw [hs, push_fault, hw.2.2]; simp [h3, Scan.init]),
    hs, push_out, hw.2.1]
  have hpu2 : mem (x :: (run ++ tl)) beyond u.ofs = x := hpu
  simp [h2, Scan.init, hpu2]

/-! ## The scan depends only on the bytes it reads -/

theorem rd_reads_sub (s : Scan) (i : Nat) : s.reads ⊆ (s.rd i).reads :=
  List.subset_append_left _ _

theorem copyByte_reads (p : Nat → Nat) (s : Scan) : (copyByte p s).reads = s.reads ++ [s.ofs] := rfl

theorem runWhile_reads_sub (p : Nat → Nat) (size : Nat) (c : Nat → Bool) (emit : Bool) :
    ∀ (n : Nat) (s : Scan), s.reads ⊆ (runWhile p size c emit n s).reads := by
  intro n
  induction n with
  | zero => intro s; exact List.Subset.refl _
  | succ n ih =>
    intro s
    unfold runWhile
    split
    · split
      · refine List.Subset.trans ?_ (ih _)
        cases emit
        · exact List.subset_append_left _ _
        · exact List.Subset.trans (List.subset_append_left _ [s.ofs])
            (List.subset_append_left _ _)
      · exact List.subset_append_left _ _
    · exact List.Subset.refl _

theorem scanWhile_reads_sub (p : Nat → Nat) (size : Nat) (c : Nat → Bool) (emit : Bool)
    (s : Scan) : s.reads ⊆ (scanWhile p size c emit s).reads :=
  runWhile_reads_sub p size c emit _ s

theorem skipLine_reads_sub (p : Nat → Nat) (size : Nat) (s : Scan) :
    s.reads ⊆ (skipLine p size s).reads :=
  scanWhile_reads_sub p size _ false (s.adv 1)

theorem verbatimLine_reads_sub (p : Nat → Nat) (size : Nat) (s : Scan) :
    s.reads ⊆ (verbatimLine p size s).reads :=
  List.Subset.trans (List.subset_append_left _ [s.ofs])
    (scanWhile_reads_sub p size _ true (copyByte p s))

theorem directive_reads_sub (p : Nat → Nat) (size : Nat) (s : Scan) :
    s.reads ⊆ (directive p size s).reads := by
  unfold directive
  dsimp only
  split
  · split
    · split
      · exact List.Subset.trans (List.Subset.trans (rd_reads_sub s _) (rd_reads_sub _ _))
          (skipLine_reads_sub p size _)
      · exact List.Subset.trans (List.Subset.trans (rd_reads_sub s _) (rd_reads_sub _ _))
          (verbatimLine_reads_sub p size _)
    · exact List.Subset.trans (rd_reads_sub s _) (verbatimLine_reads_sub p size _)
  · exact verbatimLine_reads_sub p size s

theorem identifier_reads_sub (p : Nat → Nat) (size : Nat) (s : Scan) :
    s.reads ⊆ (identifier p size s).reads :=
  List.Subset.trans (List.subset_append_left _ [s.ofs])
    (scanWhile_reads_sub p size _ true (copyByte p s))

theorem hexPart_reads_sub (p : Nat → Nat) (size : Nat) (s : Scan) :
    s.reads ⊆ (hexPart p size s).reads := by
  unfold hexPart
  dsimp only
  split
  · exact List.Subset.trans
      (List.Subset.trans (rd_reads_sub s _) (List.subset_append_left _ [s.ofs]))
      (scanWhile_reads_sub p size _ true (copyByte p (s.rd s.ofs)))
  · exact rd_reads_sub s _

theorem expPart_reads_sub (p : Nat → Nat) (size : Nat) (s : Scan) :
    s.reads ⊆ (expPart p size s).reads := by
  unfold expPart
  dsimp only
  split
  · exact List.Subset.trans
      (List.Subset.trans (rd_reads_sub s _) (List.subset_append_left _ [s.ofs]))
      (scanWhile_reads_sub p size _ true (copyByte p (s.rd s.ofs)))
  · exact rd_reads_sub s _

theorem number_reads_sub (p : Nat → Nat) (size : Nat) (s : Scan) :
    s.reads ⊆ (number p size s).reads :=
  List.Subset.trans (List.subset_append_left _ [s.ofs])
    (List.Subset.trans (scanWhile_reads_sub p size _ true (copyByte p s))
      (List.Subset.trans (hexPart_reads_sub p size _)
        (List.Subset.trans (expPart_reads_sub p size _)
          (scanWhile_reads_sub p size _ true _))))

theorem whitespace_reads_sub (p : Nat → Nat) (size : Nat) (s : Scan) :
    s.reads ⊆ (whitespace p size s).reads :=
  scanWhile_reads_sub p size _ false (s.adv 1)

theorem escLoop_reads_sub (p : Nat → Nat) (size : Nat) :
    ∀ (n : Nat) (s : Scan), s.reads ⊆ (escLoop p size n s).reads := by
  intro n
  induction n with
  | zero => intro s; exact List.Subset.refl _
  | succ n ih =>
    intro s
    unfold escLoop
    split
    · split
      · refine List.Subset.trans ?_ (ih _)
        intro i hi
        simp
        exact Or.inl hi
      · exact rd_reads_sub s _
    · exact List.Subset.refl _

theorem quoteRest_reads_sub (p : Nat → Nat) (size : Nat) (s : Scan) :
    s.reads ⊆ (quoteRest p size s).reads :=
  List.Subset.trans (escLoop_reads_sub p size _ s) (rd_reads_sub _ _)

theorem quoteBody_reads_sub (p : Nat → Nat) (size : Nat) (s : Scan) :
    s.reads ⊆ (quoteBody p size s).reads :=
  quoteRest_reads_sub p size (s.adv 1)

theorem quoteLoop_reads_sub (p : Nat → Nat) (size q : Nat) :
    ∀ (n : Nat) (s : Scan), s.reads ⊆ (quoteLoop p size q n s).reads := by
  intro n
  induction n with
  | zero => intro s; exact List.Subset.refl _
  | succ n ih =>
    intro s
    unfold quoteLoop
    dsimp only
    split
    · split
      · exact List.Subset.trans (List.Subset.trans (rd_reads_sub s s.ofs)
          (quoteBody_reads_sub p size _)) (ih _)
      · exact rd_reads_sub s _
    · exact List.Subset.refl _

theorem literal_reads_sub (p : Nat → Nat) (size : Nat) (s : Scan) :
    s.reads ⊆ (literal p size s).reads := by
  unfold literal
  dsimp only
  have h1 : s.reads ⊆ (((s.rd s.ofs).rd s.ofs).push (p s.ofs)).reads :=
    List.Subset.trans (rd_reads_sub s _) (rd_reads_sub _ _)
  exact List.Subset.trans h1
    (List.Subset.trans (quoteBody_reads_sub p size _) (quoteLoop_reads_sub p size _ _ _))

theorem matchAt_reads_sub (p : Nat → Nat) :
    ∀ (cs : List Nat) (i : Nat) (s : Scan), s.reads ⊆ (matchAt p i cs s).2.reads := by
  intro cs
  induction cs with
  | nil => intro i s; exact List.Subset.refl _
  | cons c cs ih =>
    intro i s
    unfold matchAt
    dsimp only
    split
    · exact List.Subset.trans (rd_reads_sub s _) (ih _ _)
    · exact rd_reads_sub s _

theorem copyTok_reads : ∀ (cs : List Nat) (s : Scan), (copyTok cs s).reads = s.reads := by
  intro cs
  induction cs with
  | nil => intro s; rfl
  | cons c cs ih =>
    intro s
    simp only [copyTok, List.foldl_cons]
    exact ih _

theorem findTok_reads_sub (p : Nat → Nat) :
    ∀ (l : List (Option (List Nat))) (s : Scan), s.reads ⊆ (findTok p l s).reads := by
  intro l
  induction l with
  | nil => intro s; exact List.Subset.refl _
  | cons o l ih =>
    intro s
    cases o with
    | none => exact List.Subset.refl _
    | some cs =>
      unfold findTok
      dsimp only
      split
      · rw [push_reads, copyTok_reads]
        exact matchAt_reads_sub p cs s.ofs s
      · exact List.Subset.trans (matchAt_reads_sub p cs s.ofs s) (ih _)

theorem operator_reads_sub (p : Nat → Nat) (s : Scan) : s.reads ⊆ (operator p s).reads := by
  unfold operator
  dsimp only
  split
  · exact rd_reads_sub s _
  · exact List.Subset.trans (rd_reads_sub s _) (findTok_reads_sub p _ _)

theorem step_reads_sub (p : Nat → Nat) (size : Nat) (s : Scan) :
    s.reads ⊆ (step p size s).reads := by
  have r1 : s.reads ⊆ (s.rd s.ofs).reads := rd_reads_sub s _
  have r2 := List.Subset.trans r1 (rd_reads_sub (s.rd s.ofs) s.ofs)
  have r3 := List.Subset.trans r2 (rd_reads_sub ((s.rd s.ofs).rd s.ofs) s.ofs)
  have r4 := List.Subset.trans r3 (rd_reads_sub (((s.rd s.ofs).rd s.ofs).rd s.ofs) s.ofs)
  have r5 := List.Subset.trans r4
    (rd_reads_sub ((((s.rd s.ofs).rd s.ofs).rd s.ofs).rd s.ofs) s.ofs)
  have r6 := List.Subset.trans r5
    (rd_reads_sub (((((s.rd s.ofs).rd s.ofs).rd s.ofs).rd s.ofs).rd s.ofs) s.ofs)
  unfold step
  dsimp only
  split
  · exact List.Subset.trans r1 (directive_reads_sub p size _)
  · split
    · exact List.Subset.trans r2 (identifier_reads_sub p size _)
    · split
      · exact List.Subset.trans r3 (number_reads_sub p size _)
      · split
        · exact List.Subset.trans r4 (whitespace_reads_sub p size _)
        · split
          · exact List.Subset.trans r5 (literal_reads_sub p size _)
          · split
            · exact List.Subset.trans r6 (operator_reads_sub p _)
            · exact List.Subset.trans r6 (rd_reads_sub _ _)

theorem mainLoop_reads_sub (p : Nat → Nat) (size : Nat) :
    ∀ (n : Nat) (s : Scan), s.reads ⊆ (mainLoop p size n s).reads := by
  intro n
  induction n with
  | zero => intro s; exact List.Subset.refl _
  | succ n ih =>
    intro s
    unfold mainLoop
    split
    · exact List.Subset.trans (step_reads_sub p size s) (ih _)
    · exact List.Subset.refl _

theorem readsAgree.mono {p q : Nat → Nat} {s t : Scan} (h : readsAgree p q t)
    (hs : s.reads ⊆ t.reads) : readsAgree p q s := fun i hi => h i (hs hi)

theorem readsAgree.at_rd {p q : Nat → Nat} {s t : Scan} {i : Nat} (h : readsAgree p q t)
    (hs : (s.rd i).reads ⊆ t.reads) : p i = q i :=
  h i (hs (by simp))

theorem copyByte_frame (p q : Nat → Nat) (s : Scan) (h : readsAgree p q (copyByte p s)) :
    copyByte q s = copyByte p s := by
  have hb : p s.ofs = q s.ofs := h s.ofs (by simp [copyByte_reads])
  unfold copyByte
  rw [hb]

theorem runWhile_frame (p q : Nat → Nat) (size : Nat) (c : Nat → Bool) (emit : Bool) :
    ∀ (n : Nat) (s : Scan), readsAgree p q (runWhile p size c emit n s) →
      runWhile q size c emit n s = runWhile p size c emit n s := by
  intro n
  induction n with
  | zero => intro s _; rfl
  | succ n ih =>
    intro s h
    by_cases h1 : s.ofs < size
    · by_cases hc : c (p s.ofs) = true
      · have e : runWhile p size c emit (n + 1) s
            = runWhile p size c emit n (if emit then copyByte p (s.rd s.ofs) else (s.rd s.ofs).adv 1)
            := by simp [runWhile, h1, hc]
        rw [e] at h ⊢
        have hsub : (s.rd s.ofs).reads ⊆ (runWhile p size c emit n
            (if emit then copyByte p (s.rd s.ofs) else (s.rd s.ofs).adv 1)).reads := by
          refine List.Subset.trans ?_ (runWhile_reads_sub p size c emit n _)
          cases emit
          · exact List.Subset.refl _
          · exact List.subset_append_left _ _
        have hb : p s.ofs = q s.ofs := h.at_rd hsub
        have e2 : runWhile q size c emit (n + 1) s
            = runWhile q size c emit n (if emit then copyByte q (s.rd s.ofs) else (s.rd s.ofs).adv 1)
            := by simp [runWhile, h1, ← hb, hc]
        have e3 : copyByte q (s.rd s.ofs) = copyByte p (s.rd s.ofs) := by
          unfold copyByte
          simp only [rd_ofs, hb]
        rw [e2, e3]
        exact ih _ h
      · have e : runWhile p size c emit (n + 1) s = s.rd s.ofs := by simp [runWhile, h1, hc]
        rw [e] at h ⊢
        have hb : p s.ofs = q s.ofs := h.at_rd (List.Subset.refl _)
        simp [runWhile, h1, ← hb, hc]
    · simp [runWhile, h1]

theorem scanWhile_frame (p q : Nat → Nat) (size : Nat) (c : Nat → Bool) (emit : Bool) (s : Scan)
    (h : readsAgree p q (scanWhile p size c emit s)) :
    scanWhile q size c emit s = scanWhile p size c emit s :=
  runWhile_frame p q size c emit _ s h

theorem skipLine_frame (p q : Nat → Nat) (size : Nat) (s : Scan)
    (h : readsAgree p q (skipLine p size s)) : skipLine q size s = skipLine p size s := by
  unfold skipLine at h ⊢
  rw [scanWhile_frame p q size _ false (s.adv 1) h]

theorem verbatimLine_frame (p q : Nat → Nat) (size : Nat) (s : Scan)
    (h : readsAgree p q (verbatimLine p size s)) :
    verbatimLine q size s = verbatimLine p size s := by
  unfold verbatimLine at h ⊢
  have h1 : readsAgree p q (scanWhile p size (fun c => c != 10) true (copyByte p s)) := h
  have h2 : readsAgree p q (copyByte p s) := h1.mono (scanWhile_reads_sub p size _ true _)
  rw [copyByte_frame p q s h2, scanWhile_frame p q size _ true _ h1]

theorem directive_frame (p q : Nat → Nat) (size : Nat) (s : Scan)
    (h : readsAgree p q (directive p size s)) : directive q size s = directive p size s := by
  by_cases h1 : size - s.ofs > 2
  · by_cases h2 : p (s.ofs + 1) = 32
    · by_cases h3 : isdigit (p (s.ofs + 2)) = true
      · have e : directive p size s = skipLine p size ((s.rd (s.ofs + 1)).rd (s.ofs + 2)) := by
          simp [directive, h1, h2, h3]
        rw [e] at h ⊢
        have hs := skipLine_reads_sub p size ((s.rd (s.ofs + 1)).rd (s.ofs + 2))
        have hb2 : p (s.ofs + 2) = q (s.ofs + 2) := h.at_rd hs
        have hb1 : p (s.ofs + 1) = q (s.ofs + 1) :=
          h.at_rd (List.Subset.trans (rd_reads_sub _ _) hs)
        have e2 : directive q size s = skipLine q size ((s.rd (s.ofs + 1)).rd (s.ofs + 2)) := by
          simp [directive, h1, ← hb1, ← hb2, h2, h3]
        rw [e2, skipLine_frame p q size _ h]
      · have e : directive p size s
            = verbatimLine p size ((s.rd (s.ofs + 1)).rd (s.ofs + 2)) := by
          simp [directive, h1, h2, h3]
        rw [e] at h ⊢
        have hs := verbatimLine_reads_sub p size ((s.rd (s.ofs + 1)).rd (s.ofs + 2))
        have hb2 : p (s.ofs + 2) = q (s.ofs + 2) := h.at_rd hs
        have hb1 : p (s.ofs + 1) = q (s.ofs + 1) :=
          h.at_rd (List.Subset.trans (rd_reads_sub _ _) hs)
        have e2 : directive q size s
            = verbatimLine q size ((s.rd (s.ofs + 1)).rd (s.ofs + 2)) := by
          simp [directive, h1, ← hb1, ← hb2, h2, h3]
        rw [e2, verbatimLine_frame p q size _ h]
    · have e : directive p size s = verbatimLine p size (s.rd (s.ofs + 1)) := by
        simp [directive, h1, h2]
      rw [e] at h ⊢
      have hs := verbatimLine_reads_sub p size (s.rd (s.ofs + 1))
      have hb1 : p (s.ofs + 1) = q (s.ofs + 1) := h.at_rd hs
      have e2 : directive q size s = verbatimLine q size (s.rd (s.ofs + 1)) := by
        simp [directive, h1, ← hb1, h2]
      rw [e2, verbatimLine_frame p q size _ h]
  · have e : directive p size s = verbatimLine p size s := by simp [directive, h1]
    rw [e] at h ⊢
    have e2 : directive q size s = verbatimLine q size s := by simp [directive, h1]
    rw [e2, verbatimLine_frame p q size _ h]

theorem identifier_frame (p q : Nat → Nat) (size : Nat) (s : Scan)
    (h : readsAgree p q (identifier p size s)) :
    identifier q size s = identifier p size s := by
  unfold identifier at h ⊢
  have h1 : readsAgree p q (scanWhile p size (hasType (C_ALPHA ||| C_DIGIT)) true
      (copyByte p s)) := h
  have h2 : readsAgree p q (copyByte p s) := h1.mono (scanWhile_reads_sub p size _ true _)
  rw [copyByte_frame p q s h2, scanWhile_frame p q size _ true _ h1]

theorem hexPart_frame (p q : Nat → Nat) (size : Nat) (s : Scan)
    (h : readsAgree p q (hexPart p size s)) : hexPart q size s = hexPart p size s := by
  have hb : p s.ofs = q s.ofs :=
    h.at_rd (by
      unfold hexPart
      dsimp only
      split
      · exact List.Subset.trans (List.subset_append_left _ [s.ofs])
          (scanWhile_reads_sub p size _ true (copyByte p (s.rd s.ofs)))
      · exact List.Subset.refl _)
  unfold hexPart at h ⊢
  dsimp only at h ⊢
  rw [← hb]
  by_cases hc : p s.ofs = 120 ∨ p s.ofs = 88
  · simp only [hc, if_true] at h ⊢
    have h2 : readsAgree p q (copyByte p (s.rd s.ofs)) :=
      h.mono (scanWhile_reads_sub p size _ true _)
    rw [copyByte_frame p q _ h2, scanWhile_frame p q size _ true _ h]
  · simp only [hc, if_false]

theorem expPart_frame (p q : Nat → Nat) (size : Nat) (s : Scan)
    (h : readsAgree p q (expPart p size s)) : expPart q size s = expPart p size s := by
  have hb : p s.ofs = q s.ofs :=
    h.at_rd (by
      unfold expPart
      dsimp only
      split
      · exact List.Subset.trans (List.subset_append_left _ [s.ofs])
          (scanWhile_reads_sub p size _ true (copyByte p (s.rd s.ofs)))
      · exact List.Subset.refl _)
  unfold expPart at h ⊢
  dsimp only at h ⊢
  rw [← hb]
  by_cases hc : p s.ofs = 69 ∨ p s.ofs = 101
  · simp only [hc, if_true] at h ⊢
    have h2 : readsAgree p q (copyByte p (s.rd s.ofs)) :=
      h.mono (scanWhile_reads_sub p size _ true _)
    rw [copyByte_frame p q _ h2, scanWhile_frame p q size _ true _ h]
  · simp only [hc, if_false]

theorem number_frame (p q : Nat → Nat) (size : Nat) (s : Scan)
    (h : readsAgree p q (number p size s)) : number q size s = number p size s := by
  unfold number at h ⊢
  dsimp only at h ⊢
  have h4 : readsAgree p q (scanWhile p size (hasType C_FLOAT) true (expPart p size
      (hexPart p size (scanWhile p size (fun c => hasType C_DIGIT c || c == 46) true
        (copyByte p s))))) := h
  have h3 := h4.mono (scanWhile_reads_sub p size (hasType C_FLOAT) true _)
  have h2 := h3.mono (expPart_reads_sub p size _)
  have h1 := h2.mono (hexPart_reads_sub p size _)
  have h0 := h1.mono (scanWhile_reads_sub p size _ true _)
  rw [copyByte_frame p q s h0, scanWhile_frame p q size _ true _ h1,
    hexPart_frame p q size _ h2, expPart_frame p q size _ h3,
    scanWhile_frame p q size _ true _ h4]

theorem whitespace_frame (p q : Nat → Nat) (size : Nat) (s : Scan)
    (h : readsAgree p q (whitespace p size s)) :
    whitespace q size s = whitespace p size s :=
  scanWhile_frame p q size _ false (s.adv 1) h

theorem escLoop_frame (p q : Nat → Nat) (size : Nat) :
    ∀ (n : Nat) (s : Scan), readsAgree p q (escLoop p size n s) →
      escLoop q size n s = escLoop p size n s := by
  intro n
  induction n with
  | zero => intro s _; rfl
  | succ n ih =>
    intro s h
    by_cases h1 : s.ofs < size - 1
    · by_cases hc : p s.ofs = 92
      · have e : escLoop p size (n + 1) s = escLoop p size n
            (((((s.rd s.ofs).rd s.ofs).push (p s.ofs)).rd (s.ofs + 1)).push (p (s.ofs + 1))
              |>.adv 2) := by
          simp [escLoop, h1, hc]
        rw [e] at h ⊢
        have hsub := escLoop_reads_sub p size n
          (((((s.rd s.ofs).rd s.ofs).push (p s.ofs)).rd (s.ofs + 1)).push (p (s.ofs + 1))
              |>.adv 2)
        have hb : p s.ofs = q s.ofs := h s.ofs (hsub (by simp))
        have hb1 : p (s.ofs + 1) = q (s.ofs + 1) := h (s.ofs + 1) (hsub (by simp))
        have e2 : escLoop q size (n + 1) s = escLoop q size n
            (((((s.rd s.ofs).rd s.ofs).push (p s.ofs)).rd (s.ofs + 1)).push (p (s.ofs + 1))
              |>.adv 2) := by
          simp [escLoop, h1, ← hb, ← hb1, hc]
        rw [e2]
        exact ih _ h
      · have e : escLoop p size (n + 1) s = s.rd s.ofs := by simp [escLoop, h1, hc]
        rw [e] at h ⊢
        have hb : p s.ofs = q s.ofs := h.at_rd (List.Subset.refl _)
        simp [escLoop, h1, ← hb, hc]
    · simp [escLoop, h1]

theorem quoteRest_frame (p q : Nat → Nat) (size : Nat) (s : Scan)
    (h : readsAgree p q (quoteRest p size s)) : quoteRest q size s = quoteRest p size s := by
  unfold quoteRest at h ⊢
  dsimp only at h ⊢
  have h1 : readsAgree p q (escLoop p size (size - s.ofs) s) :=
    h.mono (rd_reads_sub _ _)
  have hb : p (escLoop p size (size - s.ofs) s).ofs = q (escLoop p size (size - s.ofs) s).ofs :=
    h _ (by simp)
  rw [escLoop_frame p q size _ s h1, hb]

theorem quoteBody_frame (p q : Nat → Nat) (size : Nat) (s : Scan)
    (h : readsAgree p q (quoteBody p size s)) : quoteBody q size s = quoteBody p size s :=
  quoteRest_frame p q size (s.adv 1) h

theorem quoteLoop_frame (p q : Nat → Nat) (size c : Nat) :
    ∀ (n : Nat) (s : Scan), readsAgree p q (quoteLoop p size c n s) →
      quoteLoop q size c n s = quoteLoop p size c n s := by
  intro n
  induction n with
  | zero => intro s _; rfl
  | succ n ih =>
    intro s h
    by_cases h1 : s.ofs < size
    · by_cases hc : p s.ofs = c
      · have e : quoteLoop p size c (n + 1) s = s.rd s.ofs := by simp [quoteLoop, h1, hc]
        rw [e] at h ⊢
        have hb : p s.ofs = q s.ofs := h.at_rd (List.Subset.refl _)
        simp [quoteLoop, h1, ← hb, hc]
      · have e : quoteLoop p size c (n + 1) s
            = quoteLoop p size c n (quoteBody p size (s.rd s.ofs)) := by
          simp [quoteLoop, h1, hc]
        rw [e] at h ⊢
        have h2 : readsAgree p q (quoteBody p size (s.rd s.ofs)) :=
          h.mono (quoteLoop_reads_sub p size c n _)
        have hb : p s.ofs = q s.ofs :=
          h2.at_rd (quoteBody_reads_sub p size (s.rd s.ofs))
        have e2 : quoteLoop q size c (n + 1) s
            = quoteLoop q size c n (quoteBody q size (s.rd s.ofs)) := by
          simp [quoteLoop, h1, ← hb, hc]
        rw [e2, quoteBody_frame p q size _ h2]
        exact ih _ h
    · simp [quoteLoop, h1]

theorem literal_frame (p q : Nat → Nat) (size : Nat) (s : Scan)
    (h : readsAgree p q (literal p size s)) : literal q size s = literal p size s := by
  have hsub := literal_reads_sub p size s
  unfold literal at h ⊢
  dsimp only at h ⊢
  have h3 : readsAgree p q (quoteLoop p size (p s.ofs)
      (size - (quoteBody p size (((s.rd s.ofs).rd s.ofs).push (p s.ofs))).ofs)
      (quoteBody p size (((s.rd s.ofs).rd s.ofs).push (p s.ofs)))) := h
  have h2 : readsAgree p q (quoteBody p size (((s.rd s.ofs).rd s.ofs).push (p s.ofs))) :=
    h3.mono (quoteLoop_reads_sub p size _ _ _)
  have hb : p s.ofs = q s.ofs :=
    h2 s.ofs (quoteBody_reads_sub p size _ (by simp))
  rw [← hb, quoteBody_frame p q size _ h2, quoteLoop_frame p q size _ _ _ h3]

theorem matchAt_frame (p q : Nat → Nat) :
    ∀ (cs : List Nat) (i : Nat) (s : Scan), readsAgree p q (matchAt p i cs s).2 →
      matchAt q i cs s = matchAt p i cs s := by
  intro cs
  induction cs with
  | nil => intro i s _; rfl
  | cons c cs ih =>
    intro i s h
    by_cases hc : p i = c
    · have e : matchAt p i (c :: cs) s = matchAt p (i + 1) cs (s.rd i) := by
        simp [matchAt, hc]
      rw [e] at h ⊢
      have hb : p i = q i := h.at_rd (matchAt_reads_sub p cs (i + 1) (s.rd i))
      have e2 : matchAt q i (c :: cs) s = matchAt q (i + 1) cs (s.rd i) := by
        simp [matchAt, ← hb, hc]
      rw [e2]
      exact ih _ _ h
    · have e : matchAt p i (c :: cs) s = (false, s.rd i) := by simp [matchAt, hc]
      rw [e] at h ⊢
      have hb : p i = q i := h.at_rd (List.Subset.refl _)
      simp [matchAt, ← hb, hc]

theorem findTok_frame (p q : Nat → Nat) :
    ∀ (l : List (Option (List Nat))) (s : Scan), readsAgree p q (findTok p l s) →
      findTok q l s = findTok p l s := by
  intro l
  induction l with
  | nil => intro s _; rfl
  | cons o l ih =>
    intro s h
    cases o with
    | none => rfl
    | some cs =>
      by_cases hm : (matchAt p s.ofs cs s).1 = true
      · have e : findTok p (some cs :: l) s = (copyTok cs (matchAt p s.ofs cs s).2).push 10 := by
          simp [findTok, hm]
        rw [e] at h ⊢
        have h2 : readsAgree p q (matchAt p s.ofs cs s).2 := by
          intro i hi
          exact h i (by rw [push_reads, copyTok_reads]; exact hi)
        have em := matchAt_frame p q cs s.ofs s h2
        simp [findTok, em, hm]
      · have e : findTok p (some cs :: l) s = findTok p l (matchAt p s.ofs cs s).2 := by
          simp [findTok, hm]
        rw [e] at h ⊢
        have h2 : readsAgree p q (matchAt p s.ofs cs s).2 :=
          h.mono (findTok_reads_sub p l _)
        have em := matchAt_frame p q cs s.ofs s h2
        have e2 : findTok q (some cs :: l) s = findTok q l (matchAt p s.ofs cs s).2 := by
          simp [findTok, em, hm]
        rw [e2]
        exact ih _ h

theorem operator_frame (p q : Nat → Nat) (s : Scan)
    (h : readsAgree p q (operator p s)) : operator q s = operator p s := by
  have hb : p s.ofs = q s.ofs := h.at_rd (by
    unfold operator
    dsimp only
    split
    · exact List.Subset.refl _
    · exact findTok_reads_sub p _ _)
  unfold operator at h ⊢
  dsimp only at h ⊢
  rw [← hb]
  by_cases hn : (tokens (p s.ofs)).num_toks = 0
  · simp only [hn, if_true]
  · simp only [hn, if_false] at h ⊢
    exact findTok_frame p q _ _ h

theorem fallback_frame (p q : Nat → Nat) (s : Scan)
    (h : readsAgree p q (fallback p s)) : fallback q s = fallback p s := by
  have hb : p s.ofs = q s.ofs := h s.ofs (by simp [fallback])
  unfold fallback
  rw [hb]

theorem step_frame (p q : Nat → Nat) (size : Nat) (s : Scan)
    (h : readsAgree p q (step p size s)) : step q size s = step p size s := by
  have hmem : s.ofs ∈ (step p size s).reads := by
    have h1 : s.ofs ∈ (s.rd s.ofs).reads := by simp
    unfold step
    dsimp only
    split
    · exact directive_reads_sub p size _ h1
    · split
      · exact identifier_reads_sub p size _ (rd_reads_sub _ _ h1)
      · split
        · exact number_reads_sub p size _ (rd_reads_sub _ _ (rd_reads_sub _ _ h1))
        · split
          · exact whitespace_reads_sub p size _
              (rd_reads_sub _ _ (rd_reads_sub _ _ (rd_reads_sub _ _ h1)))
          · split
            · exact literal_reads_sub p size _
                (rd_reads_sub _ _ (rd_reads_sub _ _ (rd_reads_sub _ _ (rd_reads_sub _ _ h1))))
            · split
              · exact operator_reads_sub p _ (rd_reads_sub _ _
                  (rd_reads_sub _ _ (rd_reads_sub _ _ (rd_reads_sub _ _
                    (rd_reads_sub _ _ h1)))))
              · exact rd_reads_sub _ _ (rd_reads_sub _ _
                  (rd_reads_sub _ _ (rd_reads_sub _ _ (rd_reads_sub _ _
                    (rd_reads_sub _ _ h1)))))
  have hb : p s.ofs = q s.ofs := h s.ofs hmem
  unfold step at h ⊢
  dsimp only at h ⊢
  rw [← hb]
  by_cases h1 : p s.ofs = 35
  · simp only [h1, if_true] at h ⊢
    exact directive_frame p q size _ h
  · simp only [h1, if_false] at h ⊢
    by_cases h2 : hasType C_ALPHA (p s.ofs) = true
    · simp only [h2, if_true] at h ⊢
      exact identifier_frame p q size _ h
    · simp only [h2, if_false, Bool.false_eq_true] at h ⊢
      by_cases h3 : hasType C_DIGIT (p s.ofs) = true
      · simp only [h3, if_true] at h ⊢
        exact number_frame p q size _ h
      · simp only [h3, if_false, Bool.false_eq_true] at h ⊢
        by_cases h4 : hasType C_SPACE (p s.ofs) = true
        · simp only [h4, if_true] at h ⊢
          exact whitespace_frame p q size _ h
        · simp only [h4, if_false, Bool.false_eq_true] at h ⊢
          by_cases h5 : hasType C_QUOTE (p s.ofs) = true
          · simp only [h5, if_true] at h ⊢
            exact literal_frame p q size _ h
          · simp only [h5, if_false, Bool.false_eq_true] at h ⊢
            by_cases h6 : hasType C_TOKEN (p s.ofs) = true
            · simp only [h6, if_true] at h ⊢
              exact operator_frame p q _ h
            · simp only [h6, if_false, Bool.false_eq_true] at h ⊢
              exact fallback_frame p q _ h

theorem mainLoop_frame (p q : Nat → Nat) (size : Nat) :
    ∀ (n : Nat) (s : Scan), readsAgree p q (mainLoop p size n s) →
      mainLoop q size n s = mainLoop p size n s := by
  intro n
  induction n with
  | zero => intro s _; rfl
  | succ n ih =>
    intro s h
    by_cases hc : s.ofs < size ∧ s.fault = false
    · have e : mainLoop p size (n + 1) s = mainLoop p size n (step p size s) := by
        simp [mainLoop, hc]
      rw [e] at h ⊢
      have h2 : readsAgree p q (step p size s) := h.mono (mainLoop_reads_sub p size n _)
      have e2 : mainLoop q size (n + 1) s = mainLoop q size n (step q size s) := by
        simp [mainLoop, hc]
      rw [e2, step_frame p q size s h2]
      exact ih _ h
    · simp [mainLoop, hc]

/-- The scan depends only on the bytes it reads: on a memory that holds the same
bytes at the indices read, the scan is the same. -/
theorem scan_frame (p q : Nat → Nat) (size : Nat) (h : readsAgree p q (scan p size)) :
    scan q size = scan p size :=
  mainLoop_frame p q size size Scan.init h

/-- A scan that reads only inside the buffer does not depend on the memory behind
the buffer. -/
theorem scan_inside (buf : List Nat) (b1 b2 : Nat → Nat)
    (h : ∀ i ∈ readIndices buf b1, i < buf.length) :
    scan (mem buf b2) buf.length = scan (mem buf b1) buf.length := by
  apply scan_frame
  intro i hi
  have := h i hi
  simp [mem, this]

/-- For a buffer whose scan reads only inside the buffer, what `unify` emits, reads
and hands to the sink does not depend on the memory behind the buffer. -/
theorem unify_inside (buf : List Nat) (b1 b2 : Nat → Nat)
    (h : ∀ i ∈ readIndices buf b1, i < buf.length) :
    emitted buf b2 = emitted buf b1 ∧ readIndices buf b2 = readIndices buf b1
      ∧ sinkCalls buf b2 = sinkCalls buf b1 := by
  have e := scan_inside buf b1 b2 h
  unfold emitted readIndices sinkCalls unify
  rw [e]
  exact ⟨rfl, rfl, rfl⟩

/-! ## Claims about the accumulator -/

/-- C10: complete, ordered delivery.  Non-zero bytes pushed one by one with
`pushchar` into an accumulator whose buffer is empty and that has made no sink
call yet, followed by the finalizing `pushchar(0)`: the payloads passed to
`hash_buffer`, concatenated in call order, are exactly the pushed bytes. -/
theorem pushchar_delivers_in_order (bs : List Nat) (a : Accum)
    (hbuf : a.buf.length = 64) (hlen : a.len = 0) (hcalls : a.calls = [])
    (hbs : ∀ c ∈ bs, c ≠ 0) :
    delivered (pushchar 0 (pushAll bs a)).calls = bs := by
  have hwf : a.wf := ⟨hbuf, by omega⟩
  rw [pushchar_zero_delivered, pushAll_stream bs a hwf hbs]
  simp [Accum.stream, hlen, hcalls, delivered]

/-- Witness of C10: 130 bytes (two full buffers and two more bytes). -/
theorem pushchar_delivers_in_order_witness :
    delivered (pushchar 0 (pushAll (List.replicate 128 7 ++ [8, 9]) Accum.init)).calls
      = List.replicate 128 7 ++ [8, 9] :=
  pushchar_delivers_in_order (List.replicate 128 7 ++ [8, 9]) Accum.init rfl rfl rfl
    (by intro c hc; simp [List.mem_replicate] at hc; omega)

/-- C9, at the one-byte input NUL, whatever the memory behind the buffer holds: the
fallback branch hands the NUL byte to `pushchar`, which takes it for the finalizing
call, so the sink sees two boundary signals, the first one in the middle of the
scan. -/
theorem unify_nul_byte_two_boundaries (beyond : Nat → Nat) :
    sinkCalls [0] beyond
      = [SinkCall.data [], SinkCall.boundary, SinkCall.data [10], SinkCall.boundary]
    ∧ boundaries (sinkCalls [0] beyond) = 2 := by
  have h := unify_inside [0] zeros beyond (by decide!)
  rw [h.2.2]
  decide!

/-! ## Claims settled by running the scanner -/

/-- C1, at three one-byte inputs: for the buffer `1` the number branch tests
`p[ofs]` against `x` after its digit loop without comparing `ofs` with `size`; for
an unterminated quote the quote branch pushes `p[ofs]` after `ofs++`; for the
operator byte `>` the comparison with `>>=` goes on to `p[1]`.  In each case,
whatever the memory behind the buffer holds, `p` is read at an index that is not
below `size = 1`; when that memory is zero-filled the index is 1. -/
theorem unify_reads_past_size (beyond : Nat → Nat) :
    (∃ i ∈ readIndices (str "1") beyond, (str "1").length ≤ i)
      ∧ (∃ i ∈ readIndices (str "\"") beyond, (str "\"").length ≤ i)
      ∧ (∃ i ∈ readIndices (str ">") beyond, (str ">").length ≤ i)
      ∧ 1 ∈ readIndices (str "1") zeros ∧ 1 ∈ readIndices (str "\"") zeros
      ∧ 1 ∈ readIndices (str ">") zeros := by
  have key : ∀ buf : List Nat, (∃ i ∈ readIndices buf zeros, buf.length ≤ i) →
      ∃ i ∈ readIndices buf beyond, buf.length ≤ i := by
    intro buf hz
    by_contra hcon
    have hin : ∀ i ∈ readIndices buf beyond, i < buf.length := by
      intro i hi
      by_contra hge
      exact hcon ⟨i, hi, by omega⟩
    have h := unify_inside buf beyond zeros hin
    obtain ⟨i, hi, hle⟩ := hz
    rw [h.2.1] at hi
    have := hin i hi
    omega
  exact ⟨key _ (by decide!), key _ (by decide!), key _ (by decide!), by decide!⟩

/-- C6, at the inputs `:>` and `x:>y`: the catalog holds the spelling `:>`, which is
the longest spelling the input has at the cursor, but the candidate list of `:` has
`:` before `:>`, so the first match is `:` and `unify` emits `:`, separator, `>`,
separator.  At the input `a>>=b` the first match is the longest one.  (The last two
inputs are read inside the buffer only, so the memory behind it does not matter.) -/
theorem unify_colon_greater_not_greedy (beyond : Nat → Nat) :
    str ":>" ∈ s_tokens
      ∧ (tokens 58).toks.take 2 = [some (str ":"), some (str ":>")]
      ∧ emitted (str ":>") zeros = str ":\n>\n"
      ∧ emitted (str "x:>y") beyond = str "x\n:\n>\ny\n"
      ∧ emitted (str "a>>=b") beyond = str "a\n>>=\nb\n" := by
  have h1 := unify_inside (str "x:>y") zeros beyond (by decide!)
  have h2 := unify_inside (str "a>>=b") zeros beyond (by decide!)
  rw [h1.1, h2.1]
  decide!

/-- C7, at the one-byte buffer `1` followed in memory by the byte `x`: the test
`p[ofs] == 'x'` after the digit loop reads the byte behind the buffer and the
number branch emits `1x` and a separator, not `1` and a separator (which it emits
when a NUL byte follows the buffer).  The three inputs `0x1Au`, `3.14e-10L` and
`1.0f` are emitted whole, with one separator, whatever follows the buffer. -/
theorem unify_number_reads_behind_buffer (beyond : Nat → Nat) :
    emitted (str "1") (fun _ => 120) = str "1x\n"
      ∧ emitted (str "1") zeros = str "1\n"
      ∧ emitted (str "0x1Au") beyond = str "0x1Au\n"
      ∧ emitted (str "3.14e-10L") beyond = str "3.14e-10L\n"
      ∧ emitted (str "1.0f") beyond = str "1.0f\n" := by
  have h1 := unify_inside (str "0x1Au") zeros beyond (by decide!)
  have h2 := unify_inside (str "3.14e-10L") zeros beyond (by decide!)
  have h3 := unify_inside (str "1.0f") zeros beyond (by decide!)
  rw [h1.1, h2.1, h3.1]
  decide!

/-- C8: for the input `int main(){return 1;}`, whatever the memory behind the buffer
holds, the dispatch loop emits the lexemes `int`, `main`, `(`, `)`, `{`, `return`,
`1`, `;`, `}`, each followed by one newline, 28 bytes in all; the sink receives them
in one `hash_buffer` call, followed by the single end-of-unit signal. -/
theorem unify_int_main (beyond : Nat → Nat) :
    emitted (str "int main()\x7breturn 1;\x7d") beyond
        = str "int\nmain\n(\n)\n\x7b\nreturn\n1\n;\n\x7d\n"
      ∧ (emitted (str "int main()\x7breturn 1;\x7d") beyond).length = 28
      ∧ sinkCalls (str "int main()\x7breturn 1;\x7d") beyond
        = [SinkCall.data (str "int\nmain\n(\n)\n\x7b\nreturn\n1\n;\n\x7d\n"),
            SinkCall.boundary]
      ∧ boundaries (sinkCalls (str "int main()\x7breturn 1;\x7d") beyond) = 1 := by
  have h := unify_inside (str "int main()\x7breturn 1;\x7d") zeros beyond (by decide!)
  rw [h.1, h.2.2]
  decide!

/-! ## Directive sensitivity -/

/-- C4: directive sensitivity.  For every tail and every two different lines that
start with `#`, are not line-number directives and hold neither a newline nor a
NUL byte, the bytes `unify` emits for the first line, a newline and the tail differ
from those it emits for the second line, a newline and the tail; so do the bytes
the sink receives. -/
theorem directive_sensitivity (l1 l2 tail : List Nat) (beyond : Nat → Nat)
    (h1 : genuineDirective l1) (h2 : genuineDirective l2) (hne : l1 ≠ l2) :
    emitted (l1 ++ 10 :: tail) beyond ≠ emitted (l2 ++ 10 :: tail) beyond
      ∧ delivered (sinkCalls (l1 ++ 10 :: tail) beyond)
          ≠ delivered (sinkCalls (l2 ++ 10 :: tail) beyond) := by
  have key : ∀ l : List Nat, genuineDirective l →
      emitted (l ++ 10 :: tail) beyond = l ++ 10 :: emitted tail beyond := by
    intro l hl
    have e : l ++ 10 :: tail = (l ++ [10]) ++ tail := by simp
    have hs := step_genuineDirective (mem ((l ++ [10]) ++ tail) beyond)
      ((l ++ [10]) ++ tail).length l hl (holds_mem_append _ _ _) (by simp)
    rw [e, emitted_append (l ++ [10]) tail beyond (by simp) (by simpa using hs.1) hs.2.2, hs.2.1]
    simp
  have nz : ∀ l : List Nat, genuineDirective l → l.filter (fun c => c != 0) = l := by
    intro l hl
    rw [List.filter_eq_self]
    intro c hc
    have : c ≠ 0 := fun h => hl.2.2.2 (h ▸ hc)
    simpa using this
  refine ⟨?_, ?_⟩
  · rw [key l1 h1, key l2 h2]
    intro h
    exact hne (List.append_cancel_right h)
  · unfold sinkCalls
    rw [delivered_unify, delivered_unify]
    have e1 := key l1 h1
    have e2 := key l2 h2
    unfold emitted at e1 e2
    rw [e1, e2]
    simp only [List.filter_append, nz l1 h1, nz l2 h2]
    intro h
    exact hne (List.append_cancel_right h)

/-- Witness of C4: `#define X 1` against `#define X 2`, followed by the line `int x;`. -/
theorem directive_sensitivity_witness :
    emitted (str "#define X 1" ++ 10 :: str "int x;") zeros
        ≠ emitted (str "#define X 2" ++ 10 :: str "int x;") zeros
      ∧ delivered (sinkCalls (str "#define X 1" ++ 10 :: str "int x;") zeros)
          ≠ delivered (sinkCalls (str "#define X 2" ++ 10 :: str "int x;") zeros) :=
  directive_sensitivity (str "#define X 1") (str "#define X 2") (str "int x;") zeros
    (by decide) (by decide) (by decide)

/-! ## Escaped-quote fidelity -/

/-- C5: escaped-quote fidelity.  For a literal made of an opening quote `q` (`'` or
`"`), a body of single bytes other than `q` and the backslash and of pairs of a
backslash and any byte, and the closing `q`, followed by any rest, `unify` emits the
bytes of the literal unchanged, one separator, and then what it emits for the rest. -/
theorem literal_fidelity (q : Nat) (its : List Item) (rest : List Nat) (beyond : Nat → Nat)
    (hq : q = 39 ∨ q = 34) (hok : ∀ it ∈ its, it.ok q = true) :
    emitted (q :: bodyBytes its ++ q :: rest) beyond
      = q :: bodyBytes its ++ q :: 10 :: emitted rest beyond := by
  have e : q :: bodyBytes its ++ q :: rest = (q :: bodyBytes its ++ [q]) ++ rest := by simp
  have hq92 : q ≠ 92 := by rcases hq with h | h <;> omega
  have hh := holds_mem_append (q :: bodyBytes its ++ [q]) rest beyond
  obtain ⟨u, hu, h1, h2, h3⟩ := step_quote (mem ((q :: bodyBytes its ++ [q]) ++ rest) beyond)
    ((q :: bodyBytes its ++ [q]) ++ rest).length Scan.init (by
      have h0 : mem ((q :: bodyBytes its ++ [q]) ++ rest) beyond Scan.init.ofs = q := hh.1
      rw [h0]; exact hq)
  have hl := literal_body (mem ((q :: bodyBytes its ++ [q]) ++ rest) beyond)
    ((q :: bodyBytes its ++ [q]) ++ rest).length q hq92 its u hok
    (by rw [h1]; exact hh) (by rw [h1]; simp [Scan.init])
  rw [← hu, h1, h2, h3] at hl
  rw [e, emitted_append _ rest beyond (by simp) (by rw [hl.1]; simp [Scan.init]) hl.2.2,
    hl.2.1]
  simp [Scan.init]

/-- Witness of C5: the input `"a\"b"` is emitted as its six bytes and one separator. -/
theorem literal_fidelity_witness :
    emitted (str "\"a\\\"b\"") zeros = str "\"a\\\"b\"\n" :=
  literal_fidelity 34 [Item.byte 97, Item.esc 34, Item.byte 98] [] zeros (Or.inr rfl) (by decide)

/-! ## Whitespace and line-number directives at lexeme boundaries -/

/-- C2, as stated, fails: `a b` and `ab` differ only by a run of whitespace outside
every literal, and `unify` emits `a`, separator, `b`, separator for the first and
`ab`, separator for the second; inside a verbatim `#` line whitespace is emitted. -/
theorem whitespace_invariance_fails :
    emitted (str "a" ++ (str " " ++ str "b")) zeros ≠ emitted (str "a" ++ str "b") zeros
      ∧ emitted (str "#define" ++ (str "  " ++ str " X")) zeros
          ≠ emitted (str "#define" ++ str " X") zeros := by
  decide!

/-- C2, amended: for every input `a ++ b` whose offset `|a|` is a lexeme boundary of
its scan (a cursor position of the dispatch loop, or an offset in the whitespace run
that starts at one), inserting a run `w` of whitespace bytes at that offset, or
removing it again, leaves the bytes `unify` emits unchanged. -/
theorem whitespace_invariance (a b w : List Nat) (beyond : Nat → Nat)
    (hw : ∀ y ∈ w, isspace y = true) (hbd : boundaryAt (a ++ b) beyond a.length) :
    emitted (a ++ (w ++ b)) beyond = emitted (a ++ b) beyond := by
  cases w with
  | nil => rfl
  | cons x w =>
    refine emitted_insert a b (x :: w) x beyond rfl
      (space_endsLexeme x (hw x (List.mem_cons_self _ _))) ?_ hbd
    intro r hr
    rw [← List.append_assoc]
    apply emitted_space_append
    intro y hy
    rcases List.mem_append.1 hy with h | h
    · exact hr y h
    · exact hw y h

/-- Witness of C2 (amended): blanks, a newline and a tab between `x=` and `1;`. -/
theorem whitespace_invariance_witness :
    emitted (str "x=" ++ (str "  \n\t" ++ str "1;")) zeros
      = emitted (str "x=" ++ str "1;") zeros :=
  whitespace_invariance (str "x=") (str "1;") (str "  \n\t") zeros (by decide) (by decide!)

/-- C3, as stated, fails: in the input `"a`, newline, `b"` the offset after the
newline is a line boundary inside a string literal, and a line `# 1 "f"` inserted
there is emitted as part of the literal. -/
theorem lineDirective_invariance_fails :
    emitted (str "\"a\n" ++ (str "# 1 \"f\"\n" ++ str "b\"")) zeros
      ≠ emitted (str "\"a\n" ++ str "b\"") zeros := by
  decide!

/-- C3, amended: for every input `a ++ b` whose offset `|a|` is a lexeme boundary of
its scan (so not an offset inside a string or character literal), inserting a
line-number directive line at that offset or deleting it leaves the bytes `unify`
emits unchanged, and so does replacing it by another line-number directive line
(other digits, other name). -/
theorem lineDirective_invariance (a b : List Nat) (d d2 : Nat) (ds ds2 : List Nat)
    (beyond : Nat → Nat)
    (hd : isdigit d = true) (hnl : 10 ∉ ds) (hd2 : isdigit d2 = true) (hnl2 : 10 ∉ ds2)
    (hbd : boundaryAt (a ++ b) beyond a.length) :
    emitted (a ++ (lineDirective d ds ++ b)) beyond = emitted (a ++ b) beyond
      ∧ emitted (a ++ (lineDirective d ds ++ b)) beyond
          = emitted (a ++ (lineDirective d2 ds2 ++ b)) beyond := by
  have h35 : endsLexeme 35 = true := by decide!
  have key : ∀ (e : Nat) (es : List Nat), isdigit e = true → 10 ∉ es →
      emitted (a ++ (lineDirective e es ++ b)) beyond = emitted (a ++ b) beyond := by
    intro e es he hes
    refine emitted_insert a b (lineDirective e es) 35 beyond rfl h35 ?_ hbd
    intro r hr
    rw [emitted_space_append r _ beyond hr]
    exact emitted_lineDirective_append e es b beyond he hes
  exact ⟨key d ds hd hnl, by rw [key d ds hd hnl, key d2 ds2 hd2 hnl2]⟩

/-- Witness of C3 (amended): the line `# 1 "a.c"` between two declaration lines,
and its renumbering to `# 27 "b.h"`. -/
theorem lineDirective_invariance_witness :
    emitted (str "int x;\n" ++ (lineDirective 49 (str " \"a.c\"") ++ str "int y;\n")) zeros
        = emitted (str "int x;\n" ++ str "int y;\n") zeros
      ∧ emitted (str "int x;\n" ++ (lineDirective 49 (str " \"a.c\"") ++ str "int y;\n")) zeros
          = emitted (str "int x;\n" ++ (lineDirective 50 (str "7 \"b.h\"") ++ str "int y;\n"))
              zeros :=
  lineDirective_invariance (str "int x;\n") (str "int y;\n") 49 50 (str " \"a.c\"")
    (str "7 \"b.h\"") zeros (by decide) (by decide) (by decide) (by decide) (by decide!)

/-! ## The operator catalog and the table -/

/-- C19, as stated, fails: the catalog does not have 44 entries. -/
theorem s_tokens_not_44 : s_tokens.length ≠ 44 := by decide

/-- C19, amended: the operator catalog `s_tokens` has exactly 50 entries. -/
theorem s_tokens_length : s_tokens.length = 50 := by decide

/-- C13, at the byte `:`: the candidate list of `:` is `:`, `:>`, so `:`, a proper
textual start of `:>`, stands before it.  It is the only pair of the table that
breaks the order: the candidate lists of all other bytes are in order. -/
theorem catalog_order_broken_at_colon :
    candidates 58 = [str ":", str ":>"]
      ∧ misordered (candidates 58) = [(str ":>", str ":")]
      ∧ (∀ c < 256, c ≠ 58 → misordered (candidates c) = [])
      ∧ candidates 62 = [str ">>=", str ">>", str ">=", str ">"] := by
  decide!

/-- C20: while `build_table` distributes the catalog, every store
`tokens[c].toks[tokens[c].num_toks] = s_tokens[i]` has its index `num_toks` below 7,
the number of slots of `toks`, and `c` below 256; no byte ends with more than 6
candidates. -/
theorem build_table_stores_in_bounds :
    (∀ i < s_tokens.length,
        (s_tokens.getD i []).headD 0 < 256
        ∧ ((tableAfter i).getD ((s_tokens.getD i []).headD 0) Entry.zero).toks.length = 7
        ∧ ((tableAfter i).getD ((s_tokens.getD i []).headD 0) Entry.zero).num_toks < 7)
      ∧ tableAfter s_tokens.length = build_table
      ∧ (∀ c < 256, (tokens c).num_toks ≤ 6 ∧ (tokens c).toks.length = 7) := by
  decide!

/-- C14: guaranteed match.  At every cursor position that holds a byte of the
operator-leading class, that byte has at least one candidate, the candidate search of
the operator branch finds its match at an index below the candidate count, and the
branch does not fault: no slot past the list is read. -/
theorem operator_guaranteed_match (p : Nat → Nat) (s : Scan)
    (h : hasType C_TOKEN (p s.ofs) = true) :
    0 < (tokens (p s.ofs)).num_toks
      ∧ (∃ i, findSlot p s.ofs (tokens (p s.ofs)).toks 0 = some i
          ∧ i < (tokens (p s.ofs)).num_toks)
      ∧ (operator p s).fault = s.fault :=
  operator_found p s h

/-- Witness of C14: the input `>=`, where the search stops at the third candidate of `>`. -/
theorem operator_guaranteed_match_witness :
    0 < (tokens (mem (str ">=") zeros Scan.init.ofs)).num_toks
      ∧ (∃ i, findSlot (mem (str ">=") zeros) Scan.init.ofs
            (tokens (mem (str ">=") zeros Scan.init.ofs)).toks 0 = some i
          ∧ i < (tokens (mem (str ">=") zeros Scan.init.ofs)).num_toks)
      ∧ (operator (mem (str ">=") zeros) Scan.init).fault = Scan.init.fault :=
  operator_guaranteed_match (mem (str ">=") zeros) Scan.init (by decide!)

/-- C11: termination.  Every pass through the body of the dispatch loop, whichever
branch it takes, moves the cursor forward by at least one and raises no fault; so
the loop of `unify(p, size)` ends after at most `size` passes, with the cursor at or
behind `size`. -/
theorem unify_terminates (p : Nat → Nat) (size : Nat) :
    (∀ s : Scan, s.fault = false →
        s.ofs < (step p size s).ofs ∧ (step p size s).fault = false)
      ∧ passes p size size Scan.init ≤ size
      ∧ size ≤ (scan p size).ofs ∧ (scan p size).fault = false :=
  ⟨fun s hf => ⟨step_ofs_gt p size s hf, by rw [step_fault]; exact hf⟩,
    passes_le p size size Scan.init,
    mainLoop_exit p size size Scan.init (by simp [Scan.init]) rfl,
    by unfold scan; rw [mainLoop_fault]; rfl⟩

/-- C15: line-number directive suppression.  For an input made of `#`, a space, a
decimal digit `d`, any bytes `ds` without a newline, a newline and any tail, `unify`
emits exactly what it emits for the tail alone. -/
theorem lineDirective_suppressed (d : Nat) (ds tail : List Nat) (beyond : Nat → Nat)
    (hd : isdigit d = true) (hnl : 10 ∉ ds) :
    emitted (35 :: 32 :: d :: ds ++ 10 :: tail) beyond = emitted tail beyond := by
  have e : 35 :: 32 :: d :: ds ++ 10 :: tail = lineDirective d ds ++ tail := by
    simp [lineDirective]
  rw [e]
  exact emitted_lineDirective_append d ds tail beyond hd hnl

/-- Witness of C15: the line `# 12 "foo.c"` in front of `int x;`. -/
theorem lineDirective_suppressed_witness :
    emitted (35 :: 32 :: 49 :: str "2 \"foo.c\"" ++ 10 :: str "int x;") zeros
      = emitted (str "int x;") zeros :=
  lineDirective_suppressed 49 (str "2 \"foo.c\"") (str "int x;") zeros (by decide) (by decide)

/-- C16: whitespace is silent.  For every non-empty run `w` of whitespace bytes
(space, tab, newline, vertical tab, form feed, carriage return) and every rest,
`unify` emits for `w` followed by the rest exactly what it emits for the rest. -/
theorem whitespace_silent (w rest : List Nat) (beyond : Nat → Nat)
    (_hne : w ≠ []) (hw : ∀ y ∈ w, isspace y = true) :
    emitted (w ++ rest) beyond = emitted rest beyond :=
  emitted_space_append w rest beyond hw

/-- Witness of C16: the six whitespace bytes in front of `x;`. -/
theorem whitespace_silent_witness :
    emitted ([32, 9, 10, 11, 12, 13] ++ str "x;") zeros = emitted (str "x;") zeros :=
  whitespace_silent [32, 9, 10, 11, 12, 13] (str "x;") zeros (by decide) (by decide)

/-- C17: identifier rule.  For every input whose first byte is an ASCII letter or an
underscore, `unify` emits the longest initial part of the input made of ASCII
letters, underscores and decimal digits, then one separator, then what it emits for
the remainder of the input. -/
theorem identifier_rule (x : Nat) (l : List Nat) (beyond : Nat → Nat)
    (hx : (isalpha x || x == 95) = true) :
    emitted (x :: l) beyond
      = (x :: l).takeWhile isIdent ++ 10 :: emitted ((x :: l).dropWhile isIdent) beyond := by
  have hxi : isIdent x = true := by
    simp only [isIdent, Bool.or_eq_true] at hx ⊢
    exact Or.inl hx
  rw [List.takeWhile_cons_of_pos hxi, List.dropWhile_cons_of_pos hxi]
  have e : x :: l = x :: l.takeWhile isIdent ++ l.dropWhile isIdent := by
    simp [List.takeWhile_append_dropWhile]
  conv => lhs; rw [e]
  exact emitted_ident_run x _ _ beyond hx (fun y hy => List.mem_takeWhile_imp hy)
    (dropWhile_head_not isIdent l)

/-- Witness of C17: the input `_a1+b`. -/
theorem identifier_rule_witness :
    emitted (95 :: str "a1+b") zeros
      = (95 :: str "a1+b").takeWhile isIdent
          ++ 10 :: emitted ((95 :: str "a1+b").dropWhile isIdent) zeros :=
  identifier_rule 95 (str "a1+b") zeros (by decide)

/-- C18: accumulator capacity.  Starting from the empty buffer, after any sequence
of `pushchar` calls the buffered length is below 64, so the next store `buf[len]`
falls inside the 64 slots of `buf` and the length after the next call is below 64
again; and a `pushchar` call with a non-zero byte makes no sink call or one
`hash_buffer` call with a payload of exactly 64 bytes. -/
theorem pushchar_capacity (bs : List Nat) (c : Nat) :
    (pushAll bs Accum.init).len < 64
      ∧ (pushAll bs Accum.init).len < (pushAll bs Accum.init).buf.length
      ∧ (pushchar c (pushAll bs Accum.init)).len < 64
      ∧ (c ≠ 0 → (pushchar c (pushAll bs Accum.init)).calls = (pushAll bs Accum.init).calls
          ∨ ∃ payload, (pushchar c (pushAll bs Accum.init)).calls
              = (pushAll bs Accum.init).calls ++ [SinkCall.data payload]
            ∧ payload.length = 64) := by
  have hwf := pushAll_wf bs Accum.init ⟨rfl, by decide⟩
  have hwf2 := pushchar_wf c _ hwf
  refine ⟨hwf.2, by rw [hwf.1]; exact hwf.2, hwf2.2, ?_⟩
  intro hc
  by_cases hfull : (pushAll bs Accum.init).len + 1 = 64
  · right
    refine ⟨((pushAll bs Accum.init).buf.set (pushAll bs Accum.init).len c).take 64, ?_, ?_⟩
    · simp [pushchar, hc, hfull]
    · rw [List.length_take, List.length_set, hwf.1]
      rfl
  · left
    simp [pushchar, hc, hfull]

/-- Witness of C18: the 64th non-zero byte flushes a payload of 64 bytes. -/
theorem pushchar_capacity_witness :
    (pushchar 7 (pushAll (List.replicate 63 7) Accum.init)).calls
        = (pushAll (List.replicate 63 7) Accum.init).calls
      ∨ ∃ payload, (pushchar 7 (pushAll (List.replicate 63 7) Accum.init)).calls
          = (pushAll (List.replicate 63 7) Accum.init).calls ++ [SinkCall.data payload]
        ∧ payload.length = 64 :=
  (pushchar_capacity (List.replicate 63 7) 7).2.2.2 (by decide)

/-- Witness of C11: the scan of `a>>=b` ends with the cursor at the end of the buffer. -/
theorem unify_terminates_witness :
    Scan.init.ofs < (step (mem (str "a>>=b") zeros) 5 Scan.init).ofs
      ∧ (step (mem (str "a>>=b") zeros) 5 Scan.init).fault = false :=
  (unify_terminates (mem (str "a>>=b") zeros) 5).1 Scan.init rfl

end Unify
